import Mathlib

/-! # User roster (`main.go`): validators and in-memory record operations

A shallow embedding of `src/main.go`.  Go strings are embedded as Lean `String`s
(valid UTF-8 text); `len(s)` is the length of the UTF-8 encoding in bytes.
The standard-library functions the program calls (`strconv.Atoi`,
`unicode.IsLetter`, `strings.ToLower`, `sort.Slice`, `encoding/json`) are not
part of the repository; each is embedded from the Go standard library's own
implementation or taken as a parameter, as stated at its definition.  `sort.Slice`
is embedded whole, as the pattern-defeating quicksort `pdqsort_func` of package
`sort` with all the functions it calls.
-/

namespace GoPromptUI

/-! ## `strconv.Atoi` (Go standard library, 64-bit `int`) -/

/-- The two error kinds of `strconv` (`ErrSyntax`, `ErrRange`). -/
inductive NumError where
  | errSyntax
  | errRange
  deriving DecidableEq, Repr

/-- `strconv.IntSize` on a 64-bit platform. -/
def intSize : Nat := 64

/-- `len(s)`: the number of bytes of the string. -/
def byteLen : List Char → Nat
  | [] => 0
  | c :: cs => c.utf8Size + byteLen cs

/-- Byte test `'0' <= c && c <= '9'`.  A character outside ASCII is encoded by
bytes that are all at least `0x80`, none of which is a digit. -/
def isDigitByte (c : Char) : Bool := 48 ≤ c.toNat && c.toNat ≤ 57

/-- Fast path loop of `Atoi`: `ch -= '0'; if ch > 9 { syntax error }; n = n*10 + int(ch)`.
`none` stands for the syntax error. -/
def atoiFastLoop : List Char → Int → Option Int
  | [], n => some n
  | c :: cs, n =>
    if isDigitByte c then atoiFastLoop cs (n * 10 + ((c.toNat - 48 : Nat) : Int))
    else none

/-- `maxUint64/10 + 1`: the smallest `n` with `n * 10 > maxUint64`. -/
def uintCutoff : Nat := (2 ^ 64 - 1) / 10 + 1

/-- `maxVal` in `ParseUint` for `bitSize = 64`. -/
def uintMaxVal : Nat := 2 ^ 64 - 1

/-- Digit value computed by `ParseUint`: decimal digits give `c - '0'`, ASCII
letters give `lower(c) - 'a' + 10`, every other byte is a syntax error. -/
def digitOf (c : Char) : Option Nat :=
  if isDigitByte c then some (c.toNat - 48)
  else if 65 ≤ c.toNat && c.toNat ≤ 90 then some (c.toNat - 65 + 10)
  else if 97 ≤ c.toNat && c.toNat ≤ 122 then some (c.toNat - 97 + 10)
  else none

/-- Loop of `ParseUint(s, 10, 64)` over the bytes, with `uint64` arithmetic.
Returns the value and the error, as the Go function does. -/
def parseUintLoop : List Char → Nat → Nat × Option NumError
  | [], n => (n, none)
  | c :: cs, n =>
    match digitOf c with
    | none => (0, some .errSyntax)
    | some d =>
      if d ≥ 10 then (0, some .errSyntax)
      else if n ≥ uintCutoff then (uintMaxVal, some .errRange)
      else
        let n10 := (n * 10) % 2 ^ 64
        let n1 := (n10 + d) % 2 ^ 64
        if n1 < n10 ∨ n1 > uintMaxVal then (uintMaxVal, some .errRange)
        else parseUintLoop cs n1

/-- `strconv.ParseUint(s, 10, 0)`. -/
def parseUint (s : List Char) : Nat × Option NumError :=
  match s with
  | [] => (0, some .errSyntax)
  | _ => parseUintLoop s 0

/-- `strconv.ParseInt(s, 10, 0)`. -/
def parseInt (s : List Char) : Int × Option NumError :=
  match s with
  | [] => (0, some .errSyntax)
  | c :: cs =>
    let neg : Bool := c = '-'
    let s1 := if c = '+' then cs else if c = '-' then cs else c :: cs
    let (un, err) := parseUint s1
    if err = some .errSyntax then (0, err)
    else
      let cutoff : Nat := 2 ^ (intSize - 1)
      if !neg && un ≥ cutoff then (((cutoff - 1 : Nat) : Int), some .errRange)
      else if neg && un > cutoff then (-(cutoff : Int), some .errRange)
      else (if neg then -(un : Int) else (un : Int), none)

/-- Fast path of `Atoi` ("small integers that fit int type"): strip one sign,
fail on an empty rest, run the digit loop, negate after `-`. -/
def atoiFast : List Char → Int × Option NumError
  | [] => (0, some .errSyntax)
  | c :: rest =>
    let body := if c = '-' ∨ c = '+' then rest else c :: rest
    if body.length < 1 then (0, some .errSyntax)
    else
      match atoiFastLoop body 0 with
      | none => (0, some .errSyntax)
      | some n => (if c = '-' then -n else n, none)

/-- `strconv.Atoi(s)`: value and error.  The fast path is taken when
`intSize == 64 && (0 < sLen && sLen < 19)`, the slow path is `ParseInt(s, 10, 0)`. -/
def atoi (s : String) : Int × Option NumError :=
  let cs := s.data
  let sLen := byteLen cs
  if intSize = 64 ∧ 0 < sLen ∧ sLen < 19 then atoiFast cs
  else parseInt cs

/-! ## Validators -/

/-- Source: `validateAge` (`main.go`).  `none` is the nil error; `some msg` is
the error built by `fmt.Errorf(msg)`. -/
def validateAge (input : String) : Option String :=
  if input = "" then some "Age cannot be empty"
  else
    match atoi input with
    | (_, some _) => some "Invalid age: must be a number"
    | (age, none) =>
      if age < 0 ∨ age > 150 then some "Invalid age: must be between 0 and 150"
      else none

/-- Source: `isValidName`; `isLetter` stands for `unicode.IsLetter`. -/
def isValidName (isLetter : Char → Bool) : List Char → Bool
  | [] => true
  | c :: cs => if !isLetter c then false else isValidName isLetter cs

/-- Source: `validateName`. -/
def validateName (isLetter : Char → Bool) (input : String) : Option String :=
  if input = "" then some "Name cannot be empty"
  else if !isValidName isLetter input.data then some "Name can only contain letters"
  else none

/-- The Latin-1 part of `unicode.IsLetter` (the table `properties`, mask `pLmask`):
`A`-`Z`, `a`-`z`, `U+00AA`, `U+00B5`, `U+00BA`, `U+00C0`-`U+00D6`, `U+00D8`-`U+00F6`,
`U+00F8`-`U+00FF`. -/
def latin1Letter (c : Char) : Bool :=
  (65 ≤ c.toNat && c.toNat ≤ 90) || (97 ≤ c.toNat && c.toNat ≤ 122) ||
  c.toNat = 0xAA || c.toNat = 0xB5 || c.toNat = 0xBA ||
  (0xC0 ≤ c.toNat && c.toNat ≤ 0xD6) || (0xD8 ≤ c.toNat && c.toNat ≤ 0xF6) ||
  (0xF8 ≤ c.toNat && c.toNat ≤ 0xFF)

/-- `unicode.IsLetter(r)`: `if uint32(r) <= MaxLatin1 { properties[uint8(r)] & pLmask != 0 }`,
otherwise a lookup in the range table of category `L`, here the parameter
`letterTable`. -/
def unicodeIsLetter (letterTable : Char → Bool) (c : Char) : Bool :=
  if c.toNat ≤ 0xFF then latin1Letter c else letterTable c

/-! ## The claim's reading of "parses as an integer" -/

/-- Value of a list of decimal digits read left to right, starting from `acc`. -/
def digitsValue : List Char → Nat → Nat
  | [], acc => acc
  | c :: cs, acc => digitsValue cs (acc * 10 + (c.toNat - 48))

/-- An unsigned decimal numeral: one or more characters `0`..`9`. -/
def unsignedValue (cs : List Char) : Option Nat :=
  if cs ≠ [] ∧ cs.all isDigitByte then some (digitsValue cs 0) else none

/-- A string parses as the integer `n` when it is an optional sign `+` or `-`
followed by one or more decimal digits whose value (negated after `-`) is `n`.
No bound is put on `n`. -/
def integerValueOf : List Char → Option Int
  | [] => none
  | c :: cs =>
    if c = '-' then (unsignedValue cs).map (fun (v : Nat) => -(v : Int))
    else if c = '+' then (unsignedValue cs).map (fun (v : Nat) => (v : Int))
    else (unsignedValue (c :: cs)).map (fun (v : Nat) => (v : Int))

/-- The integer a string parses as, if any (see `integerValueOf`). -/
def integerValue (s : String) : Option Int := integerValueOf s.data

/-! ## Records and the store file -/

/-- Source: `type User struct` (`ID`, `Name`, `Age`; `Age` is a Go `int`). -/
structure User where
  ID : String
  Name : String
  Age : Int
  deriving DecidableEq, Repr

/-- The digit loop of `strconv.formatBits` in base 10:
`for us >= 10 { q := us / 10; a[i] = '0' + us - q*10; us = q }; a[i] = '0' + us`,
filling the buffer from its end; `fuel` bounds the iterations. -/
def formatLoop : Nat → Nat → List Char → List Char
  | 0, _, acc => acc
  | fuel + 1, us, acc =>
    if us ≥ 10 then formatLoop fuel (us / 10) (Char.ofNat (48 + (us - us / 10 * 10)) :: acc)
    else Char.ofNat (48 + us) :: acc

/-- Decimal text of a natural number, most significant digit first
(`strconv.FormatInt` for a non-negative value). -/
def formatNat (n : Nat) : List Char := formatLoop (n + 1) n []

/-- Decimal text of an integer (`%d`, and the JSON encoding of an `int`). -/
def formatInt (i : Int) : List Char :=
  if i < 0 then Char.ofNat 45 :: formatNat i.natAbs else formatNat i.toNat

/-- The table `hex = "0123456789abcdef"` of `encoding/json`. -/
def hexChar (n : Nat) : Char :=
  if n < 10 then Char.ofNat (48 + n) else Char.ofNat (87 + n)

/-- The table `htmlSafeSet` of `encoding/json`: the ASCII characters from the space
up, except the double quote, `&`, `<`, `>` and the backslash. -/
def htmlSafe (c : Char) : Bool :=
  32 ≤ c.toNat && c.toNat < 128 && c.toNat != 34 && c.toNat != 38 && c.toNat != 60 &&
    c.toNat != 62 && c.toNat != 92

/-- One character of a JSON string as `encoding/json` writes it with HTML escaping
on: safe ASCII is copied; the quote and the backslash get a backslash; `\b`, `\f`,
`\n`, `\r`, `\t` are named; other ASCII is written `\u00XX`; `U+2028` and `U+2029`
are written `\u2028`, `\u2029`; all other characters are copied. -/
def escapeChar (c : Char) : List Char :=
  if c.toNat < 128 then
    if htmlSafe c then [c]
    else if c.toNat = 92 ∨ c.toNat = 34 then [Char.ofNat 92, c]
    else if c.toNat = 8 then [Char.ofNat 92, Char.ofNat 98]
    else if c.toNat = 12 then [Char.ofNat 92, Char.ofNat 102]
    else if c.toNat = 10 then [Char.ofNat 92, Char.ofNat 110]
    else if c.toNat = 13 then [Char.ofNat 92, Char.ofNat 114]
    else if c.toNat = 9 then [Char.ofNat 92, Char.ofNat 116]
    else [Char.ofNat 92, Char.ofNat 117, Char.ofNat 48, Char.ofNat 48,
      hexChar (c.toNat / 16), hexChar (c.toNat % 16)]
  else if c.toNat = 0x2028 ∨ c.toNat = 0x2029 then
    [Char.ofNat 92, Char.ofNat 117, Char.ofNat 50, Char.ofNat 48, Char.ofNat 50,
      hexChar (c.toNat % 16)]
  else [c]

/-- A JSON string literal: the escaped characters between double quotes. -/
def encodeString (s : String) : List Char :=
  Char.ofNat 34 :: (s.data.flatMap escapeChar ++ [Char.ofNat 34])

/-- One record as `encoding/json` writes a `User`: the three tagged fields in
declaration order. -/
def encodeUser (u : User) : List Char :=
  "\x7b\"id\":".data ++ encodeString u.ID ++ ",\"name\":".data ++ encodeString u.Name ++
    ",\"age\":".data ++ formatInt u.Age ++ [Char.ofNat 125]

/-- The elements of a JSON array, separated by commas. -/
def encodeElems : List User → List Char
  | [] => []
  | [u] => encodeUser u
  | u :: rest => encodeUser u ++ Char.ofNat 44 :: encodeElems rest

/-- What `json.NewEncoder(file).Encode(users)` writes for a non-nil slice: the array
followed by a newline.  (Every slice the program saves comes out of `append`.) -/
def encodeUsers (users : List User) : String :=
  String.mk (Char.ofNat 91 :: (encodeElems users ++ [Char.ofNat 93, Char.ofNat 10]))

/-- The files the program can see: the content stored under each path, and whether
`os.Create` succeeds on a path. -/
structure FileSys where
  content : String → Option String
  creatable : String → Bool

/-- `filepath.Join(folderPath, userDataFilePath)`. -/
def storePath : String := "user_data/user_data.json"

/-- Source: `saveUsersToFile`.  `os.Create` fails or truncates the file; the encoder
then writes the whole collection.  Returns the file system and the error. -/
def saveUsersToFile (fs : FileSys) (filePath : String) (users : List User) :
    FileSys × Option String :=
  if fs.creatable filePath then
    ({ fs with content := fun p => if p = filePath then some (encodeUsers users)
                                   else fs.content p }, none)
  else (fs, some "open: cannot create file")

/-! ## Reading the store file: `encoding/json` decoding (Go standard library)

`Decoder.Decode` first scans one complete JSON value off the stream (a syntax error
anywhere in it fails the call), then stores it into the target `[]User`.  The scan is
embedded as a parser to a value tree, the store as a function on the tree. -/

/-- A scanned JSON value.  A number keeps its literal text. -/
inductive JValue where
  | null
  | bool (b : Bool)
  | num (text : List Char)
  | str (s : String)
  | arr (elems : List JValue)
  | obj (fields : List (String × JValue))

/-- JSON white space: space, tab, carriage return, line feed. -/
def isSpaceByte (c : Char) : Bool :=
  c.toNat = 32 || c.toNat = 9 || c.toNat = 13 || c.toNat = 10

/-- Skip leading white space. -/
def skipWs : List Char → List Char
  | [] => []
  | c :: cs => if isSpaceByte c then skipWs cs else c :: cs

/-- Value of one hexadecimal digit, either case. -/
def hexVal (c : Char) : Option Nat :=
  if 48 ≤ c.toNat ∧ c.toNat ≤ 57 then some (c.toNat - 48)
  else if 97 ≤ c.toNat ∧ c.toNat ≤ 102 then some (c.toNat - 97 + 10)
  else if 65 ≤ c.toNat ∧ c.toNat ≤ 70 then some (c.toNat - 65 + 10)
  else none

/-- `getu4`: the value of four hexadecimal digits after a backslash and `u`. -/
def getu4 (h1 h2 h3 h4 : Char) : Option Nat :=
  match hexVal h1, hexVal h2, hexVal h3, hexVal h4 with
  | some a, some b, some c, some d => some (((a * 16 + b) * 16 + c) * 16 + d)
  | _, _, _, _ => none

/-- `utf16.IsSurrogate`. -/
def isSurrogate (r : Nat) : Bool := 0xD800 ≤ r && r < 0xE000

/-- `unicode.ReplacementChar`. -/
def replacementChar : Char := Char.ofNat 0xFFFD

/-- Join the code units of a decoded string into characters: a high surrogate
followed by a low surrogate is one character, any other surrogate becomes the
replacement character (`utf16.DecodeRune`).  Only `\\uXXXX` escapes yield surrogates. -/
def joinUnits : List Nat → List Char
  | [] => []
  | [r] => [if isSurrogate r then replacementChar else Char.ofNat r]
  | r :: r1 :: rest =>
    if isSurrogate r then
      if r < 0xDC00 ∧ 0xDC00 ≤ r1 ∧ r1 < 0xE000 then
        Char.ofNat (0x10000 + (r - 0xD800) * 0x400 + (r1 - 0xDC00)) :: joinUnits rest
      else replacementChar :: joinUnits (r1 :: rest)
    else Char.ofNat r :: joinUnits (r1 :: rest)

/-- The body of a string literal after its opening quote (`unquote`): up to the
closing quote, with the escapes for the quote, the backslash, the slash, `b`, `f`,
`n`, `r`, `t` and `uXXXX`; a raw control character is a syntax error.  `acc` holds
the decoded code units in reverse. -/
def parseStringBody : List Char → List Nat → Option (String × List Char)
  | [], _ => none
  | c :: cs, acc =>
    if c.toNat = 34 then some (String.mk (joinUnits acc.reverse), cs)
    else if c.toNat = 92 then
      match cs with
      | [] => none
      | e :: cs1 =>
        if e.toNat = 34 ∨ e.toNat = 92 ∨ e.toNat = 47 then parseStringBody cs1 (e.toNat :: acc)
        else if e.toNat = 98 then parseStringBody cs1 (8 :: acc)
        else if e.toNat = 102 then parseStringBody cs1 (12 :: acc)
        else if e.toNat = 110 then parseStringBody cs1 (10 :: acc)
        else if e.toNat = 114 then parseStringBody cs1 (13 :: acc)
        else if e.toNat = 116 then parseStringBody cs1 (9 :: acc)
        else if e.toNat = 117 then
          match cs1 with
          | h1 :: h2 :: h3 :: h4 :: cs2 =>
            match getu4 h1 h2 h3 h4 with
            | none => none
            | some rr => parseStringBody cs2 (rr :: acc)
          | _ => none
        else none
    else if c.toNat < 32 then none
    else parseStringBody cs (c.toNat :: acc)

/-- The longest run of decimal digits at the front, and what follows it. -/
def spanDigits : List Char → List Char × List Char
  | [] => ([], [])
  | c :: cs =>
    if isDigitByte c then ((spanDigits cs).1.cons c, (spanDigits cs).2) else ([], c :: cs)

/-- The integer part of a number literal: `0`, or a non-zero digit and more digits. -/
def scanIntPart : List Char → Option (List Char × List Char)
  | [] => none
  | c :: cs =>
    if c.toNat = 48 then some ([c], cs)
    else if 49 ≤ c.toNat ∧ c.toNat ≤ 57 then some (c :: (spanDigits cs).1, (spanDigits cs).2)
    else none

/-- The optional fraction of a number literal: a point and one or more digits. -/
def scanFraction : List Char → Option (List Char × List Char)
  | [] => some ([], [])
  | c :: cs =>
    if c.toNat = 46 then
      if (spanDigits cs).1 = [] then none else some (c :: (spanDigits cs).1, (spanDigits cs).2)
    else some ([], c :: cs)

/-- The optional exponent of a number literal: `e` or `E`, an optional sign, and one
or more digits. -/
def scanExponent : List Char → Option (List Char × List Char)
  | [] => some ([], [])
  | c :: cs =>
    if c.toNat = 101 ∨ c.toNat = 69 then
      match cs with
      | [] => none
      | d :: ds =>
        if d.toNat = 43 ∨ d.toNat = 45 then
          if (spanDigits ds).1 = [] then none
          else some (c :: d :: (spanDigits ds).1, (spanDigits ds).2)
        else if (spanDigits cs).1 = [] then none
        else some (c :: (spanDigits cs).1, (spanDigits cs).2)
    else some ([], c :: cs)

/-- A number literal: optional minus, integer part, optional fraction, optional
exponent.  Returns the literal text and what follows. -/
def scanNumber (cs : List Char) : Option (List Char × List Char) :=
  let signed : List Char × List Char :=
    match cs with
    | [] => ([], [])
    | c :: r => if c.toNat = 45 then ([c], r) else ([], c :: r)
  match scanIntPart signed.2 with
  | none => none
  | some (ip, r1) =>
    match scanFraction r1 with
    | none => none
    | some (fp, r2) =>
      match scanExponent r2 with
      | none => none
      | some (ep, r3) => some (signed.1 ++ ip ++ fp ++ ep, r3)

/-- Strip the literal `word` from the front. -/
def stripWord : List Char → List Char → Option (List Char)
  | [], cs => some cs
  | _ :: _, [] => none
  | w :: ws, c :: cs => if w = c then stripWord ws cs else none

/-- The elements of an array after the first white space: a value, then a comma and
another element, or the closing bracket.  `p` scans one value; `n` bounds the number
of elements; `acc` holds the elements in reverse. -/
def parseElems (p : List Char → Option (JValue × List Char)) :
    Nat → List Char → List JValue → Option (List JValue × List Char)
  | 0, _, _ => none
  | n + 1, cs, acc =>
    match p cs with
    | none => none
    | some (v, rest) =>
      match skipWs rest with
      | [] => none
      | d :: rest2 =>
        if d.toNat = 44 then parseElems p n rest2 (v :: acc)
        else if d.toNat = 93 then some ((v :: acc).reverse, rest2)
        else none

/-- The members of an object: a string key, a colon, a value, then a comma and
another member, or the closing brace. -/
def parseMembers (p : List Char → Option (JValue × List Char)) :
    Nat → List Char → List (String × JValue) → Option (List (String × JValue) × List Char)
  | 0, _, _ => none
  | n + 1, cs, acc =>
    match skipWs cs with
    | [] => none
    | q :: cs1 =>
      if q.toNat = 34 then
        match parseStringBody cs1 [] with
        | none => none
        | some (key, cs2) =>
          match skipWs cs2 with
          | [] => none
          | col :: cs3 =>
            if col.toNat = 58 then
              match p cs3 with
              | none => none
              | some (v, rest) =>
                match skipWs rest with
                | [] => none
                | d :: rest2 =>
                  if d.toNat = 44 then parseMembers p n rest2 ((key, v) :: acc)
                  else if d.toNat = 125 then some (((key, v) :: acc).reverse, rest2)
                  else none
            else none
      else none

/-- Scan one JSON value, skipping white space before it.  `fuel` bounds the nesting
depth. -/
def parseValue : Nat → List Char → Option (JValue × List Char)
  | 0, _ => none
  | fuel + 1, cs =>
    match skipWs cs with
    | [] => none
    | c :: rest =>
      if c.toNat = 123 then
        match skipWs rest with
        | [] => none
        | d :: rest2 =>
          if d.toNat = 125 then some (.obj [], rest2)
          else
            match parseMembers (parseValue fuel) (d :: rest2).length (d :: rest2) [] with
            | none => none
            | some (fields, rest3) => some (.obj fields, rest3)
      else if c.toNat = 91 then
        match skipWs rest with
        | [] => none
        | d :: rest2 =>
          if d.toNat = 93 then some (.arr [], rest2)
          else
            match parseElems (parseValue fuel) (d :: rest2).length (d :: rest2) [] with
            | none => none
            | some (elems, rest3) => some (.arr elems, rest3)
      else if c.toNat = 34 then
        match parseStringBody rest [] with
        | none => none
        | some (s, rest2) => some (.str s, rest2)
      else if c.toNat = 116 then (stripWord "rue".data rest).map (fun r => (.bool true, r))
      else if c.toNat = 102 then (stripWord "alse".data rest).map (fun r => (.bool false, r))
      else if c.toNat = 110 then (stripWord "ull".data rest).map (fun r => (.null, r))
      else
        match scanNumber (c :: rest) with
        | none => none
        | some (text, rest2) => some (.num text, rest2)

/-- ASCII upper-casing of a key, the case folding `encoding/json` applies to the keys
`id`, `name`, `age` (none of whose letters has a non-ASCII case variant). -/
def foldKey (s : String) : List Char :=
  s.data.map (fun c => if 97 ≤ c.toNat ∧ c.toNat ≤ 122 then Char.ofNat (c.toNat - 32) else c)

/-- Does the object key select the struct field tagged `field`: an exact match, or a
match under case folding. -/
def keySelects (field key : String) : Bool :=
  key = field || foldKey key = foldKey field

/-- Store one object member into the record being built (`object` and
`literalStore`): `null` leaves the field alone, a string goes to `ID` or `Name`, an
integer literal within the `int` range goes to `Age`, an unknown key is skipped, any
other combination is an `UnmarshalTypeError`. -/
def storeField (u : User) (key : String) (v : JValue) : Except String User :=
  if keySelects "id" key then
    match v with
    | .null => .ok u
    | .str s => .ok { u with ID := s }
    | _ => .error "json: cannot unmarshal into Go struct field User.id of type string"
  else if keySelects "name" key then
    match v with
    | .null => .ok u
    | .str s => .ok { u with Name := s }
    | _ => .error "json: cannot unmarshal into Go struct field User.name of type string"
  else if keySelects "age" key then
    match v with
    | .null => .ok u
    | .num text =>
      match parseInt text with
      | (n, none) => .ok { u with Age := n }
      | (_, some _) => .error "json: cannot unmarshal number into Go struct field User.age of type int"
    | _ => .error "json: cannot unmarshal into Go struct field User.age of type int"
  else .ok u

/-- Store the members of an object in order, later members overwriting earlier ones. -/
def storeFields : User → List (String × JValue) → Except String User
  | u, [] => .ok u
  | u, (key, v) :: rest =>
    match storeField u key v with
    | .error e => .error e
    | .ok u2 => storeFields u2 rest

/-- Store one array element into a fresh zero `User`: an object fills the fields,
`null` leaves the zero value, anything else is an `UnmarshalTypeError`. -/
def storeUser (v : JValue) : Except String User :=
  match v with
  | .obj fields => storeFields ⟨"", "", 0⟩ fields
  | .null => .ok ⟨"", "", 0⟩
  | _ => .error "json: cannot unmarshal into Go value of type main.User"

/-- Store the elements of an array in order. -/
def storeUsers : List JValue → Except String (List User)
  | [] => .ok []
  | v :: rest =>
    match storeUser v with
    | .error e => .error e
    | .ok u =>
      match storeUsers rest with
      | .error e => .error e
      | .ok us => .ok (u :: us)

/-- `json.NewDecoder(file).Decode(&users)` on the whole file content, with `users`
a nil slice: `null` leaves it empty, an array is stored element by element. -/
def decodeUsers (text : String) : Except String (List User) :=
  match parseValue (text.data.length + 1) text.data with
  | none => .error "json: syntax error or unexpected end of input"
  | some (.null, _) => .ok []
  | some (.arr elems, _) => storeUsers elems
  | some (_, _) => .error "json: cannot unmarshal into Go value of type []main.User"

/-- Source: `readUsersFromFile`.  `os.Open` fails on a missing file; otherwise the
content is decoded. -/
def readUsersFromFile (fs : FileSys) (filePath : String) : Except String (List User) :=
  match fs.content filePath with
  | none => .error "open: no such file or directory"
  | some text => decodeUsers text

/-! ## `sort.Slice` and `strings.ToLower` (Go standard library) -/

/-- The closure passed to `sort.Slice`: `users[i].Name < users[j].Name`, read from
the slice being sorted.  Go compares strings byte-wise, which on UTF-8 text is the
order of the code points. -/
def lessAt (xs : List User) (i j : Nat) : Bool :=
  match xs[i]?, xs[j]? with
  | some a, some b => decide (a.Name.data < b.Name.data)
  | _, _ => false

/-- The swapper of `sort.Slice`: exchange the elements at `i` and `j`. -/
def swapAt (xs : List User) (i j : Nat) : List User :=
  match xs[i]?, xs[j]? with
  | some a, some b => (xs.set i b).set j a
  | _, _ => xs

/-- Inner loop of `insertionSort_func`:
`for j := i; j > a && data.Less(j, j-1); j-- { data.Swap(j, j-1) }`. -/
def insertionInner (a : Nat) : Nat → List User → List User
  | 0, xs => xs
  | j + 1, xs =>
    if j + 1 > a ∧ lessAt xs (j + 1) j = true then insertionInner a j (swapAt xs (j + 1) j)
    else xs

/-- Outer loop of `insertionSort_func`: `for i := a + 1; i < b; i++`, with `fuel`
bounding the remaining iterations. -/
def insertionOuter (a b : Nat) : Nat → Nat → List User → List User
  | 0, _, xs => xs
  | fuel + 1, i, xs =>
    if i < b then insertionOuter a b fuel (i + 1) (insertionInner a i xs) else xs

/-- `insertionSort_func(data, a, b)` of package `sort`. -/
def insertionSortFunc (xs : List User) (a b : Nat) : List User :=
  insertionOuter a b (b - (a + 1)) (a + 1) xs

/-- The loop of `siftDown_func(data, lo, hi, first)`, with `root` starting at `lo`:
`child := 2*root + 1; if child >= hi { return }; if child+1 < hi &&
data.Less(first+child, first+child+1) { child++ }; if !data.Less(first+root,
first+child) { return }; data.Swap(first+root, first+child); root = child`.
`fuel` bounds the iterations. -/
def siftDown (first hi : Nat) : Nat → Nat → List User → List User
  | 0, _, xs => xs
  | fuel + 1, root, xs =>
    if 2 * root + 1 ≥ hi then xs
    else
      let child :=
        if 2 * root + 1 + 1 < hi ∧
            lessAt xs (first + (2 * root + 1)) (first + (2 * root + 1) + 1) = true
        then 2 * root + 1 + 1 else 2 * root + 1
      if lessAt xs (first + root) (first + child) = false then xs
      else siftDown first hi fuel child (swapAt xs (first + root) (first + child))

/-- `siftDown_func(data, lo, hi, first)`; the root moves down at most `hi` times. -/
def siftDownFunc (xs : List User) (lo hi first : Nat) : List User :=
  siftDown first hi hi lo xs

/-- First loop of `heapSort_func`:
`for i := (hi - 1) / 2; i >= 0; i-- { siftDown_func(data, i, hi, first) }`.
The argument counts the iterations left; the current `i` is one less. -/
def heapBuild (first hi : Nat) : Nat → List User → List User
  | 0, xs => xs
  | i + 1, xs => heapBuild first hi i (siftDownFunc xs i hi first)

/-- Second loop of `heapSort_func`:
`for i := hi - 1; i >= 0; i-- { data.Swap(first, first+i); siftDown_func(data, lo, i, first) }`
with `lo = 0`.  The argument counts the iterations left; the current `i` is one less. -/
def heapPop (first : Nat) : Nat → List User → List User
  | 0, xs => xs
  | i + 1, xs => heapPop first i (siftDownFunc (swapAt xs first (first + i)) 0 i first)

/-- `heapSort_func(data, a, b)`: `first := a; lo := 0; hi := b - a`, build the heap,
then pop the greatest record into the end, again and again. -/
def heapSortFunc (xs : List User) (a b : Nat) : List User :=
  heapPop a (b - a) (heapBuild a (b - a) ((b - a - 1) / 2 + 1) xs)

/-- `for i <= j && data.Less(i, a) { i++ }` of `partition_func`; returns `i`. -/
def scanLess (xs : List User) (a j : Nat) : Nat → Nat → Nat
  | 0, i => i
  | fuel + 1, i => if i ≤ j ∧ lessAt xs i a = true then scanLess xs a j fuel (i + 1) else i

/-- `for i <= j && !data.Less(j, a) { j-- }` of `partition_func`; returns `j`. -/
def scanNotLess (xs : List User) (a i : Nat) : Nat → Nat
  | 0 => 0
  | j + 1 => if i ≤ j + 1 ∧ lessAt xs (j + 1) a = false then scanNotLess xs a i j else j + 1

/-- The loop of `partition_func`: the two scans, `if i > j { break }`,
`data.Swap(i, j); i++; j--`.  Returns the slice and `j`. -/
def partitionLoop (a : Nat) : Nat → List User → Nat → Nat → List User × Nat
  | 0, xs, _, j => (xs, j)
  | fuel + 1, xs, i, j =>
    let i2 := scanLess xs a j (j + 1 - i) i
    let j2 := scanNotLess xs a i2 j
    if i2 > j2 then (xs, j2)
    else partitionLoop a fuel (swapAt xs i2 j2) (i2 + 1) (j2 - 1)

/-- `partition_func(data, a, b, pivot)`: `data.Swap(a, pivot); i, j := a+1, b-1`, the
two scans, `if i > j { data.Swap(j, a); return j, true }`, `data.Swap(i, j); i++; j--`,
the loop, `data.Swap(j, a); return j, false`.  Returns the slice, the new pivot index
and `alreadyPartitioned`. -/
def partitionFunc (xs : List User) (a b pivot : Nat) : List User × Nat × Bool :=
  let xs1 := swapAt xs a pivot
  let i := scanLess xs1 a (b - 1) (b - 1 + 1 - (a + 1)) (a + 1)
  let j := scanNotLess xs1 a i (b - 1)
  if i > j then (swapAt xs1 j a, j, true)
  else
    let r := partitionLoop a (b - a) (swapAt xs1 i j) (i + 1) (j - 1)
    (swapAt r.1 r.2 a, r.2, false)

/-- `for i <= j && !data.Less(a, i) { i++ }` of `partitionEqual_func`; returns `i`. -/
def scanNotGreater (xs : List User) (a j : Nat) : Nat → Nat → Nat
  | 0, i => i
  | fuel + 1, i => if i ≤ j ∧ lessAt xs a i = false then scanNotGreater xs a j fuel (i + 1) else i

/-- `for i <= j && data.Less(a, j) { j-- }` of `partitionEqual_func`; returns `j`. -/
def scanGreater (xs : List User) (a i : Nat) : Nat → Nat
  | 0 => 0
  | j + 1 => if i ≤ j + 1 ∧ lessAt xs a (j + 1) = true then scanGreater xs a i j else j + 1

/-- The loop of `partitionEqual_func`: the two scans, `if i > j { break }`,
`data.Swap(i, j); i++; j--`.  Returns the slice and `i`. -/
def partitionEqualLoop (a : Nat) : Nat → List User → Nat → Nat → List User × Nat
  | 0, xs, i, _ => (xs, i)
  | fuel + 1, xs, i, j =>
    let i2 := scanNotGreater xs a j (j + 1 - i) i
    let j2 := scanGreater xs a i2 j
    if i2 > j2 then (xs, i2)
    else partitionEqualLoop a fuel (swapAt xs i2 j2) (i2 + 1) (j2 - 1)

/-- `partitionEqual_func(data, a, b, pivot)`: `data.Swap(a, pivot); i, j := a+1, b-1`,
the loop, `return i`. -/
def partitionEqualFunc (xs : List User) (a b pivot : Nat) : List User × Nat :=
  partitionEqualLoop a (b - a + 1) (swapAt xs a pivot) (a + 1) (b - 1)

/-- `for i < b && !data.Less(i, i-1) { i++ }` of `partialInsertionSort_func`. -/
def scanOrdered (xs : List User) (b : Nat) : Nat → Nat → Nat
  | 0, i => i
  | fuel + 1, i => if i < b ∧ lessAt xs i (i - 1) = false then scanOrdered xs b fuel (i + 1) else i

/-- "Shift the smaller one to the left":
`for j := i - 1; j >= 1; j-- { if !data.Less(j, j-1) { break }; data.Swap(j, j-1) }`.
The argument is the current `j`. -/
def shiftLeft : Nat → List User → List User
  | 0, xs => xs
  | j + 1, xs => if lessAt xs (j + 1) j = false then xs else shiftLeft j (swapAt xs (j + 1) j)

/-- "Shift the greater one to the right":
`for j := i + 1; j < b; j++ { if !data.Less(j, j-1) { break }; data.Swap(j, j-1) }`. -/
def shiftRight (b : Nat) : Nat → Nat → List User → List User
  | 0, _, xs => xs
  | fuel + 1, j, xs =>
    if j < b then
      if lessAt xs j (j - 1) = false then xs else shiftRight b fuel (j + 1) (swapAt xs j (j - 1))
    else xs

/-- The loop `for j := 0; j < maxSteps; j++` of `partialInsertionSort_func`, with
`shortestShifting = 50`; the first argument counts the steps left, `i` is kept from
one step to the next.  Returns the slice and whether it is known to be sorted. -/
def insertionSortPartLoop (a b : Nat) : Nat → Nat → List User → List User × Bool
  | 0, _, xs => (xs, false)
  | steps + 1, i, xs =>
    let i2 := scanOrdered xs b (b - i) i
    if i2 = b then (xs, true)
    else if b - a < 50 then (xs, false)
    else
      let xs1 := swapAt xs i2 (i2 - 1)
      let xs2 := if i2 - a ≥ 2 then shiftLeft (i2 - 1) xs1 else xs1
      let xs3 := if b - i2 ≥ 2 then shiftRight b (b - i2) (i2 + 1) xs2 else xs2
      insertionSortPartLoop a b steps i2 xs3

/-- `partialInsertionSort_func(data, a, b)`: `maxSteps = 5`, `i := a + 1`. -/
def insertionSortPartFunc (xs : List User) (a b : Nat) : List User × Bool :=
  insertionSortPartLoop a b 5 (a + 1) xs

/-- `bits.Len(uint(n))`: the number of bits of `n`; `fuel` bounds the halvings. -/
def bitsLen : Nat → Nat → Nat
  | 0, _ => 0
  | fuel + 1, n => if n = 0 then 0 else bitsLen fuel (n / 2) + 1

/-- `xorshift.Next` on a `uint64` state:
`r ^= r << 13; r ^= r >> 7; r ^= r << 17`.  The shift constants are a detail of the
library release; the sorting functions below take the generator step as a parameter,
and what is proved of them holds for every step. -/
def xorshiftNext (r : Nat) : Nat :=
  let r1 := r ^^^ ((r <<< 13) % 2 ^ 64)
  let r2 := r1 ^^^ (r1 >>> 7)
  r2 ^^^ ((r2 <<< 17) % 2 ^ 64)

/-- The loop of `breakPatterns_func`: `for i := 0; i < 3; i++ { other :=
int(uint(random.Next()) & (modulus - 1)); if other >= length { other -= length };
data.Swap(idx-1+i, a+other) }`.  `next` is `xorshift.Next`. -/
def breakPatternsLoop (next : Nat → Nat) (a length modulus idx : Nat) :
    Nat → Nat → Nat → List User → List User
  | 0, _, _, xs => xs
  | steps + 1, i, random, xs =>
    let random2 := next random
    let other := random2 &&& (modulus - 1)
    let other2 := if other ≥ length then other - length else other
    breakPatternsLoop next a length modulus idx steps (i + 1) random2
      (swapAt xs (idx - 1 + i) (a + other2))

/-- `breakPatterns_func(data, a, b)`: for `length >= 8`, `random := xorshift(length)`,
`modulus := nextPowerOfTwo(length)` (that is `1 << bits.Len(uint(length))`),
`idx := a + (length/4)*2 - 1`, then the loop. -/
def breakPatternsFunc (next : Nat → Nat) (xs : List User) (a b : Nat) : List User :=
  let length := b - a
  if length ≥ 8 then
    breakPatternsLoop next a length (2 ^ bitsLen length length) (a + (length / 4) * 2 - 1)
      3 0 length xs
  else xs

/-- The type `sortedHint` of package `sort`. -/
inductive SortedHint where
  | unknownHint
  | increasingHint
  | decreasingHint
  deriving DecidableEq, Repr

/-- `order2_func(data, a, b, swaps)`: `if data.Less(b, a) { *swaps++; return b, a };
return a, b`.  Returns the two indices and the counter. -/
def order2 (xs : List User) (a b swaps : Nat) : Nat × Nat × Nat :=
  if lessAt xs b a = true then (b, a, swaps + 1) else (a, b, swaps)

/-- `median_func(data, a, b, c, swaps)`: `a, b = order2(a, b); b, c = order2(b, c);
a, b = order2(a, b); return b`.  Returns the index and the counter. -/
def medianFunc (xs : List User) (a b c swaps : Nat) : Nat × Nat :=
  let r1 := order2 xs a b swaps
  let r2 := order2 xs r1.2.1 c r1.2.2
  let r3 := order2 xs r1.1 r2.1 r2.2.2
  (r3.2.1, r3.2.2)

/-- `medianAdjacent_func(data, a, swaps)`: the median of `a - 1`, `a`, `a + 1`. -/
def medianAdjacent (xs : List User) (a swaps : Nat) : Nat × Nat :=
  medianFunc xs (a - 1) a (a + 1) swaps

/-- `choosePivot_func(data, a, b)`, with `shortestNinther = 50` and
`maxSwaps = 4 * 3`: a static pivot below 8 records, the median of three below 50,
the Tukey ninther from 50 on; the hint is taken from the number of swaps. -/
def choosePivotFunc (xs : List User) (a b : Nat) : Nat × SortedHint :=
  let l := b - a
  let i := a + l / 4 * 1
  let j := a + l / 4 * 2
  let k := a + l / 4 * 3
  let r : Nat × Nat :=
    if l ≥ 8 then
      if l ≥ 50 then
        let ri := medianAdjacent xs i 0
        let rj := medianAdjacent xs j ri.2
        let rk := medianAdjacent xs k rj.2
        medianFunc xs ri.1 rj.1 rk.1 rk.2
      else medianFunc xs i j k 0
    else (j, 0)
  if r.2 = 0 then (r.1, .increasingHint)
  else if r.2 = 12 then (r.1, .decreasingHint)
  else (r.1, .unknownHint)

/-- The loop of `reverseRange_func`:
`for i < j { data.Swap(i, j); i++; j-- }`. -/
def reverseRange : Nat → Nat → Nat → List User → List User
  | 0, _, _, xs => xs
  | fuel + 1, i, j, xs => if i < j then reverseRange fuel (i + 1) (j - 1) (swapAt xs i j) else xs

/-- `reverseRange_func(data, a, b)`: `i := a; j := b - 1`, then the loop. -/
def reverseRangeFunc (xs : List User) (a b : Nat) : List User :=
  reverseRange (b - a) a (b - 1) xs

/-- The body of the loop of `pdqsort_func` from `breakPatterns_func` up to the
partitioning: break patterns after an unbalanced partition, choose the pivot, reverse
a decreasing range (`pivot = (b - 1) - (pivot - a)`), and try
`partialInsertionSort_func` when `wasBalanced && wasPartitioned && hint ==
increasingHint`.  Returns the slice, the pivot index, and whether the range is
already known to be sorted. -/
def pdqPrepare (next : Nat → Nat) (xs : List User) (a b : Nat)
    (wasBalanced wasPartitioned : Bool) : List User × Nat × Bool :=
  let xs1 := if wasBalanced = false then breakPatternsFunc next xs a b else xs
  let ph := choosePivotFunc xs1 a b
  let xs2 := if ph.2 = .decreasingHint then reverseRangeFunc xs1 a b else xs1
  let pivot := if ph.2 = .decreasingHint then (b - 1) - (ph.1 - a) else ph.1
  let hint := if ph.2 = .decreasingHint then SortedHint.increasingHint else ph.2
  if wasBalanced = true ∧ wasPartitioned = true ∧ hint = .increasingHint then
    ((insertionSortPartFunc xs2 a b).1, pivot, (insertionSortPartFunc xs2 a b).2)
  else (xs2, pivot, false)

/-- `pdqsort_func(data, a, b, limit)` with `maxInsertion = 12`.  One unfolding is one
pass of the `for` loop: insertion sort for at most 12 records, heap sort when
`limit == 0`, else the preparation above (with `limit--` after an unbalanced
partition), `partitionEqual_func` when `a > 0 && !data.Less(a-1, pivot)` (then
`a = mid; continue`), else `partition_func`, a recursive call on the shorter side and
the loop again on the longer side.  The two flags are the loop variables
`wasBalanced`, `wasPartitioned`, which a recursive call starts at `true`.  `fuel`
bounds the passes and the nesting; each pass shortens the range. -/
def pdqsortFunc (next : Nat → Nat) :
    Nat → List User → Nat → Nat → Nat → Bool → Bool → List User
  | 0, xs, _, _, _, _, _ => xs
  | fuel + 1, xs, a, b, limit, wasBalanced, wasPartitioned =>
    if b - a ≤ 12 then insertionSortFunc xs a b
    else if limit = 0 then heapSortFunc xs a b
    else
      let limit1 := if wasBalanced = false then limit - 1 else limit
      let pp := pdqPrepare next xs a b wasBalanced wasPartitioned
      if pp.2.2 = true then pp.1
      else if a > 0 ∧ lessAt pp.1 (a - 1) pp.2.1 = false then
        let pe := partitionEqualFunc pp.1 a b pp.2.1
        pdqsortFunc next fuel pe.1 pe.2 b limit1 wasBalanced wasPartitioned
      else
        let pr := partitionFunc pp.1 a b pp.2.1
        if pr.2.1 - a < b - pr.2.1 then
          pdqsortFunc next fuel (pdqsortFunc next fuel pr.1 a pr.2.1 limit1 true true)
            (pr.2.1 + 1) b limit1 (decide (pr.2.1 - a ≥ (b - a) / 8)) pr.2.2
        else
          pdqsortFunc next fuel (pdqsortFunc next fuel pr.1 (pr.2.1 + 1) b limit1 true true)
            a pr.2.1 limit1 (decide (b - pr.2.1 ≥ (b - a) / 8)) pr.2.2

/-- `sort.Slice(users, less)`: `length := rv.Len(); limit := bits.Len(uint(length));
pdqsort_func(lessSwap{less, swap}, 0, length, limit)`.  `next` is the generator step
`xorshift.Next` used by `breakPatterns_func`. -/
def sortSlice (next : Nat → Nat) (xs : List User) : List User :=
  pdqsortFunc next (xs.length + 1) xs 0 xs.length (bitsLen xs.length xs.length) true true

/-- Lower-case of an ASCII byte: `c += 'a' - 'A'` when `'A' <= c && c <= 'Z'`. -/
def asciiLower (c : Char) : Char :=
  if 65 ≤ c.toNat ∧ c.toNat ≤ 90 then Char.ofNat (c.toNat + 32) else c

/-- `strings.ToLower(s)`: an all-ASCII string is lower-cased byte by byte; any
other string is mapped with `unicode.ToLower`, here the parameter `unicodeLower`. -/
def toLower (unicodeLower : Char → Char) (s : String) : String :=
  if s.data.all (fun c => decide (c.toNat < 128)) then String.mk (s.data.map asciiLower)
  else String.mk (s.data.map unicodeLower)

/-! ## The record operations -/

/-- What one operation leaves behind: the package-level `users`, the file system,
the lines printed (the text of a Go `error` value is abbreviated), and whether the
operation ended in a run-time panic. -/
structure Outcome where
  users : List User
  fs : FileSys
  out : List String
  panicked : Bool

/-- Source: `addUser`.  `name` and `ageStr` are what the two prompts returned
(an error, or a string their `Validate` function accepted); `newID` is the value of
`uuid.NewString()`. -/
def addUser (users : List User) (fs : FileSys) (name ageStr : Except String String)
    (newID : String) : Outcome :=
  match name with
  | .error e => ⟨users, fs, ["Prompt failed: " ++ e], false⟩
  | .ok name =>
    match ageStr with
    | .error e => ⟨users, fs, ["Prompt failed: " ++ e], false⟩
    | .ok ageStr =>
      match atoi ageStr with
      | (_, some _) => ⟨users, fs, ["Invalid age: strconv.Atoi"], false⟩
      | (age, none) =>
        let newUser : User := { ID := newID, Name := name, Age := age }
        let users := users ++ [newUser]
        match saveUsersToFile fs storePath users with
        | (fs, some e) => ⟨users, fs, ["Failed to save data to file: " ++ e], false⟩
        | (fs, none) => ⟨users, fs, ["User added successfully."], false⟩

/-- Source: `displayUsers`: sort the shared collection in place, then print it.
`next` is the generator step inside `sort.Slice` (see `sortSlice`). -/
def displayUsers (next : Nat → Nat) (users : List User) (fs : FileSys) : Outcome :=
  let users := sortSlice next users
  ⟨users, fs,
    "Users:" :: users.map (fun user =>
      "Name: " ++ user.Name ++ ", Age: " ++ String.mk (formatInt user.Age)),
    false⟩

/-- The lookup loop of `editUser` and `deleteUser`:
`var userIndex int; for i, user := range users { if user.Name == selectedUserName
{ userIndex = i; break } }`.  The index stays `0` when no name matches. -/
def findUserIndex (selectedUserName : String) : List User → Nat → Nat
  | [], _ => 0
  | user :: rest, i =>
    if user.Name = selectedUserName then i else findUserIndex selectedUserName rest (i + 1)

/-- Source: `editUser`.  `selected`, `newName`, `newAgeStr` are what the selection
and the two prompts returned.  `users[userIndex]` is read for the prompt defaults
and again for the update and the success message. -/
def editUser (users : List User) (fs : FileSys)
    (selected newName newAgeStr : Except String String) : Outcome :=
  if users.length = 0 then ⟨users, fs, ["No users to edit."], false⟩
  else
    match selected with
    | .error e => ⟨users, fs, ["Prompt failed: " ++ e], false⟩
    | .ok selectedUserName =>
      let userIndex := findUserIndex selectedUserName users 0
      match users[userIndex]? with
      | none => ⟨users, fs, [], true⟩
      | some currentUser =>
        match newName with
        | .error e => ⟨users, fs, ["Prompt failed: " ++ e], false⟩
        | .ok newName =>
          match newAgeStr with
          | .error e => ⟨users, fs, ["Prompt failed: " ++ e], false⟩
          | .ok newAgeStr =>
            match atoi newAgeStr with
            | (_, some _) => ⟨users, fs, ["Invalid age: strconv.Atoi"], false⟩
            | (newAge, none) =>
              let users :=
                users.set userIndex { currentUser with Name := newName, Age := newAge }
              match saveUsersToFile fs storePath users with
              | (fs, some e) => ⟨users, fs, ["Failed to save data to file: " ++ e], false⟩
              | (fs, none) =>
                ⟨users, fs, ["User with ID " ++ currentUser.ID ++ " edited successfully."],
                  false⟩

/-- Source: `deleteUser`.  `selected` and `confirmation` are what the selection and
the confirmation prompt returned.  After the removal and the save, the success
message reads `users[userIndex].ID` from the shortened collection; an index past
its end is a run-time panic. -/
def deleteUser (unicodeLower : Char → Char) (users : List User) (fs : FileSys)
    (selected confirmation : Except String String) : Outcome :=
  if users.length = 0 then ⟨users, fs, ["No users to delete."], false⟩
  else
    match selected with
    | .error e => ⟨users, fs, ["Prompt failed: " ++ e], false⟩
    | .ok selectedUserName =>
      let userIndex := findUserIndex selectedUserName users 0
      match confirmation with
      | .error e => ⟨users, fs, ["Prompt failed: " ++ e], false⟩
      | .ok confirmation =>
        if toLower unicodeLower confirmation ≠ "yes" then
          ⟨users, fs, ["Deletion canceled."], false⟩
        else
          let users := users.take userIndex ++ users.drop (userIndex + 1)
          match saveUsersToFile fs storePath users with
          | (fs, some e) => ⟨users, fs, ["Failed to save data to file: " ++ e], false⟩
          | (fs, none) =>
            match users[userIndex]? with
            | none => ⟨users, fs, [], true⟩
            | some u =>
              ⟨users, fs, ["User \x27" ++ selectedUserName ++ "\x27 with ID " ++ u.ID ++
                " deleted successfully."], false⟩

/-! ## Notions used to state the claims -/

/-- The record at index `k`, a zero record past the end. -/
def nth (xs : List User) (k : Nat) : User := xs.getD k ⟨"", "", 0⟩

/-- The slice is ascending by name on the index range `[a, b)`, in the lexicographic
order of strings. -/
def SortedOn (a b : Nat) (xs : List User) : Prop :=
  ∀ i j, a ≤ i → i < j → j < b → (nth xs i).Name ≤ (nth xs j).Name

/-- The slice `ys` comes from `xs` by moving records around inside the index range
`[a, b)`: same length, same records outside the range, every property shared by the
records of the range kept, and a permutation as a whole. -/
structure Shuffle (a b : Nat) (xs ys : List User) : Prop where
  len : ys.length = xs.length
  frame : ∀ k, k < a ∨ b ≤ k → nth ys k = nth xs k
  inside : ∀ P : User → Prop, (∀ k, a ≤ k → k < b → P (nth xs k)) →
    ∀ k, a ≤ k → k < b → P (nth ys k)
  perm : ys.Perm xs

/-- The heap condition at node `k` of the heap laid out from index `first`, with `hi`
nodes: no child of `k` is above `k`. -/
def HeapAt (xs : List User) (first hi k : Nat) : Prop :=
  ∀ c, (c = 2 * k + 1 ∨ c = 2 * k + 2) → c < hi →
    (nth xs (first + c)).Name ≤ (nth xs (first + k)).Name

/-- The record before the range is not above any record of the range: what
`pdqsort_func` knows about `data[a-1]` when `a > 0`. -/
def LowerBound (a b : Nat) (xs : List User) : Prop :=
  0 < a → ∀ k, a ≤ k → k < b → (nth xs (a - 1)).Name ≤ (nth xs k).Name

/-- The value tree of a record as the encoder writes it: the members `id`, `name`,
`age` in this order. -/
def userTree (u : User) : JValue :=
  .obj [("id", .str u.ID), ("name", .str u.Name), ("age", .num (formatInt u.Age))]

end GoPromptUI

namespace GoPromptUI

/-! ## Lemmas on `strconv.Atoi` -/

theorem digitOf_of_digit {c : Char} (h : isDigitByte c = true) :
    digitOf c = some (c.toNat - 48) ∧ c.toNat - 48 < 10 := by
  unfold isDigitByte at h
  simp only [Bool.and_eq_true, decide_eq_true_eq] at h
  refine ⟨?_, by omega⟩
  simp [digitOf, isDigitByte, h.1, h.2]

theorem digitOf_of_not_digit {c : Char} (h : isDigitByte c = false) :
    digitOf c = none ∨ ∃ d, digitOf c = some d ∧ 10 ≤ d := by
  unfold digitOf
  rw [h]
  simp only [Bool.false_eq_true, if_false]
  split
  · exact Or.inr ⟨_, rfl, by omega⟩
  · split
    · exact Or.inr ⟨_, rfl, by omega⟩
    · exact Or.inl rfl

theorem le_digitsValue (cs : List Char) (n : Nat) : n ≤ digitsValue cs n := by
  induction cs generalizing n with
  | nil => simp [digitsValue]
  | cons c cs ih =>
    have := ih (n * 10 + (c.toNat - 48))
    simp only [digitsValue]
    omega

theorem digitsValue_lt (cs : List Char) (n : Nat) (h : cs.all isDigitByte = true) :
    digitsValue cs n < (n + 1) * 10 ^ cs.length := by
  induction cs generalizing n with
  | nil => simp [digitsValue]
  | cons c cs ih =>
    simp only [List.all_cons, Bool.and_eq_true] at h
    have hd := (digitOf_of_digit h.1).2
    have := ih (n * 10 + (c.toNat - 48)) h.2
    simp only [digitsValue, List.length_cons, pow_succ]
    calc digitsValue cs (n * 10 + (c.toNat - 48))
        < (n * 10 + (c.toNat - 48) + 1) * 10 ^ cs.length := this
      _ ≤ ((n + 1) * 10) * 10 ^ cs.length := by
          apply Nat.mul_le_mul_right; omega
      _ = (n + 1) * (10 ^ cs.length * 10) := by ring

theorem parseUintLoop_digits (cs : List Char) (n : Nat) (hn : n < 2 ^ 64)
    (h : cs.all isDigitByte = true) :
    parseUintLoop cs n =
      if digitsValue cs n < 2 ^ 64 then (digitsValue cs n, none)
      else (uintMaxVal, some .errRange) := by
  induction cs generalizing n with
  | nil =>
    show (n, none) = _
    rw [digitsValue, if_pos hn]
  | cons c cs ih =>
    simp only [List.all_cons, Bool.and_eq_true] at h
    obtain ⟨hd, hlt⟩ := digitOf_of_digit h.1
    simp only [parseUintLoop, hd, digitsValue]
    have hmono := le_digitsValue cs (n * 10 + (c.toNat - 48))
    rw [if_neg (by omega)]
    by_cases hc : n ≥ uintCutoff
    · rw [if_pos hc]
      have : ¬ digitsValue cs (n * 10 + (c.toNat - 48)) < 2 ^ 64 := by
        unfold uintCutoff at hc; omega
      rw [if_neg this]
    · rw [if_neg hc]
      have hn10 : n * 10 < 2 ^ 64 := by unfold uintCutoff at hc; omega
      simp only [Nat.mod_eq_of_lt hn10]
      by_cases hov : n * 10 + (c.toNat - 48) < 2 ^ 64
      · simp only [Nat.mod_eq_of_lt hov]
        rw [if_neg (by unfold uintMaxVal; omega)]
        exact ih _ hov h.2
      · have hmod : (n * 10 + (c.toNat - 48)) % 2 ^ 64 < n * 10 := by omega
        rw [if_pos (Or.inl hmod)]
        rw [if_neg (by omega)]

theorem parseUintLoop_not_digits (cs : List Char) (n : Nat) (hn : n < 2 ^ 64)
    (h : cs.all isDigitByte = false) :
    (parseUintLoop cs n).2 = some .errSyntax ∨
      parseUintLoop cs n = (uintMaxVal, some .errRange) := by
  induction cs generalizing n with
  | nil => simp at h
  | cons c cs ih =>
    by_cases hc : isDigitByte c = true
    · have hrest : cs.all isDigitByte = false := by
        simpa [List.all_cons, hc] using h
      obtain ⟨hd, hlt⟩ := digitOf_of_digit hc
      simp only [parseUintLoop, hd]
      rw [if_neg (by omega)]
      split
      · exact Or.inr rfl
      · split
        · exact Or.inr rfl
        · rename_i h1 h2
          apply ih _ _ hrest
          exact Nat.mod_lt _ (by norm_num)
    · simp only [Bool.not_eq_true] at hc
      rcases digitOf_of_not_digit hc with h0 | ⟨d, h0, hd⟩
      · simp [parseUintLoop, h0]
      · simp [parseUintLoop, h0, hd]

theorem atoiFastLoop_digits (cs : List Char) (n : Nat) (h : cs.all isDigitByte = true) :
    atoiFastLoop cs (n : Int) = some ((digitsValue cs n : Nat) : Int) := by
  induction cs generalizing n with
  | nil => simp [atoiFastLoop, digitsValue]
  | cons c cs ih =>
    simp only [List.all_cons, Bool.and_eq_true] at h
    simp only [atoiFastLoop, h.1, if_true, digitsValue]
    rw [← ih _ h.2]
    push_cast
    rfl

theorem atoiFastLoop_not_digits (cs : List Char) (n : Int) (h : cs.all isDigitByte = false) :
    atoiFastLoop cs n = none := by
  induction cs generalizing n with
  | nil => simp at h
  | cons c cs ih =>
    by_cases hc : isDigitByte c = true
    · have hrest : cs.all isDigitByte = false := by
        simpa [List.all_cons, hc] using h
      simp only [atoiFastLoop, hc, if_true]
      exact ih _ hrest
    · simp [atoiFastLoop, hc]

theorem length_le_byteLen (cs : List Char) : cs.length ≤ byteLen cs := by
  induction cs with
  | nil => simp [byteLen]
  | cons c cs ih =>
    have := Char.utf8Size_pos c
    simp only [byteLen, List.length_cons]
    omega

theorem parseUint_ok {cs : List Char} {v : Nat} (h : unsignedValue cs = some v)
    (hv : v < 2 ^ 64) : parseUint cs = (v, none) := by
  unfold unsignedValue at h
  split at h
  · rename_i hc
    cases h
    cases cs with
    | nil => exact absurd rfl hc.1
    | cons c cs =>
      show parseUintLoop (c :: cs) 0 = _
      rw [parseUintLoop_digits _ 0 (by norm_num) hc.2, if_pos hv]
  · cases h

theorem parseUint_big {cs : List Char} {v : Nat} (h : unsignedValue cs = some v)
    (hv : 2 ^ 64 ≤ v) : parseUint cs = (uintMaxVal, some .errRange) := by
  unfold unsignedValue at h
  split at h
  · rename_i hc
    cases h
    cases cs with
    | nil => exact absurd rfl hc.1
    | cons c cs =>
      show parseUintLoop (c :: cs) 0 = _
      rw [parseUintLoop_digits _ 0 (by norm_num) hc.2, if_neg (by omega)]
  · cases h

theorem parseUint_bad {cs : List Char} (h : unsignedValue cs = none) :
    (parseUint cs).2 = some .errSyntax ∨ parseUint cs = (uintMaxVal, some .errRange) := by
  unfold unsignedValue at h
  split at h
  · cases h
  · rename_i hc
    cases cs with
    | nil => exact Or.inl rfl
    | cons c cs =>
      show (parseUintLoop (c :: cs) 0).2 = _ ∨ parseUintLoop (c :: cs) 0 = _
      apply parseUintLoop_not_digits _ 0 (by norm_num)
      simpa using hc

/-- The sign split common to `ParseInt`, the fast path of `Atoi` and `integerValueOf`. -/
theorem integerValueOf_cons (c : Char) (cs : List Char) :
    integerValueOf (c :: cs) =
      (unsignedValue (if c = '+' then cs else if c = '-' then cs else c :: cs)).map
        (fun (v : Nat) => if c = '-' then -(v : Int) else (v : Int)) := by
  unfold integerValueOf
  by_cases h1 : c = '-'
  · subst h1
    simp
  · by_cases h2 : c = '+'
    · subst h2
      simp
    · simp [h1, h2]

theorem parseInt_cons (c : Char) (cs : List Char) :
    parseInt (c :: cs) =
      (let r := parseUint (if c = '+' then cs else if c = '-' then cs else c :: cs)
       if r.2 = some .errSyntax then (0, r.2)
       else if !(decide (c = '-')) && decide (r.1 ≥ 2 ^ 63) then
         (((2 ^ 63 - 1 : Nat) : Int), some .errRange)
       else if decide (c = '-') && decide (r.1 > 2 ^ 63) then
         (-((2 ^ 63 : Nat) : Int), some .errRange)
       else (if decide (c = '-') = true then -(r.1 : Int) else (r.1 : Int), none)) := by
  rfl

theorem parseInt_ok {cs : List Char} {n : Int} (h : integerValueOf cs = some n)
    (hlo : -(2 ^ 63 : Int) ≤ n) (hhi : n < 2 ^ 63) : parseInt cs = (n, none) := by
  cases cs with
  | nil => simp [integerValueOf] at h
  | cons c cs =>
    rw [integerValueOf_cons] at h
    rw [parseInt_cons]
    cases hu : unsignedValue (if c = '+' then cs else if c = '-' then cs else c :: cs) with
    | none => simp [hu] at h
    | some v =>
      rw [hu] at h
      simp only [Option.map_some', Option.some.injEq] at h
      have hv : v < 2 ^ 64 := by
        by_cases hc : c = '-'
        · simp only [hc, if_true] at h; omega
        · simp only [hc, if_false] at h; omega
      rw [parseUint_ok hu hv]
      by_cases hc : c = '-'
      · simp only [hc, if_true] at h
        simp [hc, h]
        omega
      · simp only [hc, if_false] at h
        simp [hc, h]
        omega

theorem parseInt_range {cs : List Char} {n : Int} (h : integerValueOf cs = some n)
    (hout : n < -(2 ^ 63 : Int) ∨ 2 ^ 63 ≤ n) : (parseInt cs).2 = some .errRange := by
  cases cs with
  | nil => simp [integerValueOf] at h
  | cons c cs =>
    rw [integerValueOf_cons] at h
    rw [parseInt_cons]
    cases hu : unsignedValue (if c = '+' then cs else if c = '-' then cs else c :: cs) with
    | none => simp [hu] at h
    | some v =>
      rw [hu] at h
      simp only [Option.map_some', Option.some.injEq] at h
      by_cases hv : v < 2 ^ 64
      · rw [parseUint_ok hu hv]
        by_cases hc : c = '-'
        · simp only [hc, if_true] at h
          simp only [hc, decide_True, Bool.not_true, Bool.false_and, Bool.true_and,
            Bool.false_eq_true, if_false, decide_eq_true_eq]
          rw [if_neg (by simp [uintMaxVal]), if_pos (by omega)]
        · simp only [hc, if_false] at h
          simp only [hc, decide_False, Bool.not_false, Bool.true_and, decide_eq_true_eq]
          rw [if_neg (by simp [uintMaxVal]), if_pos (by omega)]
      · rw [parseUint_big hu (by omega)]
        by_cases hc : c = '-'
        · simp [hc, uintMaxVal]
        · simp [hc, uintMaxVal]

theorem parseInt_bad {cs : List Char} (h : integerValueOf cs = none) :
    ∃ e, (parseInt cs).2 = some e := by
  cases cs with
  | nil => exact ⟨_, rfl⟩
  | cons c cs =>
    rw [integerValueOf_cons] at h
    rw [parseInt_cons]
    cases hu : unsignedValue (if c = '+' then cs else if c = '-' then cs else c :: cs) with
    | some v => simp [hu] at h
    | none =>
      rcases parseUint_bad hu with h1 | h1
      · exact ⟨.errSyntax, by simp [h1]⟩
      · refine ⟨.errRange, ?_⟩
        rw [h1]
        by_cases hc : c = '-'
        · simp [hc, uintMaxVal]
        · simp [hc, uintMaxVal]

theorem signBody_eq (c : Char) (cs : List Char) :
    (if c = '-' ∨ c = '+' then cs else c :: cs) =
      (if c = '+' then cs else if c = '-' then cs else c :: cs) := by
  by_cases h1 : c = '-'
  · subst h1; simp
  · by_cases h2 : c = '+'
    · subst h2; simp
    · simp [h1, h2]

theorem unsignedValue_some {cs : List Char} {v : Nat} (h : unsignedValue cs = some v) :
    cs ≠ [] ∧ cs.all isDigitByte = true ∧ v = digitsValue cs 0 := by
  unfold unsignedValue at h
  by_cases hc : cs ≠ [] ∧ cs.all isDigitByte = true
  · rw [if_pos hc] at h
    cases h
    exact ⟨hc.1, hc.2, rfl⟩
  · rw [if_neg hc] at h
    cases h

theorem unsignedValue_none {cs : List Char} (h : unsignedValue cs = none) :
    cs = [] ∨ cs.all isDigitByte = false := by
  unfold unsignedValue at h
  by_cases hc : cs ≠ [] ∧ cs.all isDigitByte = true
  · rw [if_pos hc] at h
    cases h
  · by_cases h0 : cs = []
    · exact Or.inl h0
    · right
      by_contra hcon
      exact hc ⟨h0, by simpa using hcon⟩

theorem atoiFast_ok {cs : List Char} {n : Int} (h : integerValueOf cs = some n) :
    atoiFast cs = (n, none) := by
  cases cs with
  | nil => simp [integerValueOf] at h
  | cons c cs =>
    rw [integerValueOf_cons, ← signBody_eq] at h
    unfold atoiFast
    simp only []
    generalize (if c = '-' ∨ c = '+' then cs else c :: cs) = body at h ⊢
    cases hu : unsignedValue body with
    | none => simp [hu] at h
    | some v =>
      rw [hu] at h
      simp only [Option.map_some', Option.some.injEq] at h
      obtain ⟨hne, hall, hv⟩ := unsignedValue_some hu
      have hlen : ¬ body.length < 1 := by
        have := List.length_pos.mpr hne
        omega
      rw [if_neg hlen]
      have := atoiFastLoop_digits _ 0 hall
      simp only [Nat.cast_zero] at this
      rw [this]
      simp only [← h, hv]

theorem atoiFast_bad {cs : List Char} (h : integerValueOf cs = none) :
    atoiFast cs = (0, some .errSyntax) := by
  cases cs with
  | nil => rfl
  | cons c cs =>
    rw [integerValueOf_cons, ← signBody_eq] at h
    unfold atoiFast
    simp only []
    generalize (if c = '-' ∨ c = '+' then cs else c :: cs) = body at h ⊢
    cases hu : unsignedValue body with
    | some v => simp [hu] at h
    | none =>
      rcases unsignedValue_none hu with h0 | hall
      · subst h0
        simp
      · rw [atoiFastLoop_not_digits _ 0 hall]
        simp

/-- A numeral of fewer than 19 bytes has absolute value below `10 ^ 18`. -/
theorem integerValueOf_small {cs : List Char} {n : Int} (h : integerValueOf cs = some n)
    (hlen : byteLen cs < 19) : -(10 ^ 18 : Int) < n ∧ n < 10 ^ 18 := by
  cases cs with
  | nil => simp [integerValueOf] at h
  | cons c cs =>
    rw [integerValueOf_cons] at h
    have h4 : (if c = '+' then cs else if c = '-' then cs else c :: cs).length
        ≤ (c :: cs).length := by
      split
      · simp
      · split <;> simp
    have h3 := length_le_byteLen (c :: cs)
    generalize (if c = '+' then cs else if c = '-' then cs else c :: cs) = body at h h4
    cases hu : unsignedValue body with
    | none => simp [hu] at h
    | some v =>
      rw [hu] at h
      simp only [Option.map_some', Option.some.injEq] at h
      obtain ⟨hne, hall, hv⟩ := unsignedValue_some hu
      have h1 := digitsValue_lt _ 0 hall
      have h5 : 10 ^ body.length ≤ 10 ^ 18 := Nat.pow_le_pow_right (by norm_num) (by omega)
      have h6 : v < 10 ^ 18 := by omega
      split at h <;> omega

theorem atoi_ok {s : String} {n : Int} (h : integerValue s = some n)
    (hlo : -(2 ^ 63 : Int) ≤ n) (hhi : n < 2 ^ 63) : atoi s = (n, none) := by
  unfold atoi
  simp only []
  split
  · exact atoiFast_ok h
  · exact parseInt_ok h hlo hhi

theorem atoi_range {s : String} {n : Int} (h : integerValue s = some n)
    (hout : n < -(2 ^ 63 : Int) ∨ 2 ^ 63 ≤ n) : (atoi s).2 = some .errRange := by
  unfold atoi
  simp only []
  split
  · rename_i hc
    have := integerValueOf_small h hc.2.2
    omega
  · exact parseInt_range h hout

theorem atoi_bad {s : String} (h : integerValue s = none) : ∃ e, (atoi s).2 = some e := by
  unfold atoi
  simp only []
  split
  · exact ⟨_, by rw [atoiFast_bad h]⟩
  · exact parseInt_bad h

/-! ## Claims on the validators -/

theorem validateAge_empty : validateAge "" = some "Age cannot be empty" := rfl

/-- A non-empty input on which `Atoi` fails gets the not-a-number error: this covers
the inputs that are no numeral and the numerals outside the `int` range. -/
theorem validateAge_not_number (s : String) (hs : s ≠ "")
    (h : integerValue s = none ∨
      ∃ n, integerValue s = some n ∧ (n < -(2 ^ 63 : Int) ∨ 2 ^ 63 ≤ n)) :
    validateAge s = some "Invalid age: must be a number" := by
  have he : ∃ e, (atoi s).2 = some e := by
    rcases h with h | ⟨n, h, hout⟩
    · exact atoi_bad h
    · exact ⟨_, atoi_range h hout⟩
  obtain ⟨e, he⟩ := he
  unfold validateAge
  rw [if_neg hs]
  rcases hat : atoi s with ⟨v, err⟩
  rw [hat] at he
  simp only at he
  subst he
  rfl

/-- A numeral within the `int` range is checked against `[0, 150]`. -/
theorem validateAge_in_int_range (s : String) (n : Int) (h : integerValue s = some n)
    (hlo : -(2 ^ 63 : Int) ≤ n) (hhi : n < 2 ^ 63) :
    validateAge s =
      if n < 0 ∨ n > 150 then some "Invalid age: must be between 0 and 150" else none := by
  have hs : s ≠ "" := by
    intro h0
    subst h0
    simp [integerValue, integerValueOf] at h
  unfold validateAge
  rw [if_neg hs, atoi_ok h hlo hhi]

theorem validateAge_none_iff (s : String) :
    validateAge s = none ↔ ∃ n, integerValue s = some n ∧ 0 ≤ n ∧ n ≤ 150 := by
  constructor
  · intro hv
    by_cases hs : s = ""
    · subst hs
      rw [validateAge_empty] at hv
      cases hv
    · cases hi : integerValue s with
      | none =>
        rw [validateAge_not_number s hs (Or.inl hi)] at hv
        cases hv
      | some n =>
        by_cases hr : -(2 ^ 63 : Int) ≤ n ∧ n < 2 ^ 63
        · rw [validateAge_in_int_range s n hi hr.1 hr.2] at hv
          by_cases hb : n < 0 ∨ n > 150
          · rw [if_pos hb] at hv
            cases hv
          · exact ⟨n, rfl, by omega, by omega⟩
        · rw [validateAge_not_number s hs (Or.inr ⟨n, hi, by omega⟩)] at hv
          cases hv
  · rintro ⟨n, hi, h0, h150⟩
    rw [validateAge_in_int_range s n hi (by omega) (by omega), if_neg (by omega)]

/-- C1 (amended): `validateAge` returns no error exactly when the input parses as an
integer `n` with `0 ≤ n ≤ 150`; it fails with the empty-input error on `""`, with the
not-a-number error when the input is non-empty and either does not parse as an
integer or parses as one outside the 64-bit `int` range, and with the out-of-range
error when the input parses as an integer of the `int` range outside `[0, 150]`.
`""`, `"abc"`, `"-1"`, `"151"` are rejected and `"0"`, `"150"`, `"42"` accepted. -/
theorem validateAge_classifies (s : String) :
    (validateAge s = none ↔ ∃ n, integerValue s = some n ∧ 0 ≤ n ∧ n ≤ 150) ∧
    (s = "" → validateAge s = some "Age cannot be empty") ∧
    (s ≠ "" →
      (integerValue s = none ∨
        ∃ n, integerValue s = some n ∧ (n < -(2 ^ 63 : Int) ∨ 2 ^ 63 ≤ n)) →
      validateAge s = some "Invalid age: must be a number") ∧
    (∀ n, integerValue s = some n → -(2 ^ 63 : Int) ≤ n → n < 2 ^ 63 → (n < 0 ∨ 150 < n) →
      validateAge s = some "Invalid age: must be between 0 and 150") ∧
    (validateAge "" ≠ none ∧ validateAge "abc" ≠ none ∧ validateAge "-1" ≠ none ∧
      validateAge "151" ≠ none ∧ validateAge "0" = none ∧ validateAge "150" = none ∧
      validateAge "42" = none) := by
  refine ⟨validateAge_none_iff s, ?_, validateAge_not_number s, ?_, by decide⟩
  · intro h0
    subst h0
    exact validateAge_empty
  · intro n hi hlo hhi hb
    rw [validateAge_in_int_range s n hi hlo hhi, if_pos (by omega)]

/-- C1 witness: the classification applied to the input `"-1"`. -/
theorem validateAge_classifies_witness :
    validateAge "-1" = some "Invalid age: must be between 0 and 150" :=
  (validateAge_classifies "-1").2.2.2.1 (-1) (by decide) (by decide) (by decide)
    (Or.inl (by decide))

/-- C1 counterexample: `"99999999999999999999"` parses as an integer outside
`[0, 150]`, yet `validateAge` reports the not-a-number error, not the out-of-range
error. -/
theorem validateAge_outOfRange_counterexample :
    integerValue "99999999999999999999" = some 99999999999999999999 ∧
    ¬ ((0 : Int) ≤ 99999999999999999999 ∧ (99999999999999999999 : Int) ≤ 150) ∧
    validateAge "99999999999999999999" = some "Invalid age: must be a number" ∧
    validateAge "99999999999999999999" ≠ some "Invalid age: must be between 0 and 150" := by
  decide

theorem isValidName_iff (isLetter : Char → Bool) (cs : List Char) :
    isValidName isLetter cs = true ↔ ∀ c ∈ cs, isLetter c = true := by
  induction cs with
  | nil => simp [isValidName]
  | cons c cs ih =>
    by_cases hc : isLetter c = true
    · simp [isValidName, hc, ih]
    · simp [isValidName, hc]

/-- C2: `validateName` returns no error exactly when the input is non-empty and all
its characters are letters; it fails with the empty-input error on `""` and with the
invalid-characters error on a non-empty input holding a character that is not a
letter.  With `unicode.IsLetter`, a space, a digit, a hyphen and a full stop are such
characters, and `"Alice"` and `"bob"` are accepted. -/
theorem validateName_classifies (isLetter : Char → Bool) (s : String) :
    (validateName isLetter s = none ↔ s ≠ "" ∧ ∀ c ∈ s.data, isLetter c = true) ∧
    (s = "" → validateName isLetter s = some "Name cannot be empty") ∧
    (s ≠ "" → (∃ c ∈ s.data, isLetter c = false) →
      validateName isLetter s = some "Name can only contain letters") ∧
    (∀ t : Char → Bool,
      validateName (unicodeIsLetter t) "Ann Lee" = some "Name can only contain letters" ∧
      validateName (unicodeIsLetter t) "R2" = some "Name can only contain letters" ∧
      validateName (unicodeIsLetter t) "Ann-Lee" = some "Name can only contain letters" ∧
      validateName (unicodeIsLetter t) "Ann." = some "Name can only contain letters" ∧
      validateName (unicodeIsLetter t) "Alice" = none ∧
      validateName (unicodeIsLetter t) "bob" = none) := by
  have hiff := isValidName_iff isLetter s.data
  refine ⟨⟨?_, ?_⟩, ?_, ?_, ?_⟩
  · intro hv
    unfold validateName at hv
    by_cases hs : s = ""
    · rw [if_pos hs] at hv
      cases hv
    · rw [if_neg hs] at hv
      by_cases hval : isValidName isLetter s.data = true
      · exact ⟨hs, hiff.mp hval⟩
      · simp [hval] at hv
  · rintro ⟨hs, hall⟩
    unfold validateName
    rw [if_neg hs]
    simp [hiff.mpr hall]
  · intro hs
    subst hs
    rfl
  · rintro hs ⟨c, hc, hcl⟩
    have hval : isValidName isLetter s.data = false := by
      by_contra hcon
      have := hiff.mp (by simpa using hcon) c hc
      rw [hcl] at this
      cases this
    unfold validateName
    rw [if_neg hs]
    simp [hval]
  · intro t
    refine ⟨?_, ?_, ?_, ?_, ?_, ?_⟩ <;> rfl

/-- C2 witness: the input `"R2"` holds the character `2`, which is not a letter. -/
theorem validateName_classifies_witness :
    validateName (unicodeIsLetter (fun _ => false)) "R2" =
      some "Name can only contain letters" :=
  (validateName_classifies (unicodeIsLetter (fun _ => false)) "R2").2.2.1 (by decide)
    ⟨Char.ofNat 50, by decide, by decide⟩

/-! ## Lemmas on the record operations -/

theorem validateAge_atoi {s : String} (h : validateAge s = none) :
    ∃ n, integerValue s = some n ∧ 0 ≤ n ∧ n ≤ 150 ∧ atoi s = (n, none) := by
  obtain ⟨n, hi, h0, h150⟩ := (validateAge_none_iff s).mp h
  exact ⟨n, hi, h0, h150, atoi_ok hi (by omega) (by omega)⟩

theorem saveUsersToFile_cases (fs : FileSys) (path : String) (users : List User) :
    (∃ fs2, saveUsersToFile fs path users = (fs2, none)) ∨
      (∃ fs2 e, saveUsersToFile fs path users = (fs2, some e)) := by
  unfold saveUsersToFile
  split
  · exact Or.inl ⟨_, rfl⟩
  · exact Or.inr ⟨_, _, rfl⟩

/-- The scan of `findUserIndex` started at counter `k`: when some record has the
selected name, the result is `k` plus the first position holding that name. -/
theorem findUserIndex_first (sel : String) (us : List User) (k : Nat)
    (h : ∃ u ∈ us, u.Name = sel) :
    k ≤ findUserIndex sel us k ∧ findUserIndex sel us k - k < us.length ∧
    (∃ u, us[findUserIndex sel us k - k]? = some u ∧ u.Name = sel) ∧
    ∀ j u, j < findUserIndex sel us k - k → us[j]? = some u → u.Name ≠ sel := by
  induction us generalizing k with
  | nil =>
    obtain ⟨u, hu, _⟩ := h
    cases hu
  | cons a rest ih =>
    by_cases ha : a.Name = sel
    · simp only [findUserIndex, ha, if_true, Nat.sub_self, List.length_cons]
      refine ⟨le_refl _, by omega, ⟨a, by simp, ha⟩, ?_⟩
      intro j u hj
      omega
    · have hrest : ∃ u ∈ rest, u.Name = sel := by
        obtain ⟨u, hu, hn⟩ := h
        rcases List.mem_cons.mp hu with h1 | h1
        · subst h1
          exact absurd hn ha
        · exact ⟨u, h1, hn⟩
      obtain ⟨h1, h2, ⟨u, h3, h4⟩, h5⟩ := ih (k + 1) hrest
      simp only [findUserIndex, ha, if_false, List.length_cons]
      have hk : findUserIndex sel rest (k + 1) - k = (findUserIndex sel rest (k + 1) - (k + 1)) + 1 := by
        omega
      refine ⟨by omega, by omega, ⟨u, ?_, h4⟩, ?_⟩
      · rw [hk, List.getElem?_cons_succ]
        exact h3
      · intro j v hj hv
        cases j with
        | zero =>
          simp only [List.getElem?_cons_zero, Option.some.injEq] at hv
          subst hv
          exact ha
        | succ j =>
          rw [List.getElem?_cons_succ] at hv
          exact h5 j v (by omega) hv

theorem findUserIndex_le (sel : String) (us : List User) (k : Nat) :
    findUserIndex sel us k = 0 ∨
      (k ≤ findUserIndex sel us k ∧ findUserIndex sel us k - k < us.length) := by
  induction us generalizing k with
  | nil => exact Or.inl rfl
  | cons a rest ih =>
    by_cases ha : a.Name = sel
    · right
      simp [findUserIndex, ha]
    · simp only [findUserIndex, ha, if_false, List.length_cons]
      rcases ih (k + 1) with h | h
      · exact Or.inl h
      · right
        omega

theorem findUserIndex_lt (sel : String) (us : List User) (h : us ≠ []) :
    findUserIndex sel us 0 < us.length := by
  have hpos := List.length_pos.mpr h
  rcases findUserIndex_le sel us 0 with h0 | h0
  · omega
  · omega

/-- The collection `editUser` leaves behind once all prompts have answered and the
age string has passed `Atoi`. -/
theorem editUser_users (users : List User) (fs : FileSys) (sel newName newAgeStr : String)
    (age : Int) (hne : users ≠ []) (hat : atoi newAgeStr = (age, none)) :
    ∃ u, users[findUserIndex sel users 0]? = some u ∧
      (editUser users fs (.ok sel) (.ok newName) (.ok newAgeStr)).users =
        users.set (findUserIndex sel users 0) { u with Name := newName, Age := age } := by
  have hlt := findUserIndex_lt sel users hne
  have hlen : ¬ users.length = 0 := by
    have := List.length_pos.mpr hne
    omega
  obtain ⟨u, hu⟩ : ∃ u, users[findUserIndex sel users 0]? = some u :=
    ⟨users[findUserIndex sel users 0], List.getElem?_eq_getElem hlt⟩
  refine ⟨u, hu, ?_⟩
  unfold editUser
  rw [if_neg hlen]
  simp only [hu, hat]
  rcases saveUsersToFile_cases fs storePath
      (users.set (findUserIndex sel users 0) { u with Name := newName, Age := age })
    with ⟨fs2, h⟩ | ⟨fs2, e, h⟩ <;> rw [h]

/-- `editUser` never changes the list of ids, whatever the prompts return. -/
theorem editUser_ids (users : List User) (fs : FileSys)
    (selected newName newAgeStr : Except String String) :
    (editUser users fs selected newName newAgeStr).users.map User.ID = users.map User.ID := by
  unfold editUser
  split
  · rfl
  · cases selected with
    | error e => rfl
    | ok sel =>
      simp only []
      cases hu : users[findUserIndex sel users 0]? with
      | none => rfl
      | some u =>
        simp only []
        cases newName with
        | error e => rfl
        | ok nn =>
          cases newAgeStr with
          | error e => rfl
          | ok na =>
            simp only []
            rcases hat : atoi na with ⟨age, err⟩
            cases err with
            | some e => rfl
            | none =>
              simp only []
              have hid : (users.set (findUserIndex sel users 0)
                  { u with Name := nn, Age := age }).map User.ID = users.map User.ID := by
                rw [List.map_set]
                apply List.ext_getElem?
                intro n
                by_cases hn : findUserIndex sel users 0 = n
                · subst hn
                  simp [List.getElem?_set, hu]
                  by_contra hge
                  rw [List.getElem?_eq_none (by omega)] at hu
                  cases hu
                · rw [List.getElem?_set_ne hn]
              rcases saveUsersToFile_cases fs storePath
                  (users.set (findUserIndex sel users 0) { u with Name := nn, Age := age })
                with ⟨fs2, h⟩ | ⟨fs2, e, h⟩ <;> rw [h] <;> exact hid

/-- The collection `deleteUser` leaves behind: unchanged, or with the record at the
looked-up index cut out. -/
theorem deleteUser_users (t : Char → Char) (users : List User) (fs : FileSys)
    (selected confirmation : Except String String) :
    (deleteUser t users fs selected confirmation).users = users ∨
    ∃ sel c, selected = .ok sel ∧ confirmation = .ok c ∧ toLower t c = "yes" ∧ users ≠ [] ∧
      (deleteUser t users fs selected confirmation).users =
        users.take (findUserIndex sel users 0) ++ users.drop (findUserIndex sel users 0 + 1) := by
  unfold deleteUser
  split
  · exact Or.inl rfl
  · rename_i hlen
    cases selected with
    | error e => exact Or.inl rfl
    | ok sel =>
      cases confirmation with
      | error e => exact Or.inl rfl
      | ok c =>
        simp only []
        by_cases hyes : toLower t c = "yes"
        · right
          refine ⟨sel, c, rfl, rfl, hyes, ?_, ?_⟩
          · intro h0
            exact hlen (by simp [h0])
          · rw [if_neg (by simpa using hyes)]
            rcases saveUsersToFile_cases fs storePath
                (users.take (findUserIndex sel users 0) ++
                  users.drop (findUserIndex sel users 0 + 1))
              with ⟨fs2, h⟩ | ⟨fs2, e, h⟩
            · rw [h]
              simp only []
              split <;> rfl
            · rw [h]
        · left
          rw [if_pos hyes]

/-- The collection `addUser` leaves behind: unchanged, or extended by one record. -/
theorem addUser_users (users : List User) (fs : FileSys) (name ageStr : Except String String)
    (newID : String) :
    (addUser users fs name ageStr newID).users = users ∨
    ∃ n a age, name = .ok n ∧ ageStr = .ok a ∧ atoi a = (age, none) ∧
      (addUser users fs name ageStr newID).users = users ++ [⟨newID, n, age⟩] := by
  unfold addUser
  cases name with
  | error e => exact Or.inl rfl
  | ok n =>
    cases ageStr with
    | error e => exact Or.inl rfl
    | ok a =>
      simp only []
      rcases hat : atoi a with ⟨age, err⟩
      cases err with
      | some e => exact Or.inl rfl
      | none =>
        right
        refine ⟨n, a, age, rfl, rfl, hat, ?_⟩
        simp only []
        rcases saveUsersToFile_cases fs storePath (users ++ [⟨newID, n, age⟩])
          with ⟨fs2, h⟩ | ⟨fs2, e, h⟩ <;> rw [h]

/-! ## Lemmas on `sort.Slice`: `pdqsort_func` sorts and permutes -/

theorem getElem?_eq_nth {xs : List User} {k : Nat} (h : k < xs.length) :
    xs[k]? = some (nth xs k) := by
  simp [nth, List.getElem?_eq_getElem h]

theorem lessAt_true_iff {xs : List User} {i j : Nat} (hi : i < xs.length)
    (hj : j < xs.length) : lessAt xs i j = true ↔ (nth xs i).Name < (nth xs j).Name := by
  unfold lessAt
  rw [getElem?_eq_nth hi, getElem?_eq_nth hj]
  simp only [decide_eq_true_eq]
  exact String.lt_iff_toList_lt.symm

theorem lessAt_false_iff {xs : List User} {i j : Nat} (hi : i < xs.length)
    (hj : j < xs.length) : lessAt xs i j = false ↔ (nth xs j).Name ≤ (nth xs i).Name := by
  rw [← not_lt, ← lessAt_true_iff hi hj]
  simp

theorem length_swapAt (xs : List User) (i j : Nat) : (swapAt xs i j).length = xs.length := by
  unfold swapAt
  split <;> simp

theorem nth_swapAt {xs : List User} {i j : Nat} (hi : i < xs.length) (hj : j < xs.length)
    (k : Nat) :
    nth (swapAt xs i j) k =
      if k = j then nth xs i else if k = i then nth xs j else nth xs k := by
  unfold swapAt
  rw [getElem?_eq_nth hi, getElem?_eq_nth hj]
  simp only [nth, List.getD_eq_getElem?_getD, List.getElem?_set, List.length_set]
  by_cases h1 : k = j
  · subst h1
    simp [hj]
  · by_cases h2 : k = i
    · subst h2
      simp [hi, Ne.symm h1, h1]
    · simp [h1, h2, Ne.symm h1, Ne.symm h2]

theorem swapAt_perm (xs : List User) (i j : Nat) : (swapAt xs i j).Perm xs := by
  unfold swapAt
  cases hi : xs[i]? with
  | none => exact List.Perm.refl _
  | some x =>
    cases hj : xs[j]? with
    | none => exact List.Perm.refl _
    | some y =>
      simp only []
      obtain ⟨hil, hix⟩ := List.getElem?_eq_some.mp hi
      obtain ⟨hjl, hjy⟩ := List.getElem?_eq_some.mp hj
      rw [List.perm_iff_count]
      intro c
      rw [List.count_set _ _ _ _ (by simpa using hjl), List.count_set _ _ _ _ hil]
      have hx : (if x == c then 1 else 0) ≤ xs.count c := by
        split
        · rename_i h
          have : x = c := by simpa using h
          subst this
          exact List.count_pos_iff.mpr (by rw [← hix]; exact List.getElem_mem _)
        · omega
      have hy : ∀ h : j < (xs.set i y).length, (xs.set i y)[j] = y := by
        intro h
        rw [List.getElem_set]
        split
        · rfl
        · exact hjy
      rw [hy, hix]
      omega

theorem Shuffle.refl (a b : Nat) (xs : List User) : Shuffle a b xs xs :=
  ⟨rfl, fun _ _ => rfl, fun _ h => h, List.Perm.refl _⟩

theorem Shuffle.trans {a b : Nat} {xs ys zs : List User} (h1 : Shuffle a b xs ys)
    (h2 : Shuffle a b ys zs) : Shuffle a b xs zs :=
  ⟨h2.len.trans h1.len, fun k hk => (h2.frame k hk).trans (h1.frame k hk),
    fun P hP => h2.inside P (h1.inside P hP), h2.perm.trans h1.perm⟩

theorem Shuffle.mono {a b a2 b2 : Nat} {xs ys : List User} (h : Shuffle a b xs ys)
    (ha : a2 ≤ a) (hb : b ≤ b2) : Shuffle a2 b2 xs ys := by
  refine ⟨h.len, fun k hk => h.frame k (by omega), ?_, h.perm⟩
  intro P hP k hk1 hk2
  by_cases hin : a ≤ k ∧ k < b
  · exact h.inside P (fun m hm1 hm2 => hP m (by omega) (by omega)) k hin.1 hin.2
  · rw [h.frame k (by omega)]
    exact hP k hk1 hk2

theorem Shuffle.swap {a b : Nat} (xs : List User) {i j : Nat} (hb : b ≤ xs.length)
    (hi1 : a ≤ i) (hi2 : i < b) (hj1 : a ≤ j) (hj2 : j < b) :
    Shuffle a b xs (swapAt xs i j) := by
  have hi : i < xs.length := by omega
  have hj : j < xs.length := by omega
  refine ⟨length_swapAt xs i j, ?_, ?_, swapAt_perm xs i j⟩
  · intro k hk
    rw [nth_swapAt hi hj, if_neg (by omega), if_neg (by omega)]
  · intro P hP k hk1 hk2
    rw [nth_swapAt hi hj]
    split
    · exact hP i hi1 hi2
    · split
      · exact hP j hj1 hj2
      · exact hP k hk1 hk2

/-- A bound that holds for every record of the range still holds after a shuffle. -/
theorem Shuffle.le_of_le {a b : Nat} {xs ys : List User} (h : Shuffle a b xs ys)
    (p : String) (hp : ∀ k, a ≤ k → k < b → p ≤ (nth xs k).Name) :
    ∀ k, a ≤ k → k < b → p ≤ (nth ys k).Name :=
  h.inside (fun u => p ≤ u.Name) hp

theorem Shuffle.ge_of_ge {a b : Nat} {xs ys : List User} (h : Shuffle a b xs ys)
    (p : String) (hp : ∀ k, a ≤ k → k < b → (nth xs k).Name ≤ p) :
    ∀ k, a ≤ k → k < b → (nth ys k).Name ≤ p :=
  h.inside (fun u => u.Name ≤ p) hp

theorem Shuffle.lt_of_lt {a b : Nat} {xs ys : List User} (h : Shuffle a b xs ys)
    (p : String) (hp : ∀ k, a ≤ k → k < b → (nth xs k).Name < p) :
    ∀ k, a ≤ k → k < b → (nth ys k).Name < p :=
  h.inside (fun u => u.Name < p) hp

theorem Shuffle.gt_of_gt {a b : Nat} {xs ys : List User} (h : Shuffle a b xs ys)
    (p : String) (hp : ∀ k, a ≤ k → k < b → p < (nth xs k).Name) :
    ∀ k, a ≤ k → k < b → p < (nth ys k).Name :=
  h.inside (fun u => p < u.Name) hp

/-- The inner loop of the insertion sort, entered with the record to place at index
`j`: the records of `[a, i]` other than it are in order, it is at most those after
it, and the loop cannot pass `a`.  It leaves `[a, i]` in order. -/
theorem insertionInner_spec (a0 : Nat) :
    ∀ (j : Nat) (xs : List User) (a i : Nat), a0 ≤ a → a ≤ j → j ≤ i → i < xs.length →
      (a0 < a → (nth xs (a - 1)).Name ≤ (nth xs j).Name) →
      (∀ p q, a ≤ p → p < q → q ≤ i → p ≠ j → q ≠ j → (nth xs p).Name ≤ (nth xs q).Name) →
      (∀ q, j < q → q ≤ i → (nth xs j).Name ≤ (nth xs q).Name) →
      Shuffle a (i + 1) xs (insertionInner a0 j xs) ∧
        SortedOn a (i + 1) (insertionInner a0 j xs) := by
  intro j
  induction j with
  | zero =>
    intro xs a i _ ha _ _ _ hs hx
    refine ⟨Shuffle.refl _ _ _, ?_⟩
    intro p q hp hpq hq
    by_cases hp0 : p = 0
    · subst hp0
      exact hx q hpq (by omega)
    · exact hs p q hp hpq (by omega) hp0 (by omega)
  | succ j ih =>
    intro xs a i ha0 ha hji hi hstop hs hx
    have hj1 : j + 1 < xs.length := by omega
    have hj0 : j < xs.length := by omega
    unfold insertionInner
    by_cases hc : j + 1 > a0 ∧ lessAt xs (j + 1) j = true
    · rw [if_pos hc]
      have hlt : (nth xs (j + 1)).Name < (nth xs j).Name := (lessAt_true_iff hj1 hj0).mp hc.2
      have haj : a ≤ j := by
        by_contra hcon
        have haeq : a = j + 1 := by omega
        have h1 := hstop (by omega)
        rw [haeq] at h1
        simp only [Nat.add_sub_cancel] at h1
        exact absurd hlt (not_lt.mpr h1)
      have hsw : ∀ k, nth (swapAt xs (j + 1) j) k =
          if k = j then nth xs (j + 1) else if k = j + 1 then nth xs j else nth xs k :=
        fun k => nth_swapAt hj1 hj0 k
      have hlen : (swapAt xs (j + 1) j).length = xs.length := length_swapAt _ _ _
      obtain ⟨h1, h2⟩ := ih (swapAt xs (j + 1) j) a i ha0 haj (by omega) (by omega)
        (by
          intro h
          rw [hsw, hsw, if_neg (by omega), if_neg (by omega), if_pos rfl]
          exact hstop h)
        (by
          intro p q hp hpq hq hpj hqj
          rw [hsw p, hsw q, if_neg hpj, if_neg hqj]
          by_cases hp1 : p = j + 1
          · rw [if_pos hp1, if_neg (by omega)]
            exact hs j q haj (by omega) hq (by omega) (by omega)
          · rw [if_neg hp1]
            by_cases hq1 : q = j + 1
            · rw [if_pos hq1]
              exact hs p j hp (by omega) (by omega) hp1 (by omega)
            · rw [if_neg hq1]
              exact hs p q hp hpq hq hp1 hq1)
        (by
          intro q hjq hq
          rw [hsw j, hsw q, if_pos rfl, if_neg (by omega)]
          by_cases hq1 : q = j + 1
          · rw [if_pos hq1]
            exact le_of_lt hlt
          · rw [if_neg hq1]
            exact hx q (by omega) hq)
      exact ⟨(Shuffle.swap xs (by omega) (by omega) (by omega) haj (by omega)).trans h1, h2⟩
    · rw [if_neg hc]
      refine ⟨Shuffle.refl _ _ _, ?_⟩
      intro p q hp hpq hq
      by_cases hp1 : p = j + 1
      · subst hp1
        exact hx q hpq (by omega)
      · by_cases hq1 : q = j + 1
        · subst hq1
          have hle : (nth xs j).Name ≤ (nth xs (j + 1)).Name := by
            apply (lessAt_false_iff hj1 hj0).mp
            by_contra hcon
            exact hc ⟨by omega, by simpa using hcon⟩
          by_cases hpj : p = j
          · subst hpj
            exact hle
          · exact le_trans (hs p j hp (by omega) (by omega) hp1 (by omega)) hle
        · exact hs p q hp hpq (by omega) hp1 hq1

theorem insertionOuter_spec (a b : Nat) :
    ∀ (fuel i : Nat) (xs : List User), a < i → i ≤ b → b ≤ xs.length → b - i ≤ fuel →
      SortedOn a i xs →
      Shuffle a b xs (insertionOuter a b fuel i xs) ∧
        SortedOn a b (insertionOuter a b fuel i xs) := by
  intro fuel
  induction fuel with
  | zero =>
    intro i xs _ hib _ hf hs
    have : i = b := by omega
    subst this
    exact ⟨Shuffle.refl _ _ _, hs⟩
  | succ fuel ih =>
    intro i xs hai hib hb hf hs
    unfold insertionOuter
    by_cases hlt : i < b
    · rw [if_pos hlt]
      obtain ⟨h1, h2⟩ := insertionInner_spec a i xs a i (le_refl _) (by omega) (le_refl _)
        (by omega) (fun h => absurd h (lt_irrefl _))
        (fun p q hp hpq hq _ hqi => hs p q hp hpq (by omega))
        (fun q h1 h2 => by omega)
      obtain ⟨h3, h4⟩ := ih (i + 1) (insertionInner a i xs) (by omega) (by omega)
        (by rw [h1.len]; exact hb) (by omega) h2
      exact ⟨(h1.mono (le_refl _) (by omega)).trans h3, h4⟩
    · rw [if_neg hlt]
      have : i = b := by omega
      subst this
      exact ⟨Shuffle.refl _ _ _, hs⟩

/-- `insertionSort_func(data, a, b)` moves records inside `[a, b)` only and leaves
that range in order. -/
theorem insertionSortFunc_spec (xs : List User) (a b : Nat) (hab : a ≤ b)
    (hb : b ≤ xs.length) :
    Shuffle a b xs (insertionSortFunc xs a b) ∧ SortedOn a b (insertionSortFunc xs a b) := by
  unfold insertionSortFunc
  by_cases h : a = b
  · subst h
    have : insertionOuter a a (a - (a + 1)) (a + 1) xs = xs := by
      have h0 : a - (a + 1) = 0 := by omega
      rw [h0]
      rfl
    rw [this]
    exact ⟨Shuffle.refl _ _ _, fun i j h1 h2 h3 => by omega⟩
  · exact insertionOuter_spec a b _ (a + 1) xs (by omega) (by omega) hb (le_refl _)
      (fun i j h1 h2 h3 => by omega)

theorem scanLess_spec (xs : List User) (a j : Nat) (ha : a < xs.length) (hj : j < xs.length) :
    ∀ (fuel i : Nat), i ≤ j + 1 → j + 1 - i ≤ fuel →
      i ≤ scanLess xs a j fuel i ∧ scanLess xs a j fuel i ≤ j + 1 ∧
      (∀ k, i ≤ k → k < scanLess xs a j fuel i → (nth xs k).Name < (nth xs a).Name) ∧
      (scanLess xs a j fuel i ≤ j →
        (nth xs a).Name ≤ (nth xs (scanLess xs a j fuel i)).Name) := by
  intro fuel
  induction fuel with
  | zero =>
    intro i hi hf
    have : i = j + 1 := by omega
    subst this
    exact ⟨le_refl _, le_refl _, fun k h1 h2 => absurd h2 (by simp [scanLess]; omega),
      fun h => absurd h (by simp [scanLess])⟩
  | succ fuel ih =>
    intro i hi hf
    unfold scanLess
    by_cases hc : i ≤ j ∧ lessAt xs i a = true
    · rw [if_pos hc]
      obtain ⟨h1, h2, h3, h4⟩ := ih (i + 1) (by omega) (by omega)
      refine ⟨by omega, h2, ?_, h4⟩
      intro k hk1 hk2
      by_cases hki : k = i
      · subst hki
        exact (lessAt_true_iff (by omega) ha).mp hc.2
      · exact h3 k (by omega) hk2
    · rw [if_neg hc]
      refine ⟨le_refl _, hi, fun k h1 h2 => by omega, ?_⟩
      intro hij
      apply (lessAt_false_iff (by omega) ha).mp
      by_contra hcon
      exact hc ⟨hij, by simpa using hcon⟩

theorem scanNotLess_spec (xs : List User) (a i : Nat) (ha : a < xs.length) (hi : 1 ≤ i) :
    ∀ (j : Nat), j < xs.length → i ≤ j + 1 →
      i ≤ scanNotLess xs a i j + 1 ∧ scanNotLess xs a i j ≤ j ∧
      (∀ k, scanNotLess xs a i j < k → k ≤ j → (nth xs a).Name ≤ (nth xs k).Name) ∧
      (i ≤ scanNotLess xs a i j →
        (nth xs (scanNotLess xs a i j)).Name < (nth xs a).Name) := by
  intro j
  induction j with
  | zero =>
    intro _ hij
    have : i = 1 := by omega
    subst this
    exact ⟨by simp [scanNotLess], by simp [scanNotLess],
      fun k h1 h2 => by simp [scanNotLess] at h1; omega,
      fun h => by simp [scanNotLess] at h⟩
  | succ j ih =>
    intro hj hij
    unfold scanNotLess
    by_cases hc : i ≤ j + 1 ∧ lessAt xs (j + 1) a = false
    · rw [if_pos hc]
      obtain ⟨h1, h2, h3, h4⟩ := ih (by omega) (by omega)
      refine ⟨h1, by omega, ?_, h4⟩
      intro k hk1 hk2
      by_cases hkj : k = j + 1
      · subst hkj
        exact (lessAt_false_iff hj ha).mp hc.2
      · exact h3 k hk1 (by omega)
    · rw [if_neg hc]
      refine ⟨by omega, le_refl _, fun k h1 h2 => by omega, ?_⟩
      intro hij2
      apply (lessAt_true_iff hj ha).mp
      by_contra hcon
      exact hc ⟨hij2, by simpa using hcon⟩

/-- The main loop of `partition_func`: with the pivot at index `a`, the records of
`[a+1, i)` below the pivot and those of `(j, b)` not below it, the loop ends with
`[a+1, m]` below the pivot and `(m, b)` not below it, `m` being the index returned. -/
theorem partitionLoop_spec (a b : Nat) :
    ∀ (fuel : Nat) (xs : List User) (i j : Nat), a + 1 ≤ i → i ≤ j + 1 → j < b →
      b ≤ xs.length → j + 1 - i ≤ fuel →
      (∀ k, a + 1 ≤ k → k < i → (nth xs k).Name < (nth xs a).Name) →
      (∀ k, j < k → k < b → (nth xs a).Name ≤ (nth xs k).Name) →
      Shuffle (a + 1) b xs (partitionLoop a fuel xs i j).1 ∧
      a ≤ (partitionLoop a fuel xs i j).2 ∧ (partitionLoop a fuel xs i j).2 < b ∧
      (∀ k, a + 1 ≤ k → k ≤ (partitionLoop a fuel xs i j).2 →
        (nth (partitionLoop a fuel xs i j).1 k).Name < (nth xs a).Name) ∧
      (∀ k, (partitionLoop a fuel xs i j).2 < k → k < b →
        (nth xs a).Name ≤ (nth (partitionLoop a fuel xs i j).1 k).Name) := by
  intro fuel
  induction fuel with
  | zero =>
    intro xs i j hi hij hjb hb hf hlo hhi
    have : i = j + 1 := by omega
    subst this
    exact ⟨Shuffle.refl _ _ _, by simp [partitionLoop]; omega, by simpa [partitionLoop] using hjb,
      fun k h1 h2 => hlo k h1 (by simp [partitionLoop] at h2; omega),
      fun k h1 h2 => hhi k (by simpa [partitionLoop] using h1) h2⟩
  | succ fuel ih =>
    intro xs i j hi hij hjb hb hf hlo hhi
    have ha : a < xs.length := by omega
    have hj : j < xs.length := by omega
    obtain ⟨s1, s2, s3, s4⟩ := scanLess_spec xs a j ha hj (j + 1 - i) i hij (le_refl _)
    generalize hi2 : scanLess xs a j (j + 1 - i) i = i2 at s1 s2 s3 s4
    obtain ⟨t1, t2, t3, t4⟩ := scanNotLess_spec xs a i2 ha (by omega) j hj s2
    generalize hj2 : scanNotLess xs a i2 j = j2 at t1 t2 t3 t4
    have hlo2 : ∀ k, a + 1 ≤ k → k < i2 → (nth xs k).Name < (nth xs a).Name := by
      intro k h1 h2
      by_cases hk : k < i
      · exact hlo k h1 hk
      · exact s3 k (by omega) h2
    have hhi2 : ∀ k, j2 < k → k < b → (nth xs a).Name ≤ (nth xs k).Name := by
      intro k h1 h2
      by_cases hk : j < k
      · exact hhi k hk h2
      · exact t3 k h1 (by omega)
    have hunf : partitionLoop a (fuel + 1) xs i j =
        if i2 > j2 then (xs, j2) else partitionLoop a fuel (swapAt xs i2 j2) (i2 + 1) (j2 - 1) := by
      rw [partitionLoop]
      simp only [hi2, hj2]
    rw [hunf]
    by_cases hgt : i2 > j2
    · rw [if_pos hgt]
      exact ⟨Shuffle.refl _ _ _, by show a ≤ j2; omega, by show j2 < b; omega,
        fun k h1 h2 => hlo2 k h1 (by show k < i2; have : k ≤ j2 := h2; omega),
        fun k h1 h2 => hhi2 k h1 h2⟩
    · rw [if_neg hgt]
      have hle : i2 ≤ j2 := by omega
      have hki : (nth xs a).Name ≤ (nth xs i2).Name := s4 (by omega)
      have hkj : (nth xs j2).Name < (nth xs a).Name := t4 hle
      have hne : i2 ≠ j2 := by
        intro h
        rw [h] at hki
        exact absurd hkj (not_lt.mpr hki)
      have hi2l : i2 < xs.length := by omega
      have hj2l : j2 < xs.length := by omega
      have hsw : ∀ k, nth (swapAt xs i2 j2) k =
          if k = j2 then nth xs i2 else if k = i2 then nth xs j2 else nth xs k :=
        fun k => nth_swapAt hi2l hj2l k
      have hpa : nth (swapAt xs i2 j2) a = nth xs a := by
        rw [hsw, if_neg (by omega), if_neg (by omega)]
      obtain ⟨r1, r2, r3, r4, r5⟩ := ih (swapAt xs i2 j2) (i2 + 1) (j2 - 1) (by omega)
        (by omega) (by omega) (by rw [length_swapAt]; exact hb) (by omega)
        (by
          intro k h1 h2
          rw [hpa, hsw, if_neg (by omega)]
          by_cases hk : k = i2
          · rw [if_pos hk]
            exact hkj
          · rw [if_neg hk]
            exact hlo2 k h1 (by omega))
        (by
          intro k h1 h2
          rw [hpa, hsw]
          by_cases hk : k = j2
          · rw [if_pos hk]
            exact hki
          · rw [if_neg hk, if_neg (by omega)]
            exact hhi2 k (by omega) h2)
      rw [hpa] at r4 r5
      exact ⟨(Shuffle.swap xs hb (by omega) (by omega) (by omega) (by omega)).trans r1,
        r2, r3, r4, r5⟩

theorem partitionFunc_eq (xs : List User) (a b pivot : Nat) :
    (partitionFunc xs a b pivot).1 =
      swapAt (partitionLoop a (b - a + 1) (swapAt xs a pivot) (a + 1) (b - 1)).1
        (partitionLoop a (b - a + 1) (swapAt xs a pivot) (a + 1) (b - 1)).2 a ∧
    (partitionFunc xs a b pivot).2.1 =
      (partitionLoop a (b - a + 1) (swapAt xs a pivot) (a + 1) (b - 1)).2 := by
  unfold partitionFunc
  rw [partitionLoop]
  simp only []
  split <;> exact ⟨rfl, rfl⟩

/-- `partition_func(data, a, b, pivot)` moves records inside `[a, b)` only; the records
before the returned index are below the record at it, those after are not. -/
theorem partitionFunc_spec (xs : List User) (a b pivot : Nat) (hap : a ≤ pivot)
    (hpb : pivot < b) (hb : b ≤ xs.length) :
    Shuffle a b xs (partitionFunc xs a b pivot).1 ∧
    a ≤ (partitionFunc xs a b pivot).2.1 ∧ (partitionFunc xs a b pivot).2.1 < b ∧
    (∀ k, a ≤ k → k < (partitionFunc xs a b pivot).2.1 →
      (nth (partitionFunc xs a b pivot).1 k).Name <
        (nth (partitionFunc xs a b pivot).1 (partitionFunc xs a b pivot).2.1).Name) ∧
    (∀ k, (partitionFunc xs a b pivot).2.1 < k → k < b →
      (nth (partitionFunc xs a b pivot).1 (partitionFunc xs a b pivot).2.1).Name ≤
        (nth (partitionFunc xs a b pivot).1 k).Name) := by
  obtain ⟨e1, e2⟩ := partitionFunc_eq xs a b pivot
  rw [e1, e2]
  have hs0 : Shuffle a b xs (swapAt xs a pivot) :=
    Shuffle.swap xs hb (le_refl _) (by omega) hap hpb
  obtain ⟨r1, r2, r3, r4, r5⟩ := partitionLoop_spec a b (b - a + 1) (swapAt xs a pivot)
    (a + 1) (b - 1) (le_refl _) (by omega) (by omega) (by rw [length_swapAt]; exact hb)
    (by omega) (fun k h1 h2 => by omega) (fun k h1 h2 => by omega)
  generalize partitionLoop a (b - a + 1) (swapAt xs a pivot) (a + 1) (b - 1) = r at r1 r2 r3 r4 r5
  obtain ⟨ys, m⟩ := r
  simp only at r1 r2 r3 r4 r5 ⊢
  have hlen : ys.length = xs.length := by rw [r1.len, length_swapAt]
  have hpa : nth ys a = nth (swapAt xs a pivot) a := r1.frame a (by omega)
  rw [← hpa] at r4 r5
  have hsw : ∀ k, nth (swapAt ys m a) k =
      if k = a then nth ys m else if k = m then nth ys a else nth ys k :=
    fun k => nth_swapAt (by omega) (by omega) k
  refine ⟨(hs0.trans (r1.mono (by omega) (le_refl _))).trans
      (Shuffle.swap ys (by omega) r2 r3 (le_refl _) (by omega)), r2, r3, ?_, ?_⟩
  · intro k h1 h2
    rw [hsw k, hsw m]
    by_cases hma : m = a
    · omega
    · rw [if_neg hma, if_pos rfl]
      by_cases hka : k = a
      · rw [if_pos hka]
        exact r4 m (by omega) (le_refl _)
      · rw [if_neg hka, if_neg (by omega)]
        exact r4 k (by omega) (by omega)
  · intro k h1 h2
    have hk : nth (swapAt ys m a) k = nth ys k := by
      rw [hsw k, if_neg (by omega), if_neg (by omega)]
    rw [hk, hsw m]
    by_cases hma : m = a
    · rw [if_pos hma, hma]
      exact r5 k (by omega) h2
    · rw [if_neg hma, if_pos rfl]
      exact r5 k h1 h2

theorem scanNotGreater_spec (xs : List User) (a j : Nat) (ha : a < xs.length)
    (hj : j < xs.length) :
    ∀ (fuel i : Nat), i ≤ j + 1 → j + 1 - i ≤ fuel →
      i ≤ scanNotGreater xs a j fuel i ∧ scanNotGreater xs a j fuel i ≤ j + 1 ∧
      (∀ k, i ≤ k → k < scanNotGreater xs a j fuel i → (nth xs k).Name ≤ (nth xs a).Name) ∧
      (scanNotGreater xs a j fuel i ≤ j →
        (nth xs a).Name < (nth xs (scanNotGreater xs a j fuel i)).Name) := by
  intro fuel
  induction fuel with
  | zero =>
    intro i hi hf
    have : i = j + 1 := by omega
    subst this
    exact ⟨le_refl _, le_refl _, fun k h1 h2 => absurd h2 (by simp [scanNotGreater]; omega),
      fun h => absurd h (by simp [scanNotGreater])⟩
  | succ fuel ih =>
    intro i hi hf
    unfold scanNotGreater
    by_cases hc : i ≤ j ∧ lessAt xs a i = false
    · rw [if_pos hc]
      obtain ⟨h1, h2, h3, h4⟩ := ih (i + 1) (by omega) (by omega)
      refine ⟨by omega, h2, ?_, h4⟩
      intro k hk1 hk2
      by_cases hki : k = i
      · subst hki
        exact (lessAt_false_iff ha (by omega)).mp hc.2
      · exact h3 k (by omega) hk2
    · rw [if_neg hc]
      refine ⟨le_refl _, hi, fun k h1 h2 => by omega, ?_⟩
      intro hij
      apply (lessAt_true_iff ha (by omega)).mp
      by_contra hcon
      exact hc ⟨hij, by simpa using hcon⟩

theorem scanGreater_spec (xs : List User) (a i : Nat) (ha : a < xs.length) (hi : 1 ≤ i) :
    ∀ (j : Nat), j < xs.length → i ≤ j + 1 →
      i ≤ scanGreater xs a i j + 1 ∧ scanGreater xs a i j ≤ j ∧
      (∀ k, scanGreater xs a i j < k → k ≤ j → (nth xs a).Name < (nth xs k).Name) ∧
      (i ≤ scanGreater xs a i j →
        (nth xs (scanGreater xs a i j)).Name ≤ (nth xs a).Name) := by
  intro j
  induction j with
  | zero =>
    intro _ hij
    have : i = 1 := by omega
    subst this
    exact ⟨by simp [scanGreater], by simp [scanGreater],
      fun k h1 h2 => by simp [scanGreater] at h1; omega,
      fun h => by simp [scanGreater] at h⟩
  | succ j ih =>
    intro hj hij
    unfold scanGreater
    by_cases hc : i ≤ j + 1 ∧ lessAt xs a (j + 1) = true
    · rw [if_pos hc]
      obtain ⟨h1, h2, h3, h4⟩ := ih (by omega) (by omega)
      refine ⟨h1, by omega, ?_, h4⟩
      intro k hk1 hk2
      by_cases hkj : k = j + 1
      · subst hkj
        exact (lessAt_true_iff ha hj).mp hc.2
      · exact h3 k hk1 (by omega)
    · rw [if_neg hc]
      refine ⟨by omega, le_refl _, fun k h1 h2 => by omega, ?_⟩
      intro hij2
      apply (lessAt_false_iff ha hj).mp
      by_contra hcon
      exact hc ⟨hij2, by simpa using hcon⟩

theorem partitionEqualLoop_spec (a b : Nat) :
    ∀ (fuel : Nat) (xs : List User) (i j : Nat), a + 1 ≤ i → i ≤ j + 1 → j < b →
      b ≤ xs.length → j + 1 - i ≤ fuel →
      (∀ k, a + 1 ≤ k → k < i → (nth xs k).Name ≤ (nth xs a).Name) →
      (∀ k, j < k → k < b → (nth xs a).Name < (nth xs k).Name) →
      Shuffle (a + 1) b xs (partitionEqualLoop a fuel xs i j).1 ∧
      a + 1 ≤ (partitionEqualLoop a fuel xs i j).2 ∧ (partitionEqualLoop a fuel xs i j).2 ≤ b ∧
      (∀ k, a + 1 ≤ k → k < (partitionEqualLoop a fuel xs i j).2 →
        (nth (partitionEqualLoop a fuel xs i j).1 k).Name ≤ (nth xs a).Name) ∧
      (∀ k, (partitionEqualLoop a fuel xs i j).2 ≤ k → k < b →
        (nth xs a).Name < (nth (partitionEqualLoop a fuel xs i j).1 k).Name) := by
  intro fuel
  induction fuel with
  | zero =>
    intro xs i j hi hij hjb hb hf hlo hhi
    have : i = j + 1 := by omega
    subst this
    exact ⟨Shuffle.refl _ _ _, by simpa [partitionEqualLoop] using hi,
      by simp [partitionEqualLoop]; omega,
      fun k h1 h2 => hlo k h1 (by simpa [partitionEqualLoop] using h2),
      fun k h1 h2 => hhi k (by simp [partitionEqualLoop] at h1; omega) h2⟩
  | succ fuel ih =>
    intro xs i j hi hij hjb hb hf hlo hhi
    have ha : a < xs.length := by omega
    have hj : j < xs.length := by omega
    obtain ⟨s1, s2, s3, s4⟩ := scanNotGreater_spec xs a j ha hj (j + 1 - i) i hij (le_refl _)
    generalize hi2 : scanNotGreater xs a j (j + 1 - i) i = i2 at s1 s2 s3 s4
    obtain ⟨t1, t2, t3, t4⟩ := scanGreater_spec xs a i2 ha (by omega) j hj s2
    generalize hj2 : scanGreater xs a i2 j = j2 at t1 t2 t3 t4
    have hlo2 : ∀ k, a + 1 ≤ k → k < i2 → (nth xs k).Name ≤ (nth xs a).Name := by
      intro k h1 h2
      by_cases hk : k < i
      · exact hlo k h1 hk
      · exact s3 k (by omega) h2
    have hhi2 : ∀ k, j2 < k → k < b → (nth xs a).Name < (nth xs k).Name := by
      intro k h1 h2
      by_cases hk : j < k
      · exact hhi k hk h2
      · exact t3 k h1 (by omega)
    have hunf : partitionEqualLoop a (fuel + 1) xs i j =
        if i2 > j2 then (xs, i2)
        else partitionEqualLoop a fuel (swapAt xs i2 j2) (i2 + 1) (j2 - 1) := by
      rw [partitionEqualLoop]
      simp only [hi2, hj2]
    rw [hunf]
    by_cases hgt : i2 > j2
    · rw [if_pos hgt]
      exact ⟨Shuffle.refl _ _ _, by show a + 1 ≤ i2; omega, by show i2 ≤ b; omega,
        fun k h1 h2 => hlo2 k h1 h2,
        fun k h1 h2 => hhi2 k (by have : i2 ≤ k := h1; omega) h2⟩
    · rw [if_neg hgt]
      have hle : i2 ≤ j2 := by omega
      have hki : (nth xs a).Name < (nth xs i2).Name := s4 (by omega)
      have hkj : (nth xs j2).Name ≤ (nth xs a).Name := t4 hle
      have hne : i2 ≠ j2 := by
        intro h
        rw [h] at hki
        exact absurd hki (not_lt.mpr hkj)
      have hi2l : i2 < xs.length := by omega
      have hj2l : j2 < xs.length := by omega
      have hsw : ∀ k, nth (swapAt xs i2 j2) k =
          if k = j2 then nth xs i2 else if k = i2 then nth xs j2 else nth xs k :=
        fun k => nth_swapAt hi2l hj2l k
      have hpa : nth (swapAt xs i2 j2) a = nth xs a := by
        rw [hsw, if_neg (by omega), if_neg (by omega)]
      obtain ⟨r1, r2, r3, r4, r5⟩ := ih (swapAt xs i2 j2) (i2 + 1) (j2 - 1) (by omega)
        (by omega) (by omega) (by rw [length_swapAt]; exact hb) (by omega)
        (by
          intro k h1 h2
          rw [hpa, hsw, if_neg (by omega)]
          by_cases hk : k = i2
          · rw [if_pos hk]
            exact hkj
          · rw [if_neg hk]
            exact hlo2 k h1 (by omega))
        (by
          intro k h1 h2
          rw [hpa, hsw]
          by_cases hk : k = j2
          · rw [if_pos hk]
            exact hki
          · rw [if_neg hk, if_neg (by omega)]
            exact hhi2 k (by omega) h2)
      rw [hpa] at r4 r5
      exact ⟨(Shuffle.swap xs hb (by omega) (by omega) (by omega) (by omega)).trans r1,
        r2, r3, r4, r5⟩

/-- `partitionEqual_func(data, a, b, pivot)` moves records inside `[a, b)` only; the
records before the returned index are not above the pivot record, those from it on
are above it. -/
theorem partitionEqualFunc_spec (xs : List User) (a b pivot : Nat) (hap : a ≤ pivot)
    (hpb : pivot < b) (hb : b ≤ xs.length) :
    Shuffle a b xs (partitionEqualFunc xs a b pivot).1 ∧
    a + 1 ≤ (partitionEqualFunc xs a b pivot).2 ∧ (partitionEqualFunc xs a b pivot).2 ≤ b ∧
    (∀ k, a ≤ k → k < (partitionEqualFunc xs a b pivot).2 →
      (nth (partitionEqualFunc xs a b pivot).1 k).Name ≤ (nth xs pivot).Name) ∧
    (∀ k, (partitionEqualFunc xs a b pivot).2 ≤ k → k < b →
      (nth xs pivot).Name < (nth (partitionEqualFunc xs a b pivot).1 k).Name) := by
  unfold partitionEqualFunc
  have hs0 : Shuffle a b xs (swapAt xs a pivot) :=
    Shuffle.swap xs hb (le_refl _) (by omega) hap hpb
  have hpa : nth (swapAt xs a pivot) a = nth xs pivot := by
    rw [nth_swapAt (by omega) (by omega)]
    split
    · rename_i h
      rw [h]
    · rw [if_pos rfl]
  obtain ⟨r1, r2, r3, r4, r5⟩ := partitionEqualLoop_spec a b (b - a + 1) (swapAt xs a pivot)
    (a + 1) (b - 1) (le_refl _) (by omega) (by omega) (by rw [length_swapAt]; exact hb)
    (by omega) (fun k h1 h2 => by omega) (fun k h1 h2 => by omega)
  rw [hpa] at r4 r5
  refine ⟨hs0.trans (r1.mono (by omega) (le_refl _)), r2, r3, ?_, r5⟩
  intro k h1 h2
  by_cases hka : k = a
  · rw [hka, r1.frame a (by omega), hpa]
  · exact r4 k (by omega) h2

theorem siftDown_spec (first hi lo : Nat) :
    ∀ (fuel root : Nat) (xs : List User), lo ≤ root → first + hi ≤ xs.length →
      hi - root ≤ fuel →
      (∀ k, lo ≤ k → k < hi → k ≠ root → HeapAt xs first hi k) →
      (∀ par, lo ≤ par → (root = 2 * par + 1 ∨ root = 2 * par + 2) →
        ∀ c, (c = 2 * root + 1 ∨ c = 2 * root + 2) → c < hi →
          (nth xs (first + c)).Name ≤ (nth xs (first + par)).Name) →
      Shuffle (first + root) (first + hi) xs (siftDown first hi fuel root xs) ∧
      ∀ k, lo ≤ k → k < hi → HeapAt (siftDown first hi fuel root xs) first hi k := by
  intro fuel
  induction fuel with
  | zero =>
    intro root xs _ _ hf h1 _
    exact ⟨Shuffle.refl _ _ _, fun k hk1 hk2 => h1 k hk1 hk2 (by omega)⟩
  | succ fuel ih =>
    intro root xs hlo hlen hf h1 h2
    unfold siftDown
    by_cases hleaf : 2 * root + 1 ≥ hi
    · rw [if_pos hleaf]
      refine ⟨Shuffle.refl _ _ _, ?_⟩
      intro k hk1 hk2
      by_cases hkr : k = root
      · subst hkr
        intro c hc hch
        omega
      · exact h1 k hk1 hk2 hkr
    · rw [if_neg hleaf]
      simp only []
      obtain ⟨child, hce, hc1, hc2, hc3⟩ : ∃ child,
          (if 2 * root + 1 + 1 < hi ∧
              lessAt xs (first + (2 * root + 1)) (first + (2 * root + 1) + 1) = true
            then 2 * root + 1 + 1 else 2 * root + 1) = child ∧
          (child = 2 * root + 1 ∨ child = 2 * root + 2) ∧ child < hi ∧
          ∀ c, (c = 2 * root + 1 ∨ c = 2 * root + 2) → c < hi →
            (nth xs (first + c)).Name ≤ (nth xs (first + child)).Name := by
        by_cases hc : 2 * root + 1 + 1 < hi ∧
            lessAt xs (first + (2 * root + 1)) (first + (2 * root + 1) + 1) = true
        · refine ⟨2 * root + 1 + 1, if_pos hc, Or.inr rfl, hc.1, ?_⟩
          have hlt := (lessAt_true_iff (by omega) (by omega)).mp hc.2
          intro c hcc hch
          rcases hcc with hcc | hcc
          · subst hcc
            exact le_of_lt hlt
          · subst hcc
            exact le_refl _
        · refine ⟨2 * root + 1, if_neg hc, Or.inl rfl, by omega, ?_⟩
          intro c hcc hch
          rcases hcc with hcc | hcc
          · subst hcc
            exact le_refl _
          · subst hcc
            apply (@lessAt_false_iff xs (first + (2 * root + 1))
              (first + (2 * root + 1) + 1) (by omega) (by omega)).mp
            by_contra hcon
            exact hc ⟨by omega, by simpa using hcon⟩
      rw [hce]
      by_cases hle : lessAt xs (first + root) (first + child) = false
      · rw [if_pos hle]
        have hle2 := (lessAt_false_iff (by omega) (by omega)).mp hle
        refine ⟨Shuffle.refl _ _ _, ?_⟩
        intro k hk1 hk2
        by_cases hkr : k = root
        · subst hkr
          intro c hc hch
          exact le_trans (hc3 c hc hch) hle2
        · exact h1 k hk1 hk2 hkr
      · rw [if_neg hle]
        have hlt : (nth xs (first + root)).Name < (nth xs (first + child)).Name :=
          (lessAt_true_iff (by omega) (by omega)).mp (by simpa using hle)
        have hrc : root < child := by omega
        have hsw : ∀ k, nth (swapAt xs (first + root) (first + child)) (first + k) =
            if k = child then nth xs (first + root)
            else if k = root then nth xs (first + child) else nth xs (first + k) := by
          intro k
          rw [nth_swapAt (by omega) (by omega)]
          by_cases hk1 : k = child
          · rw [if_pos (by omega), if_pos hk1]
          · rw [if_neg (by omega), if_neg hk1]
            by_cases hk2 : k = root
            · rw [if_pos (by omega), if_pos hk2]
            · rw [if_neg (by omega), if_neg hk2]
        obtain ⟨r1, r2⟩ := ih child (swapAt xs (first + root) (first + child)) (by omega)
          (by rw [length_swapAt]; exact hlen) (by omega)
          (by
            intro k hk1 hk2 hkc c hc hch
            rw [hsw c, hsw k, if_neg hkc]
            by_cases hkr : k = root
            · rw [if_pos hkr]
              by_cases hcc : c = child
              · rw [if_pos hcc]
                exact le_of_lt hlt
              · rw [if_neg hcc, if_neg (by omega)]
                exact hc3 c (by omega) hch
            · rw [if_neg hkr, if_neg (by omega)]
              by_cases hcr : c = root
              · rw [if_pos hcr]
                exact h2 k hk1 (by omega) child hc1 hc2
              · rw [if_neg hcr]
                exact h1 k hk1 hk2 hkr c hc hch)
          (by
            intro par hp1 hp2 c hc hch
            have hpar : par = root := by omega
            rw [hsw c, hsw par, if_neg (by omega), if_neg (by omega), if_neg (by omega),
              if_pos hpar]
            exact h1 child (by omega) hc2 (by omega) c hc hch)
        exact ⟨(Shuffle.swap xs (by omega) (le_refl _) (by omega) (by omega) (by omega)).trans
          (r1.mono (by omega) (le_refl _)), r2⟩

theorem heapBuild_spec (first hi : Nat) :
    ∀ (cnt : Nat) (xs : List User), first + hi ≤ xs.length →
      (∀ k, cnt ≤ k → k < hi → HeapAt xs first hi k) →
      Shuffle first (first + hi) xs (heapBuild first hi cnt xs) ∧
      ∀ k, k < hi → HeapAt (heapBuild first hi cnt xs) first hi k := by
  intro cnt
  induction cnt with
  | zero =>
    intro xs _ h
    exact ⟨Shuffle.refl _ _ _, fun k hk => h k (by omega) hk⟩
  | succ i ih =>
    intro xs hlen h
    unfold heapBuild siftDownFunc
    obtain ⟨s1, s2⟩ := siftDown_spec first hi i hi i xs (le_refl _) hlen (by omega)
      (fun k hk1 hk2 hk3 => h k (by omega) hk2) (fun par hp1 hp2 => by omega)
    obtain ⟨r1, r2⟩ := ih (siftDown first hi hi i xs) (by rw [s1.len]; exact hlen) s2
    exact ⟨(s1.mono (by omega) (le_refl _)).trans r1, r2⟩

/-- In a heap the root is not below any node. -/
theorem heap_root_max (xs : List User) (first hi : Nat)
    (h : ∀ k, k < hi → HeapAt xs first hi k) :
    ∀ k, k < hi → (nth xs (first + k)).Name ≤ (nth xs (first + 0)).Name := by
  intro k
  induction k using Nat.strong_induction_on with
  | _ k ih =>
    intro hk
    by_cases h0 : k = 0
    · subst h0
      exact le_refl _
    · have hp : (k - 1) / 2 < k := by omega
      have hc : k = 2 * ((k - 1) / 2) + 1 ∨ k = 2 * ((k - 1) / 2) + 2 := by omega
      exact le_trans (h ((k - 1) / 2) (by omega) k hc hk) (ih _ hp (by omega))

theorem heapPop_spec (first total : Nat) :
    ∀ (cnt : Nat) (xs : List User), cnt ≤ total → first + total ≤ xs.length →
      (∀ k, k < cnt → HeapAt xs first cnt k) →
      SortedOn (first + cnt) (first + total) xs →
      (∀ k m, k < cnt → cnt ≤ m → m < total →
        (nth xs (first + k)).Name ≤ (nth xs (first + m)).Name) →
      Shuffle first (first + total) xs (heapPop first cnt xs) ∧
      SortedOn first (first + total) (heapPop first cnt xs) := by
  intro cnt
  induction cnt with
  | zero =>
    intro xs _ _ _ hs _
    exact ⟨Shuffle.refl _ _ _, by simpa using hs⟩
  | succ i ih =>
    intro xs hct hlen hheap hs hsep
    unfold heapPop siftDownFunc
    have hmax := heap_root_max xs first (i + 1) hheap
    have hsw : ∀ k, nth (swapAt xs first (first + i)) (first + k) =
        if k = i then nth xs first else if k = 0 then nth xs (first + i)
        else nth xs (first + k) := by
      intro k
      rw [nth_swapAt (by omega) (by omega)]
      by_cases hk1 : k = i
      · rw [if_pos (by omega), if_pos hk1]
      · rw [if_neg (by omega), if_neg hk1]
        by_cases hk2 : k = 0
        · rw [if_pos (by omega), if_pos hk2]
        · rw [if_neg (by omega), if_neg hk2]
    have hs0 : Shuffle first (first + total) xs (swapAt xs first (first + i)) :=
      Shuffle.swap xs hlen (le_refl _) (by omega) (by omega) (by omega)
    obtain ⟨s1, s2⟩ := siftDown_spec first i 0 i 0 (swapAt xs first (first + i)) (le_refl _)
      (by rw [length_swapAt]; omega) (by omega)
      (by
        intro k _ hk2 hk3 c hc hch
        rw [hsw c, hsw k, if_neg (by omega), if_neg (by omega), if_neg (by omega),
          if_neg (by omega)]
        exact hheap k (by omega) c hc (by omega))
      (fun par _ hp2 => by omega)
    generalize siftDown first i i 0 (swapAt xs first (first + i)) = ys at s1 s2
    have hfr : ∀ k, i ≤ k → nth ys (first + k) = nth (swapAt xs first (first + i)) (first + k) :=
      fun k hk => s1.frame (first + k) (by omega)
    have hin : ∀ k, k < i → (nth ys (first + k)).Name ≤ (nth xs (first + 0)).Name := by
      intro k hk
      have := s1.ge_of_ge (nth xs (first + 0)).Name
        (by
          intro m hm1 hm2
          obtain ⟨q, rfl⟩ : ∃ q, m = first + q := ⟨m - first, by omega⟩
          rw [hsw q, if_neg (by omega)]
          by_cases hq : q = 0
          · rw [if_pos hq]
            exact hmax i (by omega)
          · rw [if_neg hq]
            exact hmax q (by omega))
        (first + k) (by omega) (by omega)
      exact this
    have hyi : nth ys (first + i) = nth xs (first + 0) := by
      rw [hfr i (le_refl _), hsw i, if_pos rfl]
      rfl
    have hym : ∀ m, i < m → nth ys (first + m) = nth xs (first + m) := by
      intro m hm
      rw [hfr m (by omega), hsw m, if_neg (by omega), if_neg (by omega)]
    obtain ⟨r1, r2⟩ := ih ys (by omega) (by rw [s1.len, length_swapAt]; exact hlen)
      (fun k hk => s2 k (Nat.zero_le _) hk)
      (by
        intro p q hp hpq hq
        obtain ⟨p2, rfl⟩ : ∃ p2, p = first + p2 := ⟨p - first, by omega⟩
        obtain ⟨q2, rfl⟩ : ∃ q2, q = first + q2 := ⟨q - first, by omega⟩
        rw [hym q2 (by omega)]
        by_cases hpi : p2 = i
        · rw [hpi, hyi]
          exact hsep 0 q2 (by omega) (by omega) (by omega)
        · rw [hym p2 (by omega)]
          exact hs (first + p2) (first + q2) (by omega) hpq hq)
      (by
        intro k m hk hm1 hm2
        by_cases hmi : m = i
        · rw [hmi, hyi]
          exact hin k hk
        · rw [hym m (by omega)]
          exact le_trans (hin k hk) (hsep 0 m (by omega) (by omega) hm2))
    exact ⟨(hs0.trans (s1.mono (by omega) (by omega))).trans r1, r2⟩

/-- `heapSort_func(data, a, b)` moves records inside `[a, b)` only and leaves that range
in order. -/
theorem heapSortFunc_spec (xs : List User) (a b : Nat) (hab : a ≤ b) (hb : b ≤ xs.length) :
    Shuffle a b xs (heapSortFunc xs a b) ∧ SortedOn a b (heapSortFunc xs a b) := by
  unfold heapSortFunc
  obtain ⟨s1, s2⟩ := heapBuild_spec a (b - a) ((b - a - 1) / 2 + 1) xs (by omega)
    (fun k hk1 hk2 c hc hch => by omega)
  obtain ⟨r1, r2⟩ := heapPop_spec a (b - a) (b - a) (heapBuild a (b - a) ((b - a - 1) / 2 + 1) xs)
    (le_refl _) (by rw [s1.len]; omega) s2 (fun i j h1 h2 h3 => by omega)
    (fun k m h1 h2 h3 => by omega)
  have hab2 : a + (b - a) = b := by omega
  rw [hab2] at s1 r1 r2
  exact ⟨s1.trans r1, r2⟩

theorem Shuffle.lowerBound {a b : Nat} {xs ys : List User} (h : Shuffle a b xs ys)
    (hl : LowerBound a b xs) : LowerBound a b ys := by
  intro ha k hk1 hk2
  rw [h.frame (a - 1) (by omega)]
  exact h.le_of_le _ (hl ha) k hk1 hk2

theorem scanOrdered_spec (xs : List User) (b : Nat) (hb : b ≤ xs.length) :
    ∀ (fuel i : Nat), 1 ≤ i → i ≤ b → b - i ≤ fuel →
      i ≤ scanOrdered xs b fuel i ∧ scanOrdered xs b fuel i ≤ b ∧
      (∀ k, i ≤ k → k < scanOrdered xs b fuel i → (nth xs (k - 1)).Name ≤ (nth xs k).Name) ∧
      (scanOrdered xs b fuel i < b →
        (nth xs (scanOrdered xs b fuel i)).Name <
          (nth xs (scanOrdered xs b fuel i - 1)).Name) := by
  intro fuel
  induction fuel with
  | zero =>
    intro i _ hi hf
    have : i = b := by omega
    subst this
    exact ⟨le_refl _, le_refl _, fun k h1 h2 => absurd h2 (by simp [scanOrdered]; omega),
      fun h => absurd h (by simp [scanOrdered])⟩
  | succ fuel ih =>
    intro i hi1 hi hf
    unfold scanOrdered
    by_cases hc : i < b ∧ lessAt xs i (i - 1) = false
    · rw [if_pos hc]
      obtain ⟨h1, h2, h3, h4⟩ := ih (i + 1) (by omega) (by omega) (by omega)
      refine ⟨by omega, h2, ?_, h4⟩
      intro k hk1 hk2
      by_cases hki : k = i
      · subst hki
        exact (lessAt_false_iff (by omega) (by omega)).mp hc.2
      · exact h3 k (by omega) hk2
    · rw [if_neg hc]
      refine ⟨le_refl _, hi, fun k h1 h2 => by omega, ?_⟩
      intro hib
      apply (lessAt_true_iff (by omega) (by omega)).mp
      by_contra hcon
      exact hc ⟨hib, by simpa using hcon⟩

theorem sortedOn_extend (xs : List User) (a i m : Nat) (hai : a < i)
    (hs : SortedOn a i xs)
    (hadj : ∀ k, i ≤ k → k < m → (nth xs (k - 1)).Name ≤ (nth xs k).Name) :
    SortedOn a m xs := by
  intro p q
  induction q using Nat.strong_induction_on with
  | _ q ih =>
    intro hp hpq hq
    by_cases hqi : q < i
    · exact hs p q hp hpq hqi
    · have h1 := hadj q (by omega) hq
      by_cases hpq1 : p = q - 1
      · rw [hpq1]
        exact h1
      · exact le_trans (ih (q - 1) (by omega) hp (by omega) (by omega)) h1

theorem shiftLeft_eq (j : Nat) : ∀ xs : List User, shiftLeft j xs = insertionInner 0 j xs := by
  induction j with
  | zero => intro xs; rfl
  | succ j ih =>
    intro xs
    unfold shiftLeft insertionInner
    by_cases h : lessAt xs (j + 1) j = false
    · rw [if_pos h, if_neg (by simp [h])]
    · rw [if_neg h, if_pos ⟨by omega, by simpa using h⟩, ih]

theorem shiftRight_spec (b : Nat) :
    ∀ (fuel j : Nat) (xs : List User), 1 ≤ j → b ≤ xs.length →
      Shuffle (j - 1) b xs (shiftRight b fuel j xs) := by
  intro fuel
  induction fuel with
  | zero => intro j xs _ _; exact Shuffle.refl _ _ _
  | succ fuel ih =>
    intro j xs hj hb
    unfold shiftRight
    split
    · rename_i hjb
      split
      · exact Shuffle.refl _ _ _
      · have h1 := ih (j + 1) (swapAt xs j (j - 1)) (by omega)
          (by rw [length_swapAt]; exact hb)
        exact (Shuffle.swap xs hb (by omega) hjb (le_refl _) (by omega)).trans
          (h1.mono (by omega) (le_refl _))
    · exact Shuffle.refl _ _ _

theorem insertionSortPartLoop_spec (a b : Nat) :
    ∀ (steps i : Nat) (xs : List User), a < i → i ≤ b → b ≤ xs.length →
      SortedOn a i xs → LowerBound a b xs →
      Shuffle a b xs (insertionSortPartLoop a b steps i xs).1 ∧
      ((insertionSortPartLoop a b steps i xs).2 = true →
        SortedOn a b (insertionSortPartLoop a b steps i xs).1) := by
  intro steps
  induction steps with
  | zero =>
    intro i xs _ _ _ _ _
    exact ⟨Shuffle.refl _ _ _, fun h => by simp [insertionSortPartLoop] at h⟩
  | succ steps ih =>
    intro i xs hai hib hb hs hl
    obtain ⟨s1, s2, s3, s4⟩ := scanOrdered_spec xs b hb (b - i) i (by omega) hib (le_refl _)
    generalize hi2 : scanOrdered xs b (b - i) i = i2 at s1 s2 s3 s4
    have hs2 : SortedOn a i2 xs := sortedOn_extend xs a i i2 hai hs s3
    rw [insertionSortPartLoop]
    simp only [hi2]
    by_cases hend : i2 = b
    · rw [if_pos hend]
      exact ⟨Shuffle.refl _ _ _, fun _ => hend ▸ hs2⟩
    · rw [if_neg hend]
      by_cases hshort : b - a < 50
      · rw [if_pos hshort]
        exact ⟨Shuffle.refl _ _ _, fun h => by simp at h⟩
      · rw [if_neg hshort]
        have hi2b : i2 < b := by omega
        have h1 : Shuffle a b xs (swapAt xs i2 (i2 - 1)) :=
          Shuffle.swap xs hb (by omega) hi2b (by omega) (by omega)
        have hsw : ∀ k, nth (swapAt xs i2 (i2 - 1)) k =
            if k = i2 - 1 then nth xs i2 else if k = i2 then nth xs (i2 - 1) else nth xs k :=
          fun k => nth_swapAt (by omega) (by omega) k
        generalize hxs1 : swapAt xs i2 (i2 - 1) = xs1 at h1 hsw
        have hl1 : LowerBound a b xs1 := h1.lowerBound hl
        have h2 : Shuffle a i2 xs1 (if i2 - a ≥ 2 then shiftLeft (i2 - 1) xs1 else xs1) ∧
            SortedOn a i2 (if i2 - a ≥ 2 then shiftLeft (i2 - 1) xs1 else xs1) := by
          by_cases hc : i2 - a ≥ 2
          · rw [if_pos hc, shiftLeft_eq]
            have := insertionInner_spec 0 (i2 - 1) xs1 a (i2 - 1) (Nat.zero_le _) (by omega)
              (le_refl _) (by rw [h1.len]; omega)
              (fun ha => hl1 ha (i2 - 1) (by omega) (by omega))
              (by
                intro p q hp hpq hq _ hqj
                rw [hsw p, hsw q, if_neg (by omega), if_neg (by omega), if_neg (by omega),
                  if_neg (by omega)]
                exact hs2 p q hp hpq (by omega))
              (fun q hq1 hq2 => by omega)
            have he : i2 - 1 + 1 = i2 := by omega
            rw [he] at this
            exact this
          · rw [if_neg hc]
            exact ⟨Shuffle.refl _ _ _, fun p q hp hpq hq => by omega⟩
        generalize hxs2 : (if i2 - a ≥ 2 then shiftLeft (i2 - 1) xs1 else xs1) = xs2 at h2
        have hlen2 : xs2.length = xs.length := by rw [h2.1.len, h1.len]
        have h3 : Shuffle i2 b xs2
            (if b - i2 ≥ 2 then shiftRight b (b - i2) (i2 + 1) xs2 else xs2) := by
          by_cases hc : b - i2 ≥ 2
          · rw [if_pos hc]
            have := shiftRight_spec b (b - i2) (i2 + 1) xs2 (by omega) (by rw [hlen2]; exact hb)
            simpa using this
          · rw [if_neg hc]
            exact Shuffle.refl _ _ _
        generalize hxs3 : (if b - i2 ≥ 2 then shiftRight b (b - i2) (i2 + 1) xs2 else xs2) = xs3
          at h3
        have hall : Shuffle a b xs xs3 :=
          (h1.trans (h2.1.mono (le_refl _) (by omega))).trans (h3.mono (by omega) (le_refl _))
        have hs3 : SortedOn a i2 xs3 := by
          intro p q hp hpq hq
          rw [h3.frame p (by omega), h3.frame q (by omega)]
          exact h2.2 p q hp hpq hq
        obtain ⟨r1, r2⟩ := ih i2 xs3 (by omega) (by omega) (by rw [hall.len]; exact hb) hs3
          (hall.lowerBound hl)
        exact ⟨hall.trans r1, r2⟩

/-- `partialInsertionSort_func(data, a, b)` moves records inside `[a, b)` only, and
when it answers `true` the range is in order. -/
theorem insertionSortPartFunc_spec (xs : List User) (a b : Nat) (hab : a < b)
    (hb : b ≤ xs.length) (hl : LowerBound a b xs) :
    Shuffle a b xs (insertionSortPartFunc xs a b).1 ∧
    ((insertionSortPartFunc xs a b).2 = true →
      SortedOn a b (insertionSortPartFunc xs a b).1) :=
  insertionSortPartLoop_spec a b 5 (a + 1) xs (by omega) (by omega) hb
    (fun p q h1 h2 h3 => by omega) hl

theorem order2_mem (xs : List User) (a b s : Nat) :
    ((order2 xs a b s).1 = a ∧ (order2 xs a b s).2.1 = b) ∨
      ((order2 xs a b s).1 = b ∧ (order2 xs a b s).2.1 = a) := by
  unfold order2
  split
  · exact Or.inr ⟨rfl, rfl⟩
  · exact Or.inl ⟨rfl, rfl⟩

theorem medianFunc_mem (xs : List User) (a b c s : Nat) :
    (medianFunc xs a b c s).1 = a ∨ (medianFunc xs a b c s).1 = b ∨
      (medianFunc xs a b c s).1 = c := by
  unfold medianFunc
  simp only []
  have m1 := order2_mem xs a b s
  generalize order2 xs a b s = r1 at m1
  have m2 := order2_mem xs r1.2.1 c r1.2.2
  generalize order2 xs r1.2.1 c r1.2.2 = r2 at m2
  have m3 := order2_mem xs r1.1 r2.1 r2.2.2
  generalize order2 xs r1.1 r2.1 r2.2.2 = r3 at m3
  rcases m1 with ⟨h1, h2⟩ | ⟨h1, h2⟩ <;> rcases m2 with ⟨h3, h4⟩ | ⟨h3, h4⟩ <;>
    rcases m3 with ⟨h5, h6⟩ | ⟨h5, h6⟩ <;> simp_all

theorem medianFunc_bounds (xs : List User) (a b c s lo hi : Nat) (ha : lo ≤ a ∧ a < hi)
    (hb : lo ≤ b ∧ b < hi) (hc : lo ≤ c ∧ c < hi) :
    lo ≤ (medianFunc xs a b c s).1 ∧ (medianFunc xs a b c s).1 < hi := by
  rcases medianFunc_mem xs a b c s with h | h | h <;> rw [h] <;> assumption

/-- The pivot `choosePivot_func` picks lies in `[a, b)`. -/
theorem choosePivotFunc_bounds (xs : List User) (a b : Nat) (hab : a < b) :
    a ≤ (choosePivotFunc xs a b).1 ∧ (choosePivotFunc xs a b).1 < b := by
  have hfst : ∀ (r : Nat × Nat),
      (if r.2 = 0 then (r.1, SortedHint.increasingHint)
        else if r.2 = 12 then (r.1, SortedHint.decreasingHint)
        else (r.1, SortedHint.unknownHint)).1 = r.1 := by
    intro r
    split
    · rfl
    · split <;> rfl
  unfold choosePivotFunc
  simp only []
  rw [hfst]
  have h4 : (b - a) / 4 * 4 ≤ b - a := Nat.div_mul_le_self _ _
  by_cases h8 : b - a ≥ 8
  · rw [if_pos h8]
    by_cases h50 : b - a ≥ 50
    · rw [if_pos h50]
      unfold medianAdjacent
      apply medianFunc_bounds
      · apply medianFunc_bounds <;> omega
      · apply medianFunc_bounds <;> omega
      · apply medianFunc_bounds <;> omega
    · rw [if_neg h50]
      apply medianFunc_bounds <;> omega
  · rw [if_neg h8]
    show a ≤ a + (b - a) / 4 * 2 ∧ a + (b - a) / 4 * 2 < b
    omega

theorem reverseRange_spec :
    ∀ (fuel i j : Nat) (xs : List User), j < xs.length →
      Shuffle i (j + 1) xs (reverseRange fuel i j xs) := by
  intro fuel
  induction fuel with
  | zero => intro i j xs _; exact Shuffle.refl _ _ _
  | succ fuel ih =>
    intro i j xs hj
    unfold reverseRange
    split
    · rename_i hij
      have h1 := ih (i + 1) (j - 1) (swapAt xs i j) (by rw [length_swapAt]; omega)
      exact (Shuffle.swap xs (by omega) (le_refl _) (by omega) (by omega) (by omega)).trans
        (h1.mono (by omega) (by omega))
    · exact Shuffle.refl _ _ _

theorem reverseRangeFunc_spec (xs : List User) (a b : Nat) (hab : a < b)
    (hb : b ≤ xs.length) : Shuffle a b xs (reverseRangeFunc xs a b) := by
  have := reverseRange_spec (b - a) a (b - 1) xs (by omega)
  have he : b - 1 + 1 = b := by omega
  rw [he] at this
  exact this

theorem two_pow_bitsLen_le :
    ∀ (fuel n : Nat), n ≤ fuel → 0 < n → 2 ^ bitsLen fuel n ≤ 2 * n := by
  intro fuel
  induction fuel with
  | zero => intro n h1 h2; omega
  | succ fuel ih =>
    intro n h1 h2
    unfold bitsLen
    rw [if_neg (by omega), pow_succ]
    by_cases h : n / 2 = 0
    · have : bitsLen fuel (n / 2) = 0 := by
        rw [h]
        cases fuel <;> simp [bitsLen]
      rw [this]
      omega
    · have := ih (n / 2) (by omega) (by omega)
      omega

theorem breakPatternsLoop_spec (next : Nat → Nat) (a b length n : Nat) (hlen : b = a + length)
    (h8 : 8 ≤ length) (hn : 2 ^ n ≤ 2 * length) :
    ∀ (steps i random : Nat) (xs : List User), i + steps ≤ 3 → b ≤ xs.length →
      Shuffle a b xs
        (breakPatternsLoop next a length (2 ^ n) (a + (length / 4) * 2 - 1) steps i random xs) := by
  intro steps
  induction steps with
  | zero => intro i random xs _ _; exact Shuffle.refl _ _ _
  | succ steps ih =>
    intro i random xs hi hb
    unfold breakPatternsLoop
    simp only []
    have hmod : next random &&& (2 ^ n - 1) < 2 ^ n := by
      rw [Nat.and_pow_two_sub_one_eq_mod]
      exact Nat.mod_lt _ (by positivity)
    generalize next random &&& (2 ^ n - 1) = other at hmod
    have hother : (if other ≥ length then other - length else other) < length := by
      split <;> omega
    generalize (if other ≥ length then other - length else other) = other2 at hother
    have h4 : length / 4 * 4 ≤ length := Nat.div_mul_le_self _ _
    have h42 : 2 ≤ length / 4 := by omega
    have h1 := ih (i + 1) (next random)
      (swapAt xs (a + (length / 4) * 2 - 1 - 1 + i) (a + other2)) (by omega)
      (by rw [length_swapAt]; exact hb)
    exact (Shuffle.swap xs hb (by omega) (by omega) (by omega) (by omega)).trans h1

theorem breakPatternsFunc_spec (next : Nat → Nat) (xs : List User) (a b : Nat) (hab : a ≤ b)
    (hb : b ≤ xs.length) : Shuffle a b xs (breakPatternsFunc next xs a b) := by
  unfold breakPatternsFunc
  simp only []
  split
  · rename_i h8
    exact breakPatternsLoop_spec next a b (b - a) _ (by omega) h8
      (two_pow_bitsLen_le _ _ (le_refl _) (by omega)) 3 0 (b - a) xs (by omega) hb
  · exact Shuffle.refl _ _ _

/-- The loop body of `pdqsort_func` up to the partitioning moves records inside
`[a, b)` only, yields a pivot index of the range, and reports the range sorted only
when it is. -/
theorem pdqPrepare_spec (next : Nat → Nat) (xs : List User) (a b : Nat) (wb wp : Bool)
    (hab : a < b) (hb : b ≤ xs.length) (hl : LowerBound a b xs) :
    Shuffle a b xs (pdqPrepare next xs a b wb wp).1 ∧
    a ≤ (pdqPrepare next xs a b wb wp).2.1 ∧ (pdqPrepare next xs a b wb wp).2.1 < b ∧
    ((pdqPrepare next xs a b wb wp).2.2 = true →
      SortedOn a b (pdqPrepare next xs a b wb wp).1) := by
  unfold pdqPrepare
  simp only []
  have h1 : Shuffle a b xs (if wb = false then breakPatternsFunc next xs a b else xs) := by
    split
    · exact breakPatternsFunc_spec next xs a b (by omega) hb
    · exact Shuffle.refl _ _ _
  generalize (if wb = false then breakPatternsFunc next xs a b else xs) = xs1 at h1
  have hb1 : b ≤ xs1.length := by rw [h1.len]; exact hb
  obtain ⟨hp1, hp2⟩ := choosePivotFunc_bounds xs1 a b hab
  generalize choosePivotFunc xs1 a b = ph at hp1 hp2
  have h2 : Shuffle a b xs1 (if ph.2 = .decreasingHint then reverseRangeFunc xs1 a b else xs1) := by
    split
    · exact reverseRangeFunc_spec xs1 a b hab hb1
    · exact Shuffle.refl _ _ _
  generalize (if ph.2 = .decreasingHint then reverseRangeFunc xs1 a b else xs1) = xs2 at h2
  have hb2 : b ≤ xs2.length := by rw [h2.len]; exact hb1
  have hpiv : a ≤ (if ph.2 = .decreasingHint then (b - 1) - (ph.1 - a) else ph.1) ∧
      (if ph.2 = .decreasingHint then (b - 1) - (ph.1 - a) else ph.1) < b := by
    split <;> omega
  generalize (if ph.2 = .decreasingHint then (b - 1) - (ph.1 - a) else ph.1) = pivot at hpiv
  have h12 := h1.trans h2
  generalize (if ph.2 = .decreasingHint then SortedHint.increasingHint else ph.2) = hint
  by_cases hc : wb = true ∧ wp = true ∧ hint = .increasingHint
  · rw [if_pos hc]
    obtain ⟨r1, r2⟩ := insertionSortPartFunc_spec xs2 a b hab hb2 (h12.lowerBound hl)
    exact ⟨h12.trans r1, hpiv.1, hpiv.2, r2⟩
  · rw [if_neg hc]
    exact ⟨h12, hpiv.1, hpiv.2, fun h => by simp at h⟩

theorem sortedOn_join (zs : List User) (a mid b : Nat) (h1 : SortedOn a mid zs)
    (h2 : SortedOn (mid + 1) b zs)
    (hlo : ∀ k, a ≤ k → k < mid → (nth zs k).Name ≤ (nth zs mid).Name)
    (hhi : ∀ k, mid < k → k < b → (nth zs mid).Name ≤ (nth zs k).Name) :
    SortedOn a b zs := by
  intro i j hi hij hj
  by_cases hjm : j < mid
  · exact h1 i j hi hij hjm
  · by_cases him : mid < i
    · exact h2 i j (by omega) hij hj
    · by_cases hie : i = mid
      · rw [hie]
        exact hhi j (by omega) hj
      · by_cases hje : j = mid
        · rw [hje]
          exact hlo i hi (by omega)
        · exact le_trans (hlo i hi (by omega)) (hhi j (by omega) hj)

theorem SortedOn.of_frame {a b : Nat} {xs ys : List User} (h : SortedOn a b xs)
    (hf : ∀ k, a ≤ k → k < b → nth ys k = nth xs k) : SortedOn a b ys := by
  intro i j hi hij hj
  rw [hf i hi (by omega), hf j (by omega) hj]
  exact h i j hi hij hj

/-- `pdqsort_func(data, a, b, limit)` with enough fuel for the range: it moves records
inside `[a, b)` only and leaves that range in order, whatever the limit, the two
flags and the generator of `breakPatterns`. -/
theorem pdqsortFunc_spec (next : Nat → Nat) :
    ∀ (fuel : Nat) (xs : List User) (a b limit : Nat) (wb wp : Bool), a ≤ b →
      b ≤ xs.length → b - a < fuel → LowerBound a b xs →
      Shuffle a b xs (pdqsortFunc next fuel xs a b limit wb wp) ∧
      SortedOn a b (pdqsortFunc next fuel xs a b limit wb wp) := by
  intro fuel
  induction fuel with
  | zero =>
    intro xs a b limit wb wp _ _ hf _
    omega
  | succ fuel ih =>
    intro xs a b limit wb wp hab hb hf hl
    rw [pdqsortFunc]
    by_cases hsmall : b - a ≤ 12
    · rw [if_pos hsmall]
      exact insertionSortFunc_spec xs a b hab hb
    · rw [if_neg hsmall]
      by_cases hlim : limit = 0
      · rw [if_pos hlim]
        exact heapSortFunc_spec xs a b hab hb
      · rw [if_neg hlim]
        simp only []
        generalize (if wb = false then limit - 1 else limit) = limit1
        obtain ⟨p1, p2, p3, p4⟩ := pdqPrepare_spec next xs a b wb wp (by omega) hb hl
        generalize pdqPrepare next xs a b wb wp = pp at p1 p2 p3 p4
        obtain ⟨ys, pivot, done⟩ := pp
        simp only at p1 p2 p3 p4 ⊢
        have hby : b ≤ ys.length := by rw [p1.len]; exact hb
        have hly : LowerBound a b ys := p1.lowerBound hl
        by_cases hdone : done = true
        · rw [if_pos hdone]
          exact ⟨p1, p4 hdone⟩
        · rw [if_neg hdone]
          by_cases heq : a > 0 ∧ lessAt ys (a - 1) pivot = false
          · rw [if_pos heq]
            have hpl : (nth ys pivot).Name ≤ (nth ys (a - 1)).Name :=
              (lessAt_false_iff (by omega) (by omega)).mp heq.2
            obtain ⟨e1, e2, e3, e4, e5⟩ := partitionEqualFunc_spec ys a b pivot p2 p3 hby
            generalize partitionEqualFunc ys a b pivot = pe at e1 e2 e3 e4 e5
            obtain ⟨zs, mid⟩ := pe
            simp only at e1 e2 e3 e4 e5 ⊢
            have hlz : LowerBound a b zs := e1.lowerBound hly
            have hza : nth zs (a - 1) = nth ys (a - 1) := e1.frame (a - 1) (by omega)
            obtain ⟨r1, r2⟩ := ih zs mid b limit1 wb wp e3 (by rw [e1.len]; exact hby)
              (by omega)
              (fun _ k hk1 hk2 => le_trans (e4 (mid - 1) (by omega) (by omega))
                (le_of_lt (e5 k hk1 hk2)))
            generalize pdqsortFunc next fuel zs mid b limit1 wb wp = res at r1 r2
            refine ⟨(p1.trans e1).trans (r1.mono (by omega) (le_refl _)), ?_⟩
            intro i j hi hij hj
            by_cases hjm : j < mid
            · rw [r1.frame i (by omega), r1.frame j (by omega)]
              have h1 := e4 i hi (by omega)
              have h2 := hlz heq.1 j (by omega) hj
              rw [hza] at h2
              exact le_trans h1 (le_trans hpl h2)
            · have hgt := r1.gt_of_gt (nth ys pivot).Name e5 j (by omega) hj
              by_cases him : i < mid
              · rw [r1.frame i (by omega)]
                exact le_trans (e4 i hi him) (le_of_lt hgt)
              · exact r2 i j (by omega) hij hj
          · rw [if_neg heq]
            obtain ⟨q1, q2, q3, q4, q5⟩ := partitionFunc_spec ys a b pivot p2 p3 hby
            generalize partitionFunc ys a b pivot = pr at q1 q2 q3 q4 q5
            obtain ⟨zs, mid, already⟩ := pr
            simp only at q1 q2 q3 q4 q5 ⊢
            have hbz : b ≤ zs.length := by rw [q1.len]; exact hby
            have hlz : LowerBound a b zs := q1.lowerBound hly
            by_cases hside : mid - a < b - mid
            · rw [if_pos hside]
              obtain ⟨r1, r2⟩ := ih zs a mid limit1 true true q2 (by omega) (by omega)
                (fun h k hk1 hk2 => hlz h k hk1 (by omega))
              generalize pdqsortFunc next fuel zs a mid limit1 true true = res1 at r1 r2
              have hm1 : nth res1 mid = nth zs mid := r1.frame mid (by omega)
              have hhi1 : ∀ k, mid + 1 ≤ k → k < b →
                  (nth zs mid).Name ≤ (nth res1 k).Name := by
                intro k hk1 hk2
                rw [r1.frame k (by omega)]
                exact q5 k (by omega) hk2
              obtain ⟨s1, s2⟩ := ih res1 (mid + 1) b limit1
                (decide (mid - a ≥ (b - a) / 8)) already (by omega)
                (by rw [r1.len]; exact hbz) (by omega)
                (fun _ k hk1 hk2 => by
                  simp only [Nat.add_sub_cancel]
                  rw [hm1]
                  exact hhi1 k hk1 hk2)
              generalize pdqsortFunc next fuel res1 (mid + 1) b limit1
                (decide (mid - a ≥ (b - a) / 8)) already = res2 at s1 s2
              have hm2 : nth res2 mid = nth zs mid := by
                rw [s1.frame mid (by omega), hm1]
              refine ⟨((p1.trans q1).trans (r1.mono (le_refl _) (by omega))).trans
                (s1.mono (by omega) (le_refl _)), ?_⟩
              apply sortedOn_join res2 a mid b
              · exact r2.of_frame (fun k hk1 hk2 => s1.frame k (by omega))
              · exact s2
              · intro k hk1 hk2
                rw [hm2, s1.frame k (by omega)]
                exact le_of_lt (r1.lt_of_lt (nth zs mid).Name q4 k hk1 hk2)
              · intro k hk1 hk2
                rw [hm2]
                exact s1.le_of_le (nth zs mid).Name hhi1 k (by omega) hk2
            · rw [if_neg hside]
              obtain ⟨r1, r2⟩ := ih zs (mid + 1) b limit1 true true (by omega) hbz (by omega)
                (fun _ k hk1 hk2 => by
                  simp only [Nat.add_sub_cancel]
                  exact q5 k (by omega) hk2)
              generalize pdqsortFunc next fuel zs (mid + 1) b limit1 true true = res1 at r1 r2
              have hm1 : nth res1 mid = nth zs mid := r1.frame mid (by omega)
              have hlo1 : ∀ k, a ≤ k → k < mid → (nth res1 k).Name < (nth zs mid).Name := by
                intro k hk1 hk2
                rw [r1.frame k (by omega)]
                exact q4 k hk1 hk2
              obtain ⟨s1, s2⟩ := ih res1 a mid limit1 (decide (b - mid ≥ (b - a) / 8)) already
                q2 (by rw [r1.len]; omega) (by omega)
                (fun h k hk1 hk2 => by
                  rw [r1.frame (a - 1) (by omega), r1.frame k (by omega)]
                  exact hlz h k hk1 (by omega))
              generalize pdqsortFunc next fuel res1 a mid limit1
                (decide (b - mid ≥ (b - a) / 8)) already = res2 at s1 s2
              have hm2 : nth res2 mid = nth zs mid := by
                rw [s1.frame mid (by omega), hm1]
              refine ⟨((p1.trans q1).trans (r1.mono (by omega) (le_refl _))).trans
                (s1.mono (le_refl _) (by omega)), ?_⟩
              apply sortedOn_join res2 a mid b
              · exact s2
              · exact r2.of_frame (fun k hk1 hk2 => s1.frame k (by omega))
              · intro k hk1 hk2
                rw [hm2]
                exact le_of_lt (s1.lt_of_lt (nth zs mid).Name hlo1 k hk1 hk2)
              · intro k hk1 hk2
                rw [hm2, s1.frame k (by omega)]
                exact r1.le_of_le (nth zs mid).Name
                  (fun m hm1' hm2' => q5 m (by omega) hm2') k (by omega) hk2

theorem sortedOn_pairwise (xs : List User) (h : SortedOn 0 xs.length xs) :
    xs.Pairwise (fun a b => a.Name ≤ b.Name) := by
  rw [List.pairwise_iff_getElem]
  intro i j hi hj hij
  have := h i j (Nat.zero_le _) hij hj
  simpa [nth, List.getElem?_eq_getElem hi, List.getElem?_eq_getElem hj] using this

/-- `sort.Slice` with the name comparison returns a permutation of its input that is
ascending by name. -/
theorem sortSlice_sorted (next : Nat → Nat) (xs : List User) :
    (sortSlice next xs).Perm xs ∧
      (sortSlice next xs).Pairwise (fun a b => a.Name ≤ b.Name) := by
  obtain ⟨h1, h2⟩ := pdqsortFunc_spec next (xs.length + 1) xs 0 xs.length
    (bitsLen xs.length xs.length) true true (Nat.zero_le _) (le_refl _) (by omega)
    (fun h => absurd h (lt_irrefl _))
  refine ⟨h1.perm, ?_⟩
  apply sortedOn_pairwise
  rw [show (sortSlice next xs).length = xs.length from h1.len]
  exact h2

/-- With fuel for the whole range, one more unit of fuel does not change what the
loop of `reverseRange_func` returns: the loop has ended by itself. -/
theorem reverseRange_fuel :
    ∀ (fuel i j : Nat) (xs : List User), j + 1 - i ≤ fuel →
      reverseRange (fuel + 1) i j xs = reverseRange fuel i j xs := by
  intro fuel
  induction fuel with
  | zero =>
    intro i j xs h
    show (if i < j then _ else xs) = xs
    rw [if_neg (by omega)]
  | succ fuel ih =>
    intro i j xs h
    show (if i < j then reverseRange (fuel + 1) (i + 1) (j - 1) (swapAt xs i j) else xs) =
      (if i < j then reverseRange fuel (i + 1) (j - 1) (swapAt xs i j) else xs)
    by_cases hij : i < j
    · rw [if_pos hij, if_pos hij, ih (i + 1) (j - 1) _ (by omega)]
    · rw [if_neg hij, if_neg hij]

/-- With fuel up to the end of the range, one more unit of fuel does not change what
the shift to the right returns. -/
theorem shiftRight_fuel (b : Nat) :
    ∀ (fuel j : Nat) (xs : List User), b - j ≤ fuel →
      shiftRight b (fuel + 1) j xs = shiftRight b fuel j xs := by
  intro fuel
  induction fuel with
  | zero =>
    intro j xs h
    show (if j < b then _ else xs) = xs
    rw [if_neg (by omega)]
  | succ fuel ih =>
    intro j xs h
    show (if j < b then
        if lessAt xs j (j - 1) = false then xs
        else shiftRight b (fuel + 1) (j + 1) (swapAt xs j (j - 1))
      else xs) =
      (if j < b then
        if lessAt xs j (j - 1) = false then xs
        else shiftRight b fuel (j + 1) (swapAt xs j (j - 1))
      else xs)
    by_cases hjb : j < b
    · rw [if_pos hjb, if_pos hjb, ih (j + 1) _ (by omega)]
    · rw [if_neg hjb, if_neg hjb]

/-- With fuel `n` the bit length of `n` is complete: more fuel does not change it. -/
theorem bitsLen_fuel : ∀ (fuel n : Nat), n ≤ fuel → bitsLen (fuel + 1) n = bitsLen fuel n := by
  intro fuel
  induction fuel with
  | zero =>
    intro n h
    have : n = 0 := by omega
    subst this
    rfl
  | succ fuel ih =>
    intro n h
    show (if n = 0 then 0 else bitsLen (fuel + 1) (n / 2) + 1) =
      (if n = 0 then 0 else bitsLen fuel (n / 2) + 1)
    by_cases h0 : n = 0
    · rw [if_pos h0, if_pos h0]
    · rw [if_neg h0, if_neg h0, ih (n / 2) (by omega)]

/-- On thirteen records named `b`, `a`, `b`, `a`, ... `sort.Slice` goes through
`choosePivot_func` and `partition_func` and leaves the six records named `a` in the
order of ids 9, 1, 3, 5, 7, 11: equal names do not keep their order. -/
theorem sortSlice_thirteen :
    (sortSlice xorshiftNext [⟨"id-0", "b", 0⟩, ⟨"id-1", "a", 0⟩, ⟨"id-2", "b", 0⟩,
      ⟨"id-3", "a", 0⟩, ⟨"id-4", "b", 0⟩, ⟨"id-5", "a", 0⟩, ⟨"id-6", "b", 0⟩,
      ⟨"id-7", "a", 0⟩, ⟨"id-8", "b", 0⟩, ⟨"id-9", "a", 0⟩, ⟨"id-10", "b", 0⟩,
      ⟨"id-11", "a", 0⟩, ⟨"id-12", "b", 0⟩]).map User.ID =
    ["id-9", "id-1", "id-3", "id-5", "id-7", "id-11", "id-2", "id-4", "id-6", "id-8",
      "id-0", "id-10", "id-12"] := by
  decide

/-! ## Claims on the record operations -/

/-- C4: on a non-empty collection holding the selected name, with a new age string
accepted by `validateAge` (and any new name), `editUser` leaves a collection of the
same length in which the record at index `i`, the first index whose name equals the
selected name, keeps its id and has the new name and the new age, and every record at
another index is unchanged. -/
theorem editUser_frame (users : List User) (fs : FileSys) (sel newName newAgeStr : String)
    (hsel : ∃ u ∈ users, u.Name = sel) (hage : validateAge newAgeStr = none) :
    ∃ (i : Nat) (old : User) (newAge : Int),
      users[i]? = some old ∧ old.Name = sel ∧
      (∀ j u, j < i → users[j]? = some u → u.Name ≠ sel) ∧
      integerValue newAgeStr = some newAge ∧
      (editUser users fs (.ok sel) (.ok newName) (.ok newAgeStr)).users.length = users.length ∧
      (editUser users fs (.ok sel) (.ok newName) (.ok newAgeStr)).users[i]? =
        some ⟨old.ID, newName, newAge⟩ ∧
      ∀ j, j ≠ i →
        (editUser users fs (.ok sel) (.ok newName) (.ok newAgeStr)).users[j]? = users[j]? := by
  obtain ⟨age, hi, -, -, hat⟩ := validateAge_atoi hage
  obtain ⟨-, hlt, ⟨u, hu, hun⟩, hfirst⟩ := findUserIndex_first sel users 0 hsel
  simp only [Nat.sub_zero] at hlt hu hfirst
  have hne : users ≠ [] := by
    intro h0
    rw [h0] at hlt
    simp at hlt
  obtain ⟨u2, hu2, hres⟩ := editUser_users users fs sel newName newAgeStr age hne hat
  rw [hu] at hu2
  cases hu2
  refine ⟨findUserIndex sel users 0, u, age, hu, hun, hfirst, hi, ?_, ?_, ?_⟩
  · rw [hres, List.length_set]
  · rw [hres]
    simp [List.getElem?_set, hlt]
  · intro j hj
    rw [hres, List.getElem?_set_ne (Ne.symm hj)]

/-- C4 witness: editing `Zoe` in a two-record collection keeps two records. -/
theorem editUser_frame_witness :
    (editUser [⟨"id-a", "Alice", 30⟩, ⟨"id-z", "Zoe", 20⟩] ⟨fun _ => none, fun _ => true⟩
      (.ok "Zoe") (.ok "Zed") (.ok "21")).users.length = 2 := by
  obtain ⟨i, old, newAge, -, -, -, -, hlen, -⟩ :=
    editUser_frame [⟨"id-a", "Alice", 30⟩, ⟨"id-z", "Zoe", 20⟩] ⟨fun _ => none, fun _ => true⟩
      "Zoe" "Zed" "21" ⟨⟨"id-z", "Zoe", 20⟩, by decide, rfl⟩ (by decide)
  exact hlen

/-- C5: on a collection holding the selected name, with `i` the first index whose name
equals the selected name: when the confirmation lower-cased is `"yes"`, `deleteUser`
leaves the records before `i` followed by the records after `i`, one record fewer, so
a one-record collection becomes empty, and a store file that can be created then
holds the encoding of the shortened collection; when the confirmation is anything
else the collection is unchanged. -/
theorem deleteUser_collection (t : Char → Char) (users : List User) (fs : FileSys)
    (sel c : String) (hsel : ∃ u ∈ users, u.Name = sel) :
    ∃ (i : Nat) (old : User),
      users[i]? = some old ∧ old.Name = sel ∧
      (∀ j u, j < i → users[j]? = some u → u.Name ≠ sel) ∧
      (toLower t c = "yes" →
        (deleteUser t users fs (.ok sel) (.ok c)).users = users.take i ++ users.drop (i + 1) ∧
        (deleteUser t users fs (.ok sel) (.ok c)).users = users.eraseIdx i ∧
        (deleteUser t users fs (.ok sel) (.ok c)).users.length + 1 = users.length ∧
        (users.length = 1 → (deleteUser t users fs (.ok sel) (.ok c)).users = []) ∧
        (fs.creatable storePath = true →
          (deleteUser t users fs (.ok sel) (.ok c)).fs.content storePath =
            some (encodeUsers (users.take i ++ users.drop (i + 1))))) ∧
      (toLower t c ≠ "yes" → (deleteUser t users fs (.ok sel) (.ok c)).users = users) := by
  obtain ⟨-, hlt, ⟨u, hu, hun⟩, hfirst⟩ := findUserIndex_first sel users 0 hsel
  simp only [Nat.sub_zero] at hlt hu hfirst
  have hlen : ¬ users.length = 0 := by omega
  refine ⟨findUserIndex sel users 0, u, hu, hun, hfirst, ?_, ?_⟩
  · intro hyes
    have hres : (deleteUser t users fs (.ok sel) (.ok c)).users =
        users.take (findUserIndex sel users 0) ++ users.drop (findUserIndex sel users 0 + 1) := by
      rcases deleteUser_users t users fs (.ok sel) (.ok c) with h | ⟨sel2, c2, h1, h2, -, -, h⟩
      · exfalso
        unfold deleteUser at h
        rw [if_neg hlen] at h
        simp only [] at h
        rw [if_neg (by simpa using hyes)] at h
        have hl : (users.take (findUserIndex sel users 0) ++
            users.drop (findUserIndex sel users 0 + 1)).length = users.length := by
          rcases saveUsersToFile_cases fs storePath
              (users.take (findUserIndex sel users 0) ++
                users.drop (findUserIndex sel users 0 + 1))
            with ⟨fs2, h3⟩ | ⟨fs2, e, h3⟩
          · rw [h3] at h
            simp only [] at h
            split at h <;> exact congrArg List.length h
          · rw [h3] at h
            exact congrArg List.length h
        simp only [List.length_append, List.length_take, List.length_drop] at hl
        omega
      · cases h1
        cases h2
        exact h
    have hlen2 : (users.take (findUserIndex sel users 0) ++
        users.drop (findUserIndex sel users 0 + 1)).length + 1 = users.length := by
      simp only [List.length_append, List.length_take, List.length_drop]
      omega
    refine ⟨hres, ?_, ?_, ?_, ?_⟩
    · rw [hres, List.eraseIdx_eq_take_drop_succ]
    · rw [hres]
      exact hlen2
    · intro h1
      rw [hres]
      apply List.eq_nil_of_length_eq_zero
      omega
    · intro hc
      unfold deleteUser
      rw [if_neg hlen]
      simp only []
      rw [if_neg (by simpa using hyes)]
      simp only [saveUsersToFile, hc, if_true]
      split <;> simp
  · intro hno
    unfold deleteUser
    rw [if_neg hlen]
    simp only []
    rw [if_pos hno]

/-- C5 witness: confirming with `"YES"` removes the only record. -/
theorem deleteUser_collection_witness :
    (deleteUser id [⟨"id-a", "Alice", 30⟩] ⟨fun _ => none, fun _ => true⟩
      (.ok "Alice") (.ok "YES")).users = [] := by
  obtain ⟨i, old, -, -, -, hyes, -⟩ :=
    deleteUser_collection id [⟨"id-a", "Alice", 30⟩] ⟨fun _ => none, fun _ => true⟩
      "Alice" "YES" ⟨⟨"id-a", "Alice", 30⟩, by decide, rfl⟩
  exact (hyes (by decide)).2.2.2.1 rfl

/-- C6: for an age string accepted by `validateAge` (and any name), `addUser` leaves
the collection extended by exactly one record at the end, carrying the generated id,
the given name and the integer value of the age string; the records before it are
unchanged and in the same order.  From the empty collection, adding `"Alice"`, `"30"`
leaves the single record with the generated id, name `Alice` and age 30. -/
theorem addUser_appends (users : List User) (fs : FileSys) (name ageStr newID : String)
    (hage : validateAge ageStr = none) :
    ∃ age : Int, integerValue ageStr = some age ∧ 0 ≤ age ∧ age ≤ 150 ∧
      (addUser users fs (.ok name) (.ok ageStr) newID).users = users ++ [⟨newID, name, age⟩] ∧
      (addUser users fs (.ok name) (.ok ageStr) newID).users.length = users.length + 1 ∧
      (addUser users fs (.ok name) (.ok ageStr) newID).users.take users.length = users ∧
      (addUser [] fs (.ok "Alice") (.ok "30") newID).users = [⟨newID, "Alice", 30⟩] := by
  obtain ⟨age, hi, h0, h150, hat⟩ := validateAge_atoi hage
  have hres : ∀ (us : List User) (n a : String) (g : Int), atoi a = (g, none) →
      (addUser us fs (.ok n) (.ok a) newID).users = us ++ [⟨newID, n, g⟩] := by
    intro us n a g hg
    unfold addUser
    simp only [hg]
    rcases saveUsersToFile_cases fs storePath (us ++ [⟨newID, n, g⟩])
      with ⟨fs2, h⟩ | ⟨fs2, e, h⟩ <;> rw [h]
  refine ⟨age, hi, h0, h150, hres users name ageStr age hat, ?_, ?_, ?_⟩
  · rw [hres users name ageStr age hat]
    simp
  · rw [hres users name ageStr age hat]
    simp
  · rw [hres [] "Alice" "30" 30 (by decide)]
    rfl

/-- C6 witness: adding `"Bob"`, `"42"` to a one-record collection. -/
theorem addUser_appends_witness :
    (addUser [⟨"id-a", "Alice", 30⟩] ⟨fun _ => none, fun _ => true⟩
      (.ok "Bob") (.ok "42") "id-b").users.length = 2 := by
  obtain ⟨age, -, -, -, -, hlen, -⟩ :=
    addUser_appends [⟨"id-a", "Alice", 30⟩] ⟨fun _ => none, fun _ => true⟩
      "Bob" "42" "id-b" (by decide)
  exact hlen

/-- C9 (fails on the code): deleting the only record `Alice` with confirmation
`"yes"`.  The collection becomes empty, the file is written, and the index `0` then
used to read `users[userIndex].ID` is not below the length `0` of the shortened
collection: the operation ends in a run-time panic. -/
theorem deleteUser_last_index_out_of_range :
    (deleteUser id [⟨"id-a", "Alice", 30⟩] ⟨fun _ => none, fun _ => true⟩
        (.ok "Alice") (.ok "yes")).users = [] ∧
    ¬ (findUserIndex "Alice" [⟨"id-a", "Alice", 30⟩] 0 <
        (deleteUser id [⟨"id-a", "Alice", 30⟩] ⟨fun _ => none, fun _ => true⟩
          (.ok "Alice") (.ok "yes")).users.length) ∧
    (deleteUser id [⟨"id-a", "Alice", 30⟩] ⟨fun _ => none, fun _ => true⟩
        (.ok "Alice") (.ok "yes")).panicked = true := by
  decide

/-- C10 (fails on the code): deleting `Alice` (id `id-a`) from `[Alice, Zoe]` with
confirmation `"yes"`.  `Alice` is removed, and the success message names `id-z`, the
id of `Zoe`, the record that moved into the freed position. -/
theorem deleteUser_reports_other_id :
    (deleteUser id [⟨"id-a", "Alice", 30⟩, ⟨"id-z", "Zoe", 20⟩]
        ⟨fun _ => none, fun _ => true⟩ (.ok "Alice") (.ok "yes")).users =
      [⟨"id-z", "Zoe", 20⟩] ∧
    (deleteUser id [⟨"id-a", "Alice", 30⟩, ⟨"id-z", "Zoe", 20⟩]
        ⟨fun _ => none, fun _ => true⟩ (.ok "Alice") (.ok "yes")).out =
      ["User \x27Alice\x27 with ID id-z deleted successfully."] := by
  decide

/-- C3: after `displayUsers` the shared collection is a permutation of the collection
before the call and is ascending by name: for all indices `i < j`,
`users[i].Name ≤ users[j].Name` in the lexicographic order of strings.  The collection
`[Alice(30), Zoe(20)]` is left as `[Alice(30), Zoe(20)]`.  This holds for every
collection length and every generator step inside `sort.Slice`. -/
theorem displayUsers_sorted (next : Nat → Nat) (users : List User) (fs : FileSys)
    (idA idZ : String) :
    (displayUsers next users fs).users.Perm users ∧
    (∀ (i j : Nat) (hi : i < (displayUsers next users fs).users.length)
        (hj : j < (displayUsers next users fs).users.length), i < j →
      ((displayUsers next users fs).users.get ⟨i, hi⟩).Name ≤
        ((displayUsers next users fs).users.get ⟨j, hj⟩).Name) ∧
    (displayUsers next [⟨idA, "Alice", 30⟩, ⟨idZ, "Zoe", 20⟩] fs).users =
      [⟨idA, "Alice", 30⟩, ⟨idZ, "Zoe", 20⟩] := by
  obtain ⟨hperm, hsorted⟩ := sortSlice_sorted next users
  refine ⟨hperm, ?_, ?_⟩
  · intro i j hi hj hij
    exact List.pairwise_iff_getElem.mp hsorted i j hi hj hij
  · rfl

/-- C3 witness: in `[Zoe, Alice]` after `displayUsers`, the name at index 0 is at most
the name at index 1. -/
theorem displayUsers_sorted_witness :
    ∃ (hi : 0 < (displayUsers xorshiftNext [⟨"id-z", "Zoe", 20⟩, ⟨"id-a", "Alice", 30⟩]
          ⟨fun _ => none, fun _ => true⟩).users.length)
      (hj : 1 < (displayUsers xorshiftNext [⟨"id-z", "Zoe", 20⟩, ⟨"id-a", "Alice", 30⟩]
          ⟨fun _ => none, fun _ => true⟩).users.length),
      ((displayUsers xorshiftNext [⟨"id-z", "Zoe", 20⟩, ⟨"id-a", "Alice", 30⟩]
          ⟨fun _ => none, fun _ => true⟩).users.get ⟨0, hi⟩).Name ≤
        ((displayUsers xorshiftNext [⟨"id-z", "Zoe", 20⟩, ⟨"id-a", "Alice", 30⟩]
          ⟨fun _ => none, fun _ => true⟩).users.get ⟨1, hj⟩).Name :=
  ⟨by decide, by decide,
    (displayUsers_sorted xorshiftNext [⟨"id-z", "Zoe", 20⟩, ⟨"id-a", "Alice", 30⟩]
      ⟨fun _ => none, fun _ => true⟩ "" "").2.1 0 1 (by decide) (by decide) (by decide)⟩

/-- C8: when the ids of the collection are pairwise distinct they stay pairwise
distinct after `addUser` (given a generated id not yet in the collection),
`displayUsers`, `editUser` and `deleteUser`, whatever the prompts return; and the
records that remain keep their ids: `addUser` keeps the old records as they were,
`displayUsers` permutes the records, `editUser` keeps the id at every position, and
`deleteUser` leaves a sub-sequence of the old records. -/
theorem ids_stay_unique (t : Char → Char) (next : Nat → Nat) (users : List User)
    (fs : FileSys) (h : (users.map User.ID).Nodup) :
    (∀ (name ageStr : Except String String) (newID : String), newID ∉ users.map User.ID →
      ((addUser users fs name ageStr newID).users.map User.ID).Nodup ∧
      (addUser users fs name ageStr newID).users.take users.length = users) ∧
    (((displayUsers next users fs).users.map User.ID).Nodup ∧
      (displayUsers next users fs).users.Perm users) ∧
    (∀ selected newName newAgeStr : Except String String,
      ((editUser users fs selected newName newAgeStr).users.map User.ID).Nodup ∧
      (editUser users fs selected newName newAgeStr).users.map User.ID = users.map User.ID) ∧
    (∀ selected confirmation : Except String String,
      ((deleteUser t users fs selected confirmation).users.map User.ID).Nodup ∧
      (deleteUser t users fs selected confirmation).users.Sublist users) := by
  refine ⟨?_, ?_, ?_, ?_⟩
  · intro name ageStr newID hfresh
    rcases addUser_users users fs name ageStr newID with h1 | ⟨n, a, age, -, -, -, h1⟩
    · rw [h1]
      exact ⟨h, by simp⟩
    · rw [h1]
      refine ⟨?_, by simp⟩
      rw [List.map_append, List.nodup_append]
      refine ⟨h, by simp, ?_⟩
      intro a ha hb
      simp only [List.map_cons, List.map_nil, List.mem_singleton] at hb
      subst hb
      exact hfresh ha
  · have hperm : (displayUsers next users fs).users.Perm users :=
      (sortSlice_sorted next users).1
    exact ⟨((hperm.map User.ID).nodup_iff).mpr h, hperm⟩
  · intro selected newName newAgeStr
    have := editUser_ids users fs selected newName newAgeStr
    exact ⟨by rw [this]; exact h, this⟩
  · intro selected confirmation
    have hsub : (deleteUser t users fs selected confirmation).users.Sublist users := by
      rcases deleteUser_users t users fs selected confirmation
        with h1 | ⟨sel, c, -, -, -, -, h1⟩
      · rw [h1]
      · rw [h1, ← List.eraseIdx_eq_take_drop_succ]
        exact List.eraseIdx_sublist _ _
    exact ⟨h.sublist (hsub.map User.ID), hsub⟩

/-- C8 witness: the two-record collection with ids `id-a`, `id-z` keeps distinct ids
through `displayUsers`. -/
theorem ids_stay_unique_witness :
    ((displayUsers xorshiftNext [⟨"id-z", "Zoe", 20⟩, ⟨"id-a", "Alice", 30⟩]
      ⟨fun _ => none, fun _ => true⟩).users.map User.ID).Nodup :=
  (ids_stay_unique id xorshiftNext [⟨"id-z", "Zoe", 20⟩, ⟨"id-a", "Alice", 30⟩]
    ⟨fun _ => none, fun _ => true⟩ (by decide)).2.1.1

/-! ## Lemmas on the store file: decoding what the encoder wrote -/

theorem toNat_ofNat_small (n : Nat) (h : n < 0xD800) : (Char.ofNat n).toNat = n := by
  have hv : n.isValidChar := Or.inl h
  unfold Char.ofNat
  rw [dif_pos hv]
  simp [Char.ofNatAux, Char.toNat, UInt32.toNat]

theorem isSurrogate_toNat (c : Char) : isSurrogate c.toNat = false := by
  have hv : c.toNat < 0xD800 ∨ (0xDFFF < c.toNat ∧ c.toNat < 0x110000) := c.valid
  unfold isSurrogate
  rcases hv with h | h
  · simp only [Bool.and_eq_false_imp, decide_eq_true_eq, decide_eq_false_iff_not]
    omega
  · simp only [Bool.and_eq_false_imp, decide_eq_true_eq, decide_eq_false_iff_not]
    omega

theorem joinUnits_toNat (cs : List Char) : joinUnits (cs.map Char.toNat) = cs := by
  induction cs with
  | nil => rfl
  | cons c cs ih =>
    cases cs with
    | nil => simp [joinUnits, isSurrogate_toNat]
    | cons d ds =>
      simp only [List.map_cons] at ih ⊢
      simp only [joinUnits, isSurrogate_toNat, Bool.false_eq_true, if_false, ih,
        Char.ofNat_toNat]

theorem hexVal_hexChar (k : Nat) (h : k < 16) : hexVal (hexChar k) = some k := by
  interval_cases k <;> rfl

theorem getu4_low (n : Nat) (h : n < 256) :
    getu4 (Char.ofNat 48) (Char.ofNat 48) (hexChar (n / 16)) (hexChar (n % 16)) = some n := by
  have h0 : hexVal (Char.ofNat 48) = some 0 := rfl
  unfold getu4
  rw [h0, hexVal_hexChar _ (by omega), hexVal_hexChar _ (by omega)]
  simp only [Option.some.injEq]
  omega

theorem parseStringBody_plain (c : Char) (cs : List Char) (acc : List Nat)
    (h34 : ¬ c.toNat = 34) (h92 : ¬ c.toNat = 92) (h32 : ¬ c.toNat < 32) :
    parseStringBody (c :: cs) acc = parseStringBody cs (c.toNat :: acc) := by
  rw [parseStringBody.eq_def]
  simp only [h34, h92, h32, if_false]

theorem parseStringBody_quote (c : Char) (cs : List Char) (acc : List Nat)
    (h34 : c.toNat = 34) :
    parseStringBody (c :: cs) acc = some (String.mk (joinUnits acc.reverse), cs) := by
  rw [parseStringBody.eq_def]
  simp only [h34, if_true]

theorem parseStringBody_backslash (b e : Char) (cs : List Char) (acc : List Nat)
    (hb : b.toNat = 92) :
    parseStringBody (b :: e :: cs) acc =
      if e.toNat = 34 ∨ e.toNat = 92 ∨ e.toNat = 47 then parseStringBody cs (e.toNat :: acc)
      else if e.toNat = 98 then parseStringBody cs (8 :: acc)
      else if e.toNat = 102 then parseStringBody cs (12 :: acc)
      else if e.toNat = 110 then parseStringBody cs (10 :: acc)
      else if e.toNat = 114 then parseStringBody cs (13 :: acc)
      else if e.toNat = 116 then parseStringBody cs (9 :: acc)
      else if e.toNat = 117 then
        match cs with
        | h1 :: h2 :: h3 :: h4 :: cs2 =>
          match getu4 h1 h2 h3 h4 with
          | none => none
          | some rr => parseStringBody cs2 (rr :: acc)
        | _ => none
      else none := by
  rw [parseStringBody.eq_def]
  simp only [hb, if_true, show ¬ (92 = 34) by decide, if_false]

theorem parseStringBody_u4 (b e h1 h2 h3 h4 : Char) (cs : List Char) (acc : List Nat)
    (rr : Nat) (hb : b.toNat = 92) (he : e.toNat = 117) (hu : getu4 h1 h2 h3 h4 = some rr) :
    parseStringBody (b :: e :: h1 :: h2 :: h3 :: h4 :: cs) acc =
      parseStringBody cs (rr :: acc) := by
  rw [parseStringBody_backslash _ _ _ _ hb]
  simp only [he, hu, show ¬ (117 = 34 ∨ 117 = 92 ∨ 117 = 47) by decide,
    show ¬ (117 = 98) by decide, show ¬ (117 = 102) by decide, show ¬ (117 = 110) by decide,
    show ¬ (117 = 114) by decide, show ¬ (117 = 116) by decide, if_false, if_true]

/-- One escaped character read back: the decoder pushes the code unit of the
character the encoder escaped. -/
theorem parseStringBody_escapeChar (c : Char) (tail : List Char) (acc : List Nat) :
    parseStringBody (escapeChar c ++ tail) acc = parseStringBody tail (c.toNat :: acc) := by
  have q92 : (Char.ofNat 92).toNat = 92 := rfl
  have q117 : (Char.ofNat 117).toNat = 117 := rfl
  unfold escapeChar
  split
  · rename_i hascii
    split
    · rename_i hsafe
      unfold htmlSafe at hsafe
      simp only [Bool.and_eq_true, decide_eq_true_eq, bne_iff_ne, ne_eq] at hsafe
      exact parseStringBody_plain c tail acc (by omega) (by omega) (by omega)
    · split
      · rename_i hq
        show parseStringBody (Char.ofNat 92 :: c :: tail) acc = _
        rw [parseStringBody_backslash _ _ _ _ q92, if_pos (by omega)]
      · rename_i hq
        split
        · rename_i h8
          show parseStringBody (Char.ofNat 92 :: Char.ofNat 98 :: tail) acc = _
          rw [parseStringBody_backslash _ _ _ _ q92, h8]
          rfl
        · split
          · rename_i h12
            show parseStringBody (Char.ofNat 92 :: Char.ofNat 102 :: tail) acc = _
            rw [parseStringBody_backslash _ _ _ _ q92, h12]
            rfl
          · split
            · rename_i h10
              show parseStringBody (Char.ofNat 92 :: Char.ofNat 110 :: tail) acc = _
              rw [parseStringBody_backslash _ _ _ _ q92, h10]
              rfl
            · split
              · rename_i h13
                show parseStringBody (Char.ofNat 92 :: Char.ofNat 114 :: tail) acc = _
                rw [parseStringBody_backslash _ _ _ _ q92, h13]
                rfl
              · split
                · rename_i h9
                  show parseStringBody (Char.ofNat 92 :: Char.ofNat 116 :: tail) acc = _
                  rw [parseStringBody_backslash _ _ _ _ q92, h9]
                  rfl
                · exact parseStringBody_u4 _ _ _ _ _ _ tail acc c.toNat q92 q117
                    (getu4_low c.toNat (by omega))
  · rename_i hascii
    split
    · rename_i hsep
      have hu : getu4 (Char.ofNat 50) (Char.ofNat 48) (Char.ofNat 50) (hexChar (c.toNat % 16)) =
          some c.toNat := by
        rcases hsep with hsep | hsep <;> rw [hsep] <;> rfl
      exact parseStringBody_u4 _ _ _ _ _ _ tail acc c.toNat q92 q117 hu
    · exact parseStringBody_plain c tail acc (by omega) (by omega) (by omega)

theorem parseStringBody_escaped (cs : List Char) :
    ∀ (rest : List Char) (acc : List Nat),
      parseStringBody (cs.flatMap escapeChar ++ Char.ofNat 34 :: rest) acc =
        some (String.mk (joinUnits (acc.reverse ++ cs.map Char.toNat)), rest) := by
  induction cs with
  | nil =>
    intro rest acc
    rw [List.flatMap_nil, List.nil_append, parseStringBody_quote (Char.ofNat 34) _ _ rfl]
    simp
  | cons c cs ih =>
    intro rest acc
    rw [List.flatMap_cons, List.append_assoc, parseStringBody_escapeChar, ih]
    simp

/-- A string literal written by the encoder, read back after its opening quote. -/
theorem parseStringBody_encodeString (s : String) (rest : List Char) :
    ∃ body, encodeString s ++ rest = Char.ofNat 34 :: body ∧
      parseStringBody body [] = some (s, rest) := by
  refine ⟨s.data.flatMap escapeChar ++ Char.ofNat 34 :: rest, ?_, ?_⟩
  · simp [encodeString]
  · rw [parseStringBody_escaped]
    simp [joinUnits_toNat]

theorem digitsValue_append (a b : List Char) (k : Nat) :
    digitsValue (a ++ b) k = digitsValue b (digitsValue a k) := by
  induction a generalizing k with
  | nil => rfl
  | cons c a ih =>
    rw [List.cons_append, digitsValue, digitsValue, ih]

theorem isDigitByte_ofNat (d : Nat) (h : d < 10) :
    isDigitByte (Char.ofNat (48 + d)) = true ∧ (Char.ofNat (48 + d)).toNat = 48 + d := by
  have ht := toNat_ofNat_small (48 + d) (by omega)
  refine ⟨?_, ht⟩
  unfold isDigitByte
  rw [ht]
  simp only [Bool.and_eq_true, decide_eq_true_eq]
  omega

/-- The digit loop writes, in front of the buffer, a non-empty run of digits whose
value is `us`, with a leading `0` only for `us = 0`. -/
theorem formatLoop_spec (fuel : Nat) :
    ∀ (us : Nat) (acc : List Char), us < fuel →
      ∃ c r, formatLoop fuel us acc = c :: r ++ acc ∧ (c :: r).all isDigitByte = true ∧
        digitsValue (c :: r) 0 = us ∧ (us = 0 → c.toNat = 48 ∧ r = []) ∧
        (0 < us → 49 ≤ c.toNat ∧ c.toNat ≤ 57) := by
  induction fuel with
  | zero =>
    intro us acc h
    omega
  | succ fuel ih =>
    intro us acc h
    unfold formatLoop
    by_cases hge : us ≥ 10
    · rw [if_pos hge]
      obtain ⟨c, r, h1, h2, h3, -, h5⟩ :=
        ih (us / 10) (Char.ofNat (48 + (us - us / 10 * 10)) :: acc) (by omega)
      obtain ⟨hd1, hd2⟩ := isDigitByte_ofNat (us - us / 10 * 10) (by omega)
      refine ⟨c, r ++ [Char.ofNat (48 + (us - us / 10 * 10))], ?_, ?_, ?_, ?_, ?_⟩
      · rw [h1]
        simp
      · rw [← List.cons_append, List.all_append, h2]
        simp [hd1]
      · rw [← List.cons_append, digitsValue_append, h3]
        simp only [digitsValue, hd2]
        omega
      · intro h0
        omega
      · intro _
        exact h5 (by omega)
    · rw [if_neg hge]
      obtain ⟨hd1, hd2⟩ := isDigitByte_ofNat us (by omega)
      refine ⟨Char.ofNat (48 + us), [], by simp, by simp [hd1], ?_, ?_, ?_⟩
      · simp only [digitsValue, hd2]
        omega
      · intro h0
        exact ⟨by rw [hd2, h0], rfl⟩
      · intro hpos
        rw [hd2]
        omega

theorem formatNat_spec (n : Nat) :
    ∃ c r, formatNat n = c :: r ∧ (c :: r).all isDigitByte = true ∧
      digitsValue (c :: r) 0 = n ∧ (n = 0 → c.toNat = 48 ∧ r = []) ∧
      (0 < n → 49 ≤ c.toNat ∧ c.toNat ≤ 57) := by
  obtain ⟨c, r, h1, h2, h3, h4, h5⟩ := formatLoop_spec (n + 1) n [] (by omega)
  exact ⟨c, r, by rw [formatNat, h1]; simp, h2, h3, h4, h5⟩

theorem unsignedValue_formatNat (n : Nat) : unsignedValue (formatNat n) = some n := by
  obtain ⟨c, r, h1, h2, h3, -, -⟩ := formatNat_spec n
  rw [h1]
  unfold unsignedValue
  rw [if_pos ⟨by simp, h2⟩, h3]

theorem integerValueOf_formatInt (i : Int) : integerValueOf (formatInt i) = some i := by
  unfold formatInt
  by_cases hneg : i < 0
  · rw [if_pos hneg, integerValueOf_cons]
    have hm : Char.ofNat 45 = '-' := rfl
    have hp : ¬ ('-' : Char) = '+' := by decide
    simp only [hm, hp, if_false, if_true, unsignedValue_formatNat, Option.map_some',
      Option.some.injEq]
    omega
  · rw [if_neg hneg]
    obtain ⟨c, r, h1, h2, -, -, -⟩ := formatNat_spec i.toNat
    have hu := unsignedValue_formatNat i.toNat
    rw [h1] at hu ⊢
    have hc : isDigitByte c = true := by
      simp only [List.all_cons, Bool.and_eq_true] at h2
      exact h2.1
    unfold isDigitByte at hc
    simp only [Bool.and_eq_true, decide_eq_true_eq] at hc
    have hm : ¬ c = '-' := by
      intro h0
      rw [h0] at hc
      revert hc
      decide
    have hp : ¬ c = '+' := by
      intro h0
      rw [h0] at hc
      revert hc
      decide
    rw [integerValueOf_cons]
    simp only [hm, hp, if_false, hu, Option.map_some', Option.some.injEq]
    omega

theorem parseInt_formatInt (i : Int) (hlo : -(2 ^ 63 : Int) ≤ i) (hhi : i < 2 ^ 63) :
    parseInt (formatInt i) = (i, none) :=
  parseInt_ok (integerValueOf_formatInt i) hlo hhi

theorem spanDigits_run (ds : List Char) (c : Char) (rest : List Char)
    (hds : ds.all isDigitByte = true) (hc : isDigitByte c = false) :
    spanDigits (ds ++ c :: rest) = (ds, c :: rest) := by
  induction ds with
  | nil => simp [spanDigits, hc]
  | cons d ds ih =>
    simp only [List.all_cons, Bool.and_eq_true] at hds
    rw [List.cons_append, spanDigits, if_pos hds.1, ih hds.2]

/-- A number written by the encoder and followed by a closing brace is scanned back
as the same literal, up to the brace. -/
theorem scanNumber_formatInt (i : Int) (c : Char) (rest : List Char) (hc : c.toNat = 125) :
    scanNumber (formatInt i ++ c :: rest) = some (formatInt i, c :: rest) ∧
    ∃ c0 r0, formatInt i = c0 :: r0 ∧ (c0.toNat = 45 ∨ (48 ≤ c0.toNat ∧ c0.toNat ≤ 57)) := by
  have hnd : isDigitByte c = false := by
    unfold isDigitByte
    rw [hc]
    rfl
  have hint : ∀ n : Nat, scanIntPart (formatNat n ++ c :: rest) = some (formatNat n, c :: rest) := by
    intro n
    obtain ⟨c0, r0, h1, h2, -, h4, h5⟩ := formatNat_spec n
    rw [h1]
    simp only [List.all_cons, Bool.and_eq_true] at h2
    simp only [List.cons_append, scanIntPart]
    by_cases h0 : n = 0
    · obtain ⟨h6, h7⟩ := h4 h0
      rw [if_pos h6, h7]
      rfl
    · have h8 := h5 (by omega)
      rw [if_neg (by omega), if_pos h8, spanDigits_run r0 c rest h2.2 hnd]
  have hfrac : scanFraction (c :: rest) = some ([], c :: rest) := by
    simp only [scanFraction]
    rw [if_neg (by omega)]
  have hexp : scanExponent (c :: rest) = some ([], c :: rest) := by
    simp only [scanExponent]
    rw [if_neg (by omega)]
  unfold formatInt
  by_cases hneg : i < 0
  · rw [if_pos hneg]
    have h45 : (Char.ofNat 45).toNat = 45 := rfl
    refine ⟨?_, _, _, rfl, Or.inl h45⟩
    unfold scanNumber
    simp only [List.cons_append, h45, if_true, hint, hfrac, hexp, List.append_nil,
      List.singleton_append, List.nil_append]
  · rw [if_neg hneg]
    obtain ⟨c0, r0, h1, h2, -, -, -⟩ := formatNat_spec i.toNat
    have hc0 : isDigitByte c0 = true := by
      simp only [List.all_cons, Bool.and_eq_true] at h2
      exact h2.1
    unfold isDigitByte at hc0
    simp only [Bool.and_eq_true, decide_eq_true_eq] at hc0
    refine ⟨?_, c0, r0, h1, Or.inr hc0⟩
    have := hint i.toNat
    unfold scanNumber
    rw [h1] at this ⊢
    simp only [List.cons_append] at this ⊢
    rw [if_neg (by omega)]
    simp only [this, hfrac, hexp, List.append_nil, List.nil_append]

theorem skipWs_cons (c : Char) (cs : List Char) (h : isSpaceByte c = false) :
    skipWs (c :: cs) = c :: cs := by
  rw [skipWs, h]
  rfl

theorem isSpaceByte_false (c : Char) (h : 33 ≤ c.toNat) : isSpaceByte c = false := by
  unfold isSpaceByte
  simp only [Bool.or_eq_false_iff, decide_eq_false_iff_not]
  omega

theorem parseValue_string (fuel : Nat) (s : String) (rest : List Char) :
    parseValue (fuel + 1) (encodeString s ++ rest) = some (.str s, rest) := by
  obtain ⟨body, h1, h2⟩ := parseStringBody_encodeString s rest
  have q34 : (Char.ofNat 34).toNat = 34 := rfl
  rw [h1, parseValue, skipWs_cons _ _ (isSpaceByte_false _ (by rw [q34]; omega))]
  simp only [q34, h2, show ¬ (34 = 123) by decide, show ¬ (34 = 91) by decide, if_false,
    if_true]

theorem parseValue_number (fuel : Nat) (i : Int) (c : Char) (rest : List Char)
    (hc : c.toNat = 125) :
    parseValue (fuel + 1) (formatInt i ++ c :: rest) = some (.num (formatInt i), c :: rest) := by
  obtain ⟨h1, c0, r0, h2, h3⟩ := scanNumber_formatInt i c rest hc
  rw [h2] at h1 ⊢
  rw [List.cons_append] at h1 ⊢
  rw [parseValue, skipWs_cons _ _ (isSpaceByte_false _ (by omega))]
  simp only [h1]
  rw [if_neg (by omega), if_neg (by omega), if_neg (by omega), if_neg (by omega),
    if_neg (by omega), if_neg (by omega)]

/-- One member `"key":value` read back, when the value scanner reads the value up to
the delimiter `d` that follows it. -/
theorem parseMembers_member (p : List Char → Option (JValue × List Char)) (n : Nat)
    (key : String) (valueText : List Char) (v : JValue) (d : Char) (rest : List Char)
    (acc : List (String × JValue)) (hd : 33 ≤ d.toNat)
    (hp : p (valueText ++ d :: rest) = some (v, d :: rest)) :
    parseMembers p (n + 1)
        (encodeString key ++ Char.ofNat 58 :: (valueText ++ d :: rest)) acc =
      if d.toNat = 44 then parseMembers p n rest ((key, v) :: acc)
      else if d.toNat = 125 then some (((key, v) :: acc).reverse, rest)
      else none := by
  obtain ⟨body, h1, h2⟩ :=
    parseStringBody_encodeString key (Char.ofNat 58 :: (valueText ++ d :: rest))
  have q34 : (Char.ofNat 34).toNat = 34 := rfl
  have q58 : (Char.ofNat 58).toNat = 58 := rfl
  rw [h1, parseMembers, skipWs_cons _ _ (isSpaceByte_false _ (by rw [q34]; omega))]
  simp only [q34, if_true, h2]
  rw [skipWs_cons _ _ (isSpaceByte_false _ (by rw [q58]; omega))]
  simp only [q58, if_true, hp]
  rw [skipWs_cons _ _ (isSpaceByte_false _ hd)]

theorem encodeUser_eq (u : User) (rest : List Char) :
    encodeUser u ++ rest =
      Char.ofNat 123 :: (encodeString "id" ++ Char.ofNat 58 :: (encodeString u.ID ++
        Char.ofNat 44 :: (encodeString "name" ++ Char.ofNat 58 :: (encodeString u.Name ++
        Char.ofNat 44 :: (encodeString "age" ++ Char.ofNat 58 :: (formatInt u.Age ++
        Char.ofNat 125 :: rest)))))) := by
  simp only [encodeUser, List.append_assoc, List.singleton_append]
  rfl

theorem three_le_length_encodeString (s : String) (rest : List Char) :
    2 ≤ (encodeString s ++ rest).length := by
  simp only [encodeString, List.cons_append, List.length_cons, List.length_append,
    List.length_singleton, List.length_nil]
  omega

/-- A record written by the encoder is scanned back as its value tree. -/
theorem parseValue_encodeUser (fuel : Nat) (u : User) (rest : List Char) :
    parseValue (fuel + 2) (encodeUser u ++ rest) = some (userTree u, rest) := by
  have q123 : (Char.ofNat 123).toNat = 123 := rfl
  have q34 : (Char.ofNat 34).toNat = 34 := rfl
  have q44 : (Char.ofNat 44).toNat = 44 := rfl
  have q125 : (Char.ofNat 125).toNat = 125 := rfl
  rw [encodeUser_eq, parseValue, skipWs_cons _ _ (isSpaceByte_false _ (by rw [q123]; omega))]
  simp only [q123, if_true]
  obtain ⟨body, hbody, -⟩ := parseStringBody_encodeString "id"
    (Char.ofNat 58 :: (encodeString u.ID ++
        Char.ofNat 44 :: (encodeString "name" ++ Char.ofNat 58 :: (encodeString u.Name ++
        Char.ofNat 44 :: (encodeString "age" ++ Char.ofNat 58 :: (formatInt u.Age ++
        Char.ofNat 125 :: rest))))))
  have hlen : ∃ k, (Char.ofNat 34 :: body).length = k + 3 := by
    have h2 := three_le_length_encodeString u.ID
        (Char.ofNat 44 :: (encodeString "name" ++ Char.ofNat 58 :: (encodeString u.Name ++
        Char.ofNat 44 :: (encodeString "age" ++ Char.ofNat 58 :: (formatInt u.Age ++
        Char.ofNat 125 :: rest)))))
    have h3 := three_le_length_encodeString "id" (Char.ofNat 58 :: (encodeString u.ID ++
        Char.ofNat 44 :: (encodeString "name" ++ Char.ofNat 58 :: (encodeString u.Name ++
        Char.ofNat 44 :: (encodeString "age" ++ Char.ofNat 58 :: (formatInt u.Age ++
        Char.ofNat 125 :: rest))))))
    rw [← hbody]
    rw [List.length_append, List.length_cons] at h3 ⊢
    exact ⟨_, (Nat.sub_add_cancel (by omega)).symm⟩
  obtain ⟨k, hk⟩ := hlen
  rw [hbody, skipWs_cons _ _ (isSpaceByte_false _ (by rw [q34]; omega))]
  simp only [q34, show ¬ (34 = 125) by decide, if_false]
  rw [hk, ← hbody,
    parseMembers_member (parseValue (fuel + 1)) (k + 2) "id" _ (.str u.ID) (Char.ofNat 44) _ _
      (by rw [q44]; omega) (parseValue_string fuel u.ID _)]
  simp only [q44, if_true]
  rw [parseMembers_member (parseValue (fuel + 1)) (k + 1) "name" _ (.str u.Name)
      (Char.ofNat 44) _ _ (by rw [q44]; omega) (parseValue_string fuel u.Name _)]
  simp only [q44, if_true]
  rw [parseMembers_member (parseValue (fuel + 1)) k "age" _ (.num (formatInt u.Age))
      (Char.ofNat 125) _ _ (by rw [q125]; omega) (parseValue_number fuel u.Age _ _ q125)]
  simp only [q125, show ¬ (125 = 44) by decide, if_false, if_true]
  rfl

/-- The value tree of a record is stored back as the record, when its age is a
64-bit `int`. -/
theorem storeUser_userTree (u : User) (hlo : -(2 ^ 63 : Int) ≤ u.Age) (hhi : u.Age < 2 ^ 63) :
    storeUser (userTree u) = .ok u := by
  have h1 : ∀ v : User, storeField v "id" (.str u.ID) = .ok { v with ID := u.ID } :=
    fun _ => rfl
  have h2 : ∀ v : User, storeField v "name" (.str u.Name) = .ok { v with Name := u.Name } :=
    fun _ => rfl
  have h3 : ∀ v : User, storeField v "age" (.num (formatInt u.Age)) =
      match parseInt (formatInt u.Age) with
      | (n, none) => .ok { v with Age := n }
      | (_, some _) =>
        .error "json: cannot unmarshal number into Go struct field User.age of type int" :=
    fun _ => rfl
  simp only [storeUser, userTree, storeFields, h1, h2, h3, parseInt_formatInt u.Age hlo hhi]

theorem storeUsers_userTree (us : List User)
    (h : ∀ u ∈ us, -(2 ^ 63 : Int) ≤ u.Age ∧ u.Age < 2 ^ 63) :
    storeUsers (us.map userTree) = .ok us := by
  induction us with
  | nil => rfl
  | cons u us ih =>
    have hu := h u (by simp)
    have hrest := ih (fun v hv => h v (by simp [hv]))
    simp only [List.map_cons, storeUsers, storeUser_userTree u hu.1 hu.2, hrest]

theorem encodeElems_cons_cons (u v : User) (us : List User) :
    encodeElems (u :: v :: us) = encodeUser u ++ Char.ofNat 44 :: encodeElems (v :: us) := rfl

theorem encodeElems_head (u : User) (us : List User) (tail : List Char) :
    ∃ body, encodeElems (u :: us) ++ tail = Char.ofNat 123 :: body := by
  cases us with
  | nil => exact ⟨_, encodeUser_eq u tail⟩
  | cons v us =>
    rw [encodeElems_cons_cons, List.append_assoc]
    exact ⟨_, encodeUser_eq u _⟩

theorem length_le_encodeElems (us : List User) : us.length ≤ (encodeElems us).length := by
  induction us with
  | nil => simp
  | cons u us ih =>
    cases us with
    | nil =>
      obtain ⟨body, h⟩ := encodeElems_head u [] []
      rw [List.append_nil] at h
      rw [h]
      simp
    | cons v us =>
      rw [encodeElems_cons_cons]
      simp only [List.length_append, List.length_cons] at ih ⊢
      omega

/-- The elements of an array written by the encoder are scanned back as the value
trees of the records. -/
theorem parseElems_encodeElems (fuel : Nat) (us : List User) :
    ∀ (u : User) (n : Nat) (rest : List Char) (acc : List JValue), us.length + 1 ≤ n →
      parseElems (parseValue (fuel + 2)) n
          (encodeElems (u :: us) ++ Char.ofNat 93 :: rest) acc =
        some (acc.reverse ++ (u :: us).map userTree, rest) := by
  have q44 : (Char.ofNat 44).toNat = 44 := rfl
  have q93 : (Char.ofNat 93).toNat = 93 := rfl
  induction us with
  | nil =>
    intro u n rest acc hn
    obtain ⟨m, rfl⟩ : ∃ m, n = m + 1 := ⟨n - 1, by simp at hn; omega⟩
    show parseElems _ _ (encodeUser u ++ Char.ofNat 93 :: rest) acc = _
    rw [parseElems, parseValue_encodeUser]
    simp only []
    rw [skipWs_cons _ _ (isSpaceByte_false _ (by rw [q93]; omega))]
    simp only [q93, show ¬ (93 = 44) by decide, if_false, if_true, List.reverse_cons,
      List.map_cons, List.map_nil]
  | cons v us ih =>
    intro u n rest acc hn
    obtain ⟨m, rfl⟩ : ∃ m, n = m + 1 := ⟨n - 1, by simp at hn; omega⟩
    rw [encodeElems_cons_cons, List.append_assoc, parseElems, parseValue_encodeUser]
    simp only [List.cons_append]
    rw [skipWs_cons _ _ (isSpaceByte_false _ (by rw [q44]; omega))]
    simp only [q44, if_true]
    rw [ih v m rest (userTree u :: acc) (by simp at hn ⊢; omega)]
    simp

/-- Decoding what the encoder wrote gives back the collection, when every age is a
64-bit `int`. -/
theorem decodeUsers_encodeUsers (users : List User)
    (h : ∀ u ∈ users, -(2 ^ 63 : Int) ≤ u.Age ∧ u.Age < 2 ^ 63) :
    decodeUsers (encodeUsers users) = .ok users := by
  cases users with
  | nil => rfl
  | cons u us =>
    have q91 : (Char.ofNat 91).toNat = 91 := rfl
    have q123 : (Char.ofNat 123).toNat = 123 := rfl
    obtain ⟨body, hbody⟩ := encodeElems_head u us [Char.ofNat 93, Char.ofNat 10]
    have hlen : us.length + 1 ≤ (Char.ofNat 123 :: body).length := by
      rw [← hbody, List.length_append]
      have := length_le_encodeElems (u :: us)
      simp only [List.length_cons] at this ⊢
      omega
    obtain ⟨f, hf⟩ : ∃ f, (encodeUsers (u :: us)).data.length + 1 = f + 3 := by
      refine ⟨(encodeUsers (u :: us)).data.length - 2, ?_⟩
      have : 3 ≤ (encodeUsers (u :: us)).data.length := by
        simp only [encodeUsers, List.length_cons, List.length_append, List.length_nil]
        omega
      omega
    unfold decodeUsers
    rw [hf]
    have hparse : parseValue (f + 3) (encodeUsers (u :: us)).data =
        some (.arr ((u :: us).map userTree), [Char.ofNat 10]) := by
      show parseValue (f + 3)
        (Char.ofNat 91 :: (encodeElems (u :: us) ++ [Char.ofNat 93, Char.ofNat 10])) = _
      rw [parseValue, skipWs_cons _ _ (isSpaceByte_false _ (by rw [q91]; omega))]
      simp only [q91, show ¬ (91 = 123) by decide, if_false, if_true]
      rw [hbody, skipWs_cons _ _ (isSpaceByte_false _ (by rw [q123]; omega))]
      simp only [q123, show ¬ (123 = 93) by decide, if_false]
      rw [← hbody, parseElems_encodeElems f us u _ [Char.ofNat 10] [] (by rw [hbody]; exact hlen)]
      rfl
    rw [hparse]
    exact storeUsers_userTree (u :: us) h

/-- After a save that reports no error, reading the same path returns the collection
that was saved, when every age is a 64-bit `int`. -/
theorem read_after_save (fs fs2 : FileSys) (path : String) (users : List User)
    (h : ∀ u ∈ users, -(2 ^ 63 : Int) ≤ u.Age ∧ u.Age < 2 ^ 63)
    (hsave : saveUsersToFile fs path users = (fs2, none)) :
    readUsersFromFile fs2 path = .ok users := by
  unfold saveUsersToFile at hsave
  split at hsave
  · simp only [Prod.mk.injEq, and_true] at hsave
    subst hsave
    simp only [readUsersFromFile, if_true]
    exact decodeUsers_encodeUsers users h
  · simp at hsave

/-- C7: for every collection whose ages are 64-bit `int` values (in particular ages
in `[0, 150]`, with any names and ids), a `saveUsersToFile` that reports no error
followed by `readUsersFromFile` on the same path returns exactly the collection that
was saved, and the save reports no error whenever the file can be created.
Consequently, after an `addUser` with an accepted age string on a store file that can
be created, the operation reports success and reading the store file returns the
extended collection, whose last record carries the generated id, the given name and
the integer value of the age string. -/
theorem save_load_roundtrip (fs : FileSys) (path : String) (users : List User)
    (h : ∀ u ∈ users, -(2 ^ 63 : Int) ≤ u.Age ∧ u.Age < 2 ^ 63) :
    (∀ fs2, saveUsersToFile fs path users = (fs2, none) →
      readUsersFromFile fs2 path = .ok users) ∧
    (fs.creatable path = true → ∃ fs2, saveUsersToFile fs path users = (fs2, none)) ∧
    (∀ name ageStr newID : String, validateAge ageStr = none → fs.creatable storePath = true →
      ∃ age : Int, integerValue ageStr = some age ∧
        (addUser users fs (.ok name) (.ok ageStr) newID).users =
          users ++ [⟨newID, name, age⟩] ∧
        (addUser users fs (.ok name) (.ok ageStr) newID).out = ["User added successfully."] ∧
        readUsersFromFile (addUser users fs (.ok name) (.ok ageStr) newID).fs storePath =
          .ok (users ++ [⟨newID, name, age⟩])) := by
  refine ⟨fun fs2 hsave => read_after_save fs fs2 path users h hsave, ?_, ?_⟩
  · intro hc
    unfold saveUsersToFile
    rw [if_pos hc]
    exact ⟨_, rfl⟩
  · intro name ageStr newID hage hc
    obtain ⟨age, hi, h0, h150, hat⟩ := validateAge_atoi hage
    have hall : ∀ u ∈ users ++ [⟨newID, name, age⟩],
        -(2 ^ 63 : Int) ≤ u.Age ∧ u.Age < 2 ^ 63 := by
      intro u hu
      rcases List.mem_append.mp hu with h1 | h1
      · exact h u h1
      · simp only [List.mem_singleton] at h1
        subst h1
        exact ⟨by show -(2 ^ 63 : Int) ≤ age; omega, by show age < 2 ^ 63; omega⟩
    have hsave : saveUsersToFile fs storePath (users ++ [⟨newID, name, age⟩]) =
        ((saveUsersToFile fs storePath (users ++ [⟨newID, name, age⟩])).1, none) := by
      unfold saveUsersToFile
      rw [if_pos hc]
    have hres : addUser users fs (.ok name) (.ok ageStr) newID =
        ⟨users ++ [⟨newID, name, age⟩],
          (saveUsersToFile fs storePath (users ++ [⟨newID, name, age⟩])).1,
          ["User added successfully."], false⟩ := by
      unfold addUser
      simp only [hat]
      rw [hsave]
    refine ⟨age, hi, by rw [hres], by rw [hres], ?_⟩
    rw [hres]
    exact read_after_save fs _ storePath _ hall hsave

/-- C7 witness: a two-record collection saved to a creatable store file is read back
unchanged. -/
theorem save_load_roundtrip_witness :
    readUsersFromFile
        (saveUsersToFile ⟨fun _ => none, fun _ => true⟩ storePath
          [⟨"id-a", "Alice", 30⟩, ⟨"id-z", "Zoe", 20⟩]).1 storePath =
      .ok [⟨"id-a", "Alice", 30⟩, ⟨"id-z", "Zoe", 20⟩] :=
  (save_load_roundtrip ⟨fun _ => none, fun _ => true⟩ storePath
    [⟨"id-a", "Alice", 30⟩, ⟨"id-z", "Zoe", 20⟩] (by decide)).1 _ rfl

end GoPromptUI
